import Mathlib

/-!
# Marketsim: the trading engine of `simulator.c`

A shallow embedding of the market / portfolio data model of `marketsim.h` and of the
operations of `simulator.c` (`createStock`, `insertStock`, `getStock`, `createShare`,
`insertShare`, `getShare`, `buyStock`, `sellStock`, `createMarket`, `saveMarket`,
`createPortfolio`, `savePortfolio`), followed by theorems about them.

Modelling conventions.

* A C string is the list of its characters before the terminating NUL.
* The C type `double` is kept abstract: the carrier `α` and the operations the source
  applies to it (`+`, `-`, `*`, `<=`, `<`, `==` and the literal `0`) are the fields of a
  `DoubleOps α`, and every definition takes the arithmetic as its first argument.  Two
  arithmetics are given: `ieeeOps`, IEEE-754 binary64 with rounding to nearest, and
  `intOps`, exact arithmetic on whole numbers.  A theorem stated for every `DoubleOps`,
  or for every `DoubleOps` satisfying `OrderLaws`, holds for both.  `a > b` is `lt b a`.
* A finite value of binary64 denotes a rational number, `F64.toRat`.  An operation is exact
  when its operands are finite and its result denotes the result of the operation on the
  numbers they denote (`ExactAdd`, `ExactSub`, `ExactMul`): nothing is rounded and nothing
  overflows.  Theorems that depend on rounding are stated for `ieeeOps`, on the values that
  binary64 has (`F64.normalised`).
* A singly linked list (`head` / `next`) is a `List` of its nodes in traversal order; a
  pointer to a node that is only read is the node itself, a pointer that is written
  through is the node together with its position in the list.
* A pointer argument that may be `NULL` is an `Option`.
* `malloc` and `calloc` are assumed to succeed.
* What a function prints is recorded as a `Diag` value, one constructor per `printf` line.
* A file is the list of its characters, or `none` when it cannot be opened.  The
  conversions `%lf` of `fprintf` and `fscanf` are the fields of a `DoubleText α`, given
  for binary64 by `ieeeText`; the conversion `%4s` and the white-space directives are
  modelled on lists of characters.
* A local that is read before it is written holds an indeterminate value: the locals of
  `createMarket` and of `createPortfolio` are arguments of their models.
* A loop over the input takes a bound on the number of its iterations, the length of the
  input, which is never reached.
-/

namespace Marketsim

/-! ## Constants of `marketsim.h` -/

/-- The macro `TICKER_LENGTH`. -/
def TICKER_LENGTH : Nat := 4

/-- The value of `INT_MIN` for a 32-bit `int`. -/
def INT_MIN : Int := -2147483648

/-- The macro `FAILURE`. -/
def FAILURE : Int := INT_MIN

/-- The macro `SUCCESS`. -/
def SUCCESS : Int := INT_MIN + 1

/-! ## Arithmetic on `double` -/

/-- The operations on `double` that the source uses. -/
structure DoubleOps (α : Type) where
  /-- The literal `0` converted to `double`. -/
  zero : α
  /-- Binary `+`. -/
  add : α → α → α
  /-- Binary `-`. -/
  sub : α → α → α
  /-- Binary `*`. -/
  mul : α → α → α
  /-- Comparison `<=`. -/
  le : α → α → Bool
  /-- Comparison `<`. -/
  lt : α → α → Bool
  /-- Comparison `==`. -/
  eq : α → α → Bool

/-- Exact arithmetic on the integers, the whole-number values of `double`. -/
def intOps : DoubleOps Int where
  zero := 0
  add := fun a b => a + b
  sub := fun a b => a - b
  mul := fun a b => a * b
  le := fun a b => decide (a ≤ b)
  lt := fun a b => decide (a < b)
  eq := fun a b => decide (a = b)

/-- Facts about the comparisons of `double` that the theorems on validation rely on.  They
hold for IEEE-754 comparisons (where every comparison with a NaN is false) and in every
linear order. -/
structure OrderLaws {α : Type} (D : DoubleOps α) : Prop where
  /-- `x < y` implies `x <= y`. -/
  lt_le : ∀ x y, D.lt x y = true → D.le x y = true
  /-- `x < x` is false. -/
  lt_irrefl : ∀ x, D.lt x x = false
  /-- `x <= y` implies that `y < x` is false. -/
  le_not_lt : ∀ x y, D.le x y = true → D.lt y x = false

/-! ## IEEE-754 binary64

The arithmetic of `double` on the platforms the program is built for: IEEE-754 binary64
with the default rounding, to nearest with ties to even. -/

/-- A value of binary64: a NaN, an infinity, or the finite value `(-1)^neg * m * 2^e`.
Finite values are kept normalised: a zero is `fin neg 0 0`; otherwise `m < 2^53` and
`-1074 ≤ e ≤ 971`, with `2^52 ≤ m` unless `e = -1074`. -/
inductive F64 where
  | nan
  | inf (neg : Bool)
  | fin (neg : Bool) (m : Nat) (e : Int)
  deriving DecidableEq, Repr

namespace F64

/-- The number of binary digits of `m`; the first argument bounds the recursion. -/
def bitLength : Nat → Nat → Nat
  | 0, _ => 0
  | fuel + 1, m => if m = 0 then 0 else bitLength fuel (m / 2) + 1

/-- The normalised `m * 2^e` when it is in range, an infinity when it overflows. -/
def pack (neg : Bool) (m : Nat) (e : Int) : F64 :=
  if m = 0 then .fin neg 0 0 else if 971 < e then .inf neg else .fin neg m e

/-- The binary64 value nearest to the exact `(-1)^neg * m * 2^e`, ties to even. -/
def round (neg : Bool) (m : Nat) (e : Int) : F64 :=
  if m = 0 then .fin neg 0 0
  else
    let e' : Int := max (e + (bitLength m m : Int) - 53) (-1074)
    if e' ≤ e then
      pack neg (m * 2 ^ (e - e').toNat) e'
    else
      let s := (e' - e).toNat
      let q := m / 2 ^ s
      let r := m % 2 ^ s
      let half := 2 ^ (s - 1)
      let q' := if half < r ∨ (r = half ∧ q % 2 = 1) then q + 1 else q
      if q' = 2 ^ 53 then pack neg (2 ^ 52) (e' + 1) else pack neg q' e'

/-- The integer `(-1)^neg * m`. -/
def signed (neg : Bool) (m : Nat) : Int := if neg then -(m : Int) else (m : Int)

/-- Binary `+`. -/
def add : F64 → F64 → F64
  | .nan, _ => .nan
  | _, .nan => .nan
  | .inf s, .inf t => if s = t then .inf s else .nan
  | .inf s, .fin _ _ _ => .inf s
  | .fin _ _ _, .inf t => .inf t
  | .fin s m e, .fin t n f =>
    let g := min e f
    let c := signed s (m * 2 ^ (e - g).toNat) + signed t (n * 2 ^ (f - g).toNat)
    if c = 0 then .fin (s && t) 0 0 else round (decide (c < 0)) c.natAbs g

/-- Unary `-`. -/
def neg : F64 → F64
  | .nan => .nan
  | .inf s => .inf (!s)
  | .fin s m e => .fin (!s) m e

/-- Binary `-`. -/
def sub (a b : F64) : F64 := add a (neg b)

/-- Binary `*`. -/
def mul : F64 → F64 → F64
  | .nan, _ => .nan
  | _, .nan => .nan
  | .inf s, .inf t => .inf (xor s t)
  | .inf s, .fin t n _ => if n = 0 then .nan else .inf (xor s t)
  | .fin s m _, .inf t => if m = 0 then .nan else .inf (xor s t)
  | .fin s m e, .fin t n f => round (xor s t) (m * n) (e + f)

/-- Comparison `<`. -/
def lt : F64 → F64 → Bool
  | .nan, _ => false
  | _, .nan => false
  | .inf s, .inf t => s && !t
  | .inf s, .fin _ _ _ => s
  | .fin _ _ _, .inf t => !t
  | .fin s m e, .fin t n f =>
    decide (signed s (m * 2 ^ (e - min e f).toNat) < signed t (n * 2 ^ (f - min e f).toNat))

/-- Comparison `<=`. -/
def le : F64 → F64 → Bool
  | .nan, _ => false
  | _, .nan => false
  | .inf s, .inf t => s || !t
  | .inf s, .fin _ _ _ => s
  | .fin _ _ _, .inf t => !t
  | .fin s m e, .fin t n f =>
    decide (signed s (m * 2 ^ (e - min e f).toNat) ≤ signed t (n * 2 ^ (f - min e f).toNat))

/-- Comparison `==`. -/
def eq : F64 → F64 → Bool
  | .nan, _ => false
  | _, .nan => false
  | .inf s, .inf t => s == t
  | .inf _, .fin _ _ _ => false
  | .fin _ _ _, .inf _ => false
  | .fin s m e, .fin t n f =>
    decide (signed s (m * 2 ^ (e - min e f).toNat) = signed t (n * 2 ^ (f - min e f).toNat))

/-- The `double` a decimal integer literal denotes. -/
def ofNat (n : Nat) : F64 := round false n 0

/-- The library macro `isfinite`. -/
def isfinite : F64 → Bool
  | .fin _ _ _ => true
  | _ => false

/-- The value is one that binary64 has: a NaN, an infinity, a zero `fin neg 0 0`, or a
finite value with `m < 2^53` and `-1074 ≤ e ≤ 971`, where `2^52 ≤ m` unless `e = -1074`.
The operations and the conversion from text return such values only. -/
def normalised : F64 → Bool
  | .fin _ m e =>
    (m = 0 && e = 0) ||
      (0 < m && m < 2 ^ 53 && -1074 ≤ e && e ≤ 971 && (2 ^ 52 ≤ m || e = -1074))
  | _ => true

/-- The rational number that a finite value denotes; a NaN and the infinities denote
none. -/
def toRat : F64 → Option ℚ
  | .fin neg m e => some ((signed neg m : ℚ) * 2 ^ e)
  | _ => none

/-- The test `isSum a b r`: the three values are finite and `r` is the sum of `a` and `b`
without any rounding, compared in units of the smallest of the three powers of two. -/
def isSum : F64 → F64 → F64 → Bool
  | .fin s m e, .fin t n f, .fin u k g =>
    decide (signed s (m * 2 ^ (e - min (min e f) g).toNat)
        + signed t (n * 2 ^ (f - min (min e f) g).toNat)
      = signed u (k * 2 ^ (g - min (min e f) g).toNat))
  | _, _, _ => false

/-- The test `isProduct a b r`: the three values are finite and `r` is the product of `a`
and `b` without any rounding, compared in units of the smaller of the two powers of two. -/
def isProduct : F64 → F64 → F64 → Bool
  | .fin s m e, .fin t n f, .fin u k g =>
    decide (signed (xor s t) (m * n * 2 ^ (e + f - min (e + f) g).toNat)
      = signed u (k * 2 ^ (g - min (e + f) g).toNat))
  | _, _, _ => false

end F64

/-- The arithmetic of binary64. -/
def ieeeOps : DoubleOps F64 where
  zero := F64.ofNat 0
  add := F64.add
  sub := F64.sub
  mul := F64.mul
  le := F64.le
  lt := F64.lt
  eq := F64.eq

/-! ## Strings and tickers -/

/-- The library function `strcmp` up to the sign of its result: `0` when the strings are
equal, otherwise negative or positive according to the first position where they differ. -/
def strcmp : List Char → List Char → Int
  | [], [] => 0
  | [], _ :: _ => -1
  | _ :: _, [] => 1
  | a :: as, b :: bs =>
    if a = b then strcmp as bs else if a.toNat < b.toNat then -1 else 1

/-- The copy loop of `createStock` and `createShare`,
`for (i = 0; i < TICKER_LENGTH; i++) { dst[i] = src[i]; if (src[i] == '\0') break; }`
followed by `dst[TICKER_LENGTH] = '\0'`: `copyLoop n src` is the string left in `dst` when
`n` iterations remain. -/
def copyLoop : Nat → List Char → List Char
  | 0, _ => []
  | _ + 1, [] => []
  | n + 1, c :: cs => c :: copyLoop n cs

/-- The contents of a field `char ticker[TICKER_LENGTH + 1]`: a string of at most
`TICKER_LENGTH` characters. -/
structure Ticker where
  /-- The characters before the terminator. -/
  chars : List Char
  /-- The string and its terminator fit in the array. -/
  fits : chars.length ≤ TICKER_LENGTH
  deriving DecidableEq

/-- The ticker a new record stores for the string `ticker`. -/
def copyTicker (ticker : List Char) : Ticker :=
  ⟨copyLoop TICKER_LENGTH ticker, by
    rcases ticker with _ | ⟨a, _ | ⟨b, _ | ⟨c, _ | ⟨d, _ | ⟨e, rest⟩⟩⟩⟩⟩ <;>
      simp [copyLoop, TICKER_LENGTH]⟩

/-! ## Data model (`marketsim.h`) -/

/-- A node of the stock list (`struct Stock` without its `next` pointer). -/
structure Stock (α : Type) where
  price : α
  totalShares : α
  ticker : Ticker
  deriving DecidableEq

/-- The `struct Market`: the stock list from its head. -/
structure Market (α : Type) where
  head : List (Stock α)
  deriving DecidableEq

/-- A node of the share list (`struct Share` without its `next` pointer). -/
structure Share (α : Type) where
  count : α
  ticker : Ticker
  deriving DecidableEq

/-- The `struct Portfolio`: the share list from its head, and the balance. -/
structure Portfolio (α : Type) where
  head : List (Share α)
  balance : α
  deriving DecidableEq

/-- The lines the engine prints. -/
inductive Diag where
  /-- `Stock price/share count must be positive.` (`createStock`) -/
  | stockNotPositive
  /-- `No market provided.` (`insertStock`) -/
  | noMarket
  /-- `Share count must be positive.` (`createShare`) -/
  | shareNegative
  /-- `No portfolio provided.` (`insertShare`) -/
  | noPortfolio
  /-- `No market or portfolio provided.` (`buyStock`, `sellStock`) -/
  | noMarketOrPortfolio
  /-- `Shares desired must be positive.` (`buyStock`) -/
  | buyCountNotPositive
  /-- `Stock not available.` (`buyStock`) -/
  | stockNotAvailable
  /-- `Not enough shares available.` (`buyStock`, `sellStock`) -/
  | notEnoughShares
  /-- `You can't afford that trade.` (`buyStock`) -/
  | cannotAfford
  /-- `Bought ... shares of ...` (`buyStock`) -/
  | bought
  /-- `Shares to sell must be positive.` (`sellStock`) -/
  | sellCountNotPositive
  /-- `No shares of that stock in portfolio available.` (`sellStock`) -/
  | noSharesInPortfolio
  /-- `That stock doesn't exist in the market.` (`sellStock`) -/
  | stockNotInMarket
  /-- `Sold ... shares of ...` (`sellStock`) -/
  | sold
  /-- `Could not open file ...` (`createMarket`, `saveMarket`, `createPortfolio`,
  `savePortfolio`) -/
  | cannotOpen
  deriving DecidableEq, Repr

/-- The return value of a function, the lines it printed, and the memory it leaves. -/
structure Outcome (σ : Type) where
  status : Int
  printed : List Diag
  state : σ
  deriving DecidableEq

/-- The two objects a trade is given: `market` and `portfolio`, either of which may be
`NULL`. -/
structure World (α : Type) where
  market : Option (Market α)
  portfolio : Option (Portfolio α)
  deriving DecidableEq

/-! ## Market operations -/

variable {α : Type}

/-- The function `createStock`: the new node linked in front of `next`, or `NULL` with the
line printed. -/
def createStock (D : DoubleOps α) (ticker : List Char) (price totalShares : α)
    (next : List (Stock α)) : Except Diag (List (Stock α)) :=
  if D.le price D.zero || D.le totalShares D.zero then
    .error .stockNotPositive
  else
    .ok ({ price := price, totalShares := totalShares, ticker := copyTicker ticker } :: next)

/-- The function `insertStock`. -/
def insertStock (D : DoubleOps α) (market : Option (Market α)) (ticker : List Char)
    (price totalShares : α) : Outcome (Option (Market α)) :=
  match market with
  | none => ⟨FAILURE, [.noMarket], market⟩
  | some m =>
    match createStock D ticker price totalShares m.head with
    | .error d => ⟨FAILURE, [d], market⟩
    | .ok stock => ⟨SUCCESS, [], some { m with head := stock }⟩

/-- The loop of `getStock`, from the node `current`. -/
def getStockLoop (ticker : List Char) : List (Stock α) → Option (Stock α)
  | [] => none
  | current :: next =>
    if strcmp ticker current.ticker.chars = 0 then some current else getStockLoop ticker next

/-- The function `getStock`. -/
def getStock (market : Option (Market α)) (ticker : List Char) : Option (Stock α) :=
  match market with
  | none => none
  | some m => getStockLoop ticker m.head

/-! ## Portfolio operations -/

/-- The function `createShare`: the new node linked in front of `next`, or `NULL` with the
line printed. -/
def createShare (D : DoubleOps α) (ticker : List Char) (count : α)
    (next : List (Share α)) : Except Diag (List (Share α)) :=
  if D.lt count D.zero then
    .error .shareNegative
  else
    .ok ({ count := count, ticker := copyTicker ticker } :: next)

/-- The function `insertShare`. -/
def insertShare (D : DoubleOps α) (portfolio : Option (Portfolio α)) (ticker : List Char)
    (count : α) : Outcome (Option (Portfolio α)) :=
  match portfolio with
  | none => ⟨FAILURE, [.noPortfolio], portfolio⟩
  | some p =>
    match createShare D ticker count p.head with
    | .error d => ⟨FAILURE, [d], portfolio⟩
    | .ok share => ⟨SUCCESS, [], some { p with head := share }⟩

/-- The loop of `getShare`, from the node `current`: the node found and its position,
counted from `current`. -/
def getShareLoop (ticker : List Char) : List (Share α) → Option (Nat × Share α)
  | [] => none
  | current :: next =>
    if strcmp ticker current.ticker.chars = 0 then some (0, current)
    else (getShareLoop ticker next).map fun found => (found.1 + 1, found.2)

/-- The function `getShare`: the node it returns, with its position in the list. -/
def getShare (portfolio : Option (Portfolio α)) (ticker : List Char) :
    Option (Nat × Share α) :=
  match portfolio with
  | none => none
  | some p => getShareLoop ticker p.head

/-- The share list after `share->count = f (share->count)`, where `share` is the node at
the given position. -/
def writeCount (f : α → α) : Nat → List (Share α) → List (Share α)
  | _, [] => []
  | 0, share :: next => { share with count := f share.count } :: next
  | i + 1, share :: next => share :: writeCount f i next

/-! ## Trading -/

/-- The function `buyStock`. -/
def buyStock (D : DoubleOps α) (market : Option (Market α)) (portfolio : Option (Portfolio α))
    (ticker : List Char) (count : α) : Outcome (World α) :=
  match market, portfolio with
  | some _, some p =>
    if D.le count D.zero then
      ⟨FAILURE, [.buyCountNotPositive], ⟨market, portfolio⟩⟩
    else
      match getStock market ticker with
      | none => ⟨FAILURE, [.stockNotAvailable], ⟨market, portfolio⟩⟩
      | some stock =>
        if D.lt stock.totalShares count then
          ⟨FAILURE, [.notEnoughShares], ⟨market, portfolio⟩⟩
        else if D.lt p.balance (D.mul stock.price count) then
          ⟨FAILURE, [.cannotAfford], ⟨market, portfolio⟩⟩
        else
          match getShare portfolio ticker with
          | none =>
            let r := insertShare D portfolio ticker count
            if r.status = FAILURE then
              ⟨FAILURE, r.printed, ⟨market, r.state⟩⟩
            else
              ⟨SUCCESS, r.printed ++ [.bought],
                ⟨market, r.state.map fun q =>
                  { q with balance := D.sub q.balance (D.mul stock.price count) }⟩⟩
          | some share =>
            ⟨SUCCESS, [.bought],
              ⟨market, some
                { head := writeCount (fun c => D.add c count) share.1 p.head
                  balance := D.sub p.balance (D.mul stock.price count) }⟩⟩
  | _, _ => ⟨FAILURE, [.noMarketOrPortfolio], ⟨market, portfolio⟩⟩

/-- The function `sellStock`. -/
def sellStock (D : DoubleOps α) (market : Option (Market α)) (portfolio : Option (Portfolio α))
    (ticker : List Char) (count : α) : Outcome (World α) :=
  match market, portfolio with
  | some _, some p =>
    if D.le count D.zero then
      ⟨FAILURE, [.sellCountNotPositive], ⟨market, portfolio⟩⟩
    else
      match getShare portfolio ticker with
      | none => ⟨FAILURE, [.noSharesInPortfolio], ⟨market, portfolio⟩⟩
      | some share =>
        match getStock market ticker with
        | none => ⟨FAILURE, [.stockNotInMarket], ⟨market, portfolio⟩⟩
        | some stock =>
          if D.lt share.2.count count then
            ⟨FAILURE, [.notEnoughShares], ⟨market, portfolio⟩⟩
          else
            ⟨SUCCESS, [.sold],
              ⟨market, some
                { head := writeCount (fun c => D.sub c count) share.1 p.head
                  balance := D.add p.balance (D.mul stock.price count) }⟩⟩
  | _, _ => ⟨FAILURE, [.noMarketOrPortfolio], ⟨market, portfolio⟩⟩

/-! ## Sequences of trades -/

/-- A call of `buyStock` or of `sellStock`, with the ticker and the count it is given. -/
inductive TradeCall (α : Type) where
  | buy (ticker : List Char) (count : α)
  | sell (ticker : List Char) (count : α)
  deriving DecidableEq

/-- The call applied to the market and portfolio of `w`. -/
def TradeCall.run (D : DoubleOps α) (w : World α) : TradeCall α → Outcome (World α)
  | .buy ticker count => buyStock D w.market w.portfolio ticker count
  | .sell ticker count => sellStock D w.market w.portfolio ticker count

/-- The calls applied in order, each to the memory the one before it left. -/
def runCalls (D : DoubleOps α) : World α → List (TradeCall α) → World α
  | w, [] => w
  | w, c :: cs => runCalls D (c.run D w).state cs

/-- The balance a call leaves when it finds `balance`: a successful buy subtracts, and a
successful sell adds, `stock.price * count` for the stock `getStock` returns for the
ticker of the call; a failed call leaves it alone. -/
def TradeCall.settle (D : DoubleOps α) (w : World α) (c : TradeCall α) (balance : α) : α :=
  if (c.run D w).status = SUCCESS then
    match c with
    | .buy ticker count =>
      match getStock w.market ticker with
      | some stock => D.sub balance (D.mul stock.price count)
      | none => balance
    | .sell ticker count =>
      match getStock w.market ticker with
      | some stock => D.add balance (D.mul stock.price count)
      | none => balance
  else balance

/-- The balance the calls leave when the first one finds `balance`: the updates of the
successful calls, applied in call order. -/
def settleCalls (D : DoubleOps α) : World α → List (TradeCall α) → α → α
  | _, [], balance => balance
  | w, c :: cs, balance => settleCalls D (c.run D w).state cs (c.settle D w balance)

/-- The sum of `stock.price * count` over the successful buys among the calls. -/
def buyTotal (D : DoubleOps α) : World α → List (TradeCall α) → α
  | _, [] => D.zero
  | w, c :: cs =>
    match c with
    | .buy ticker count =>
      match getStock w.market ticker with
      | some stock =>
        if (c.run D w).status = SUCCESS then
          D.add (D.mul stock.price count) (buyTotal D (c.run D w).state cs)
        else buyTotal D (c.run D w).state cs
      | none => buyTotal D (c.run D w).state cs
    | .sell _ _ => buyTotal D (c.run D w).state cs

/-- The sum of `stock.price * count` over the successful sells among the calls. -/
def sellTotal (D : DoubleOps α) : World α → List (TradeCall α) → α
  | _, [] => D.zero
  | w, c :: cs =>
    match c with
    | .sell ticker count =>
      match getStock w.market ticker with
      | some stock =>
        if (c.run D w).status = SUCCESS then
          D.add (D.mul stock.price count) (sellTotal D (c.run D w).state cs)
        else sellTotal D (c.run D w).state cs
      | none => sellTotal D (c.run D w).state cs
    | .buy _ _ => sellTotal D (c.run D w).state cs

/-! ## Exact operations

A finite `double` denotes a number.  With `val` giving the number a value denotes, if any
(`F64.toRat` for binary64), an operation is exact when both operands denote a number and
the result denotes the result of the operation on these numbers: nothing was rounded and
nothing overflowed. -/

/-- The sum `a + b` is computed exactly. -/
def ExactAdd {R : Type} [CommRing R] (D : DoubleOps α) (val : α → Option R) (a b : α) :
    Prop :=
  ∃ x y, val a = some x ∧ val b = some y ∧ val (D.add a b) = some (x + y)

/-- The difference `a - b` is computed exactly. -/
def ExactSub {R : Type} [CommRing R] (D : DoubleOps α) (val : α → Option R) (a b : α) :
    Prop :=
  ∃ x y, val a = some x ∧ val b = some y ∧ val (D.sub a b) = some (x - y)

/-- The product `a * b` is computed exactly. -/
def ExactMul {R : Type} [CommRing R] (D : DoubleOps α) (val : α → Option R) (a b : α) :
    Prop :=
  ∃ x y, val a = some x ∧ val b = some y ∧ val (D.mul a b) = some (x * y)

/-- The number a value denotes, `0` when it denotes none. -/
def valueOf {R : Type} [CommRing R] (val : α → Option R) (x : α) : R := (val x).getD 0

/-- The operations on `double` that a successful call performs on the balance are exact:
the product `stock.price * count` and the update of the balance by it. -/
def TradeCall.Exact {R : Type} [CommRing R] (D : DoubleOps α) (val : α → Option R)
    (w : World α) : TradeCall α → Prop
  | .buy ticker count =>
    match getStock w.market ticker, w.portfolio with
    | some stock, some p =>
      (buyStock D w.market w.portfolio ticker count).status = SUCCESS →
        ExactMul D val stock.price count ∧
          ExactSub D val p.balance (D.mul stock.price count)
    | _, _ => True
  | .sell ticker count =>
    match getStock w.market ticker, w.portfolio with
    | some stock, some p =>
      (sellStock D w.market w.portfolio ticker count).status = SUCCESS →
        ExactMul D val stock.price count ∧
          ExactAdd D val p.balance (D.mul stock.price count)
    | _, _ => True

/-- Every call of the sequence, applied to the memory the one before it left, is exact. -/
def ExactRun {R : Type} [CommRing R] (D : DoubleOps α) (val : α → Option R) :
    World α → List (TradeCall α) → Prop
  | _, [] => True
  | w, c :: cs => c.Exact D val w ∧ ExactRun D val (c.run D w).state cs

/-- The sum, as numbers, of `stock.price * count` over the successful buys among the
calls. -/
def buyValue {R : Type} [CommRing R] (D : DoubleOps α) (val : α → Option R) :
    World α → List (TradeCall α) → R
  | _, [] => 0
  | w, c :: cs =>
    match c with
    | .buy ticker count =>
      match getStock w.market ticker with
      | some stock =>
        if (c.run D w).status = SUCCESS then
          valueOf val stock.price * valueOf val count + buyValue D val (c.run D w).state cs
        else buyValue D val (c.run D w).state cs
      | none => buyValue D val (c.run D w).state cs
    | .sell _ _ => buyValue D val (c.run D w).state cs

/-- The sum, as numbers, of `stock.price * count` over the successful sells among the
calls. -/
def sellValue {R : Type} [CommRing R] (D : DoubleOps α) (val : α → Option R) :
    World α → List (TradeCall α) → R
  | _, [] => 0
  | w, c :: cs =>
    match c with
    | .sell ticker count =>
      match getStock w.market ticker with
      | some stock =>
        if (c.run D w).status = SUCCESS then
          valueOf val stock.price * valueOf val count + sellValue D val (c.run D w).state cs
        else sellValue D val (c.run D w).state cs
      | none => sellValue D val (c.run D w).state cs
    | .buy _ _ => sellValue D val (c.run D w).state cs

/-! ## Text files

A file is the list of its characters.  The conversions of `fscanf` and `fprintf` for
`double` are the fields of a `DoubleText α`; `ieeeText` gives them for binary64. -/

/-- The macro `EOF`. -/
def EOF : Int := -1

/-- The library function `isspace`, in the "C" locale. -/
def isspace (c : Char) : Bool :=
  c = ' ' || c = '\t' || c = '\n' || c = Char.ofNat 11 || c = Char.ofNat 12 || c = '\r'

/-- What a white-space directive of `fscanf`, and a conversion before it reads, do: the
input after its leading white space. -/
def skipSpace : List Char → List Char
  | [] => []
  | c :: cs => if isspace c then skipSpace cs else c :: cs

/-- The conversion `%Ns` of `fscanf`, for the width `N`, on an input that does not start
with white space: the string stored and the unread input. -/
def scanString : Nat → List Char → List Char × List Char
  | 0, input => ([], input)
  | _ + 1, [] => ([], [])
  | n + 1, c :: cs =>
    if isspace c then ([], c :: cs) else (c :: (scanString n cs).1, (scanString n cs).2)

/-- The conversions of `double` to and from text. -/
structure DoubleText (α : Type) where
  /-- The text `fprintf` writes for the conversion `%lf`. -/
  print : α → List Char
  /-- The conversion `%lf` of `fscanf` on an input that does not start with white space:
  the value converted, none on a matching failure, and the number of characters read. -/
  scan : List Char → Option α × Nat

/-- The pointer a constructor returns, `none` for `NULL`, and the lines it printed. -/
structure Created (σ : Type) where
  printed : List Diag
  result : Option σ
  deriving DecidableEq

/-- The locals `ticker`, `price` and `totalShares` of `createMarket`. -/
structure StockLocals (α : Type) where
  ticker : List Char
  price : α
  totalShares : α
  deriving DecidableEq

/-- The call `fscanf(f, "%4s %lf %lf\n", ticker, &price, &totalShares)`: the value
returned, the locals and the unread input it leaves. -/
def fscanfStock (T : DoubleText α) (input : List Char) (v : StockLocals α) :
    Int × StockLocals α × List Char :=
  match skipSpace input with
  | [] => (EOF, v, [])
  | c :: cs =>
    let word := scanString TICKER_LENGTH (c :: cs)
    match skipSpace word.2 with
    | [] => (1, { v with ticker := word.1 }, [])
    | c1 :: cs1 =>
      match T.scan (c1 :: cs1) with
      | (none, n) => (1, { v with ticker := word.1 }, (c1 :: cs1).drop n)
      | (some price, n) =>
        match skipSpace ((c1 :: cs1).drop n) with
        | [] => (2, { v with ticker := word.1, price := price }, [])
        | c2 :: cs2 =>
          match T.scan (c2 :: cs2) with
          | (none, k) =>
            (2, { v with ticker := word.1, price := price }, (c2 :: cs2).drop k)
          | (some totalShares, k) =>
            (3, { ticker := word.1, price := price, totalShares := totalShares },
              skipSpace ((c2 :: cs2).drop k))

/-- The loop of `createMarket`, `while (fscanf(...) != EOF)`, on the unread input, with
the locals and the market as they stand.  The first argument bounds the number of
iterations; the length of the input is enough (`createMarketLoop_fuel`). -/
def createMarketLoop (T : DoubleText α) (D : DoubleOps α) :
    Nat → List Char → StockLocals α → Option (Market α) → Created (Market α)
  | 0, _, _, market => ⟨[], market⟩
  | fuel + 1, input, v, market =>
    let r := fscanfStock T input v
    if r.1 = EOF then ⟨[], market⟩
    else
      let i := insertStock D market r.2.1.ticker r.2.1.price r.2.1.totalShares
      if i.status = FAILURE then ⟨i.printed, none⟩
      else createMarketLoop T D fuel r.2.2 r.2.1 i.state

/-- The function `createMarket`, on the contents of the file, `none` when it cannot be
opened, and the indeterminate values its locals start with. -/
def createMarket (T : DoubleText α) (D : DoubleOps α) (file : Option (List Char))
    (v : StockLocals α) : Created (Market α) :=
  match file with
  | none => ⟨[.cannotOpen], none⟩
  | some text => createMarketLoop T D text.length text v (some { head := [] })

/-- The loop of `saveMarket`, from the node `current`: the text written by the calls
`fprintf(f, "%s %lf %lf\n", ...)`. -/
def saveMarketLoop (T : DoubleText α) : List (Stock α) → List Char
  | [] => []
  | current :: next =>
    (current.ticker.chars ++ ' ' :: (T.print current.price ++
      ' ' :: (T.print current.totalShares ++ ['\n']))) ++ saveMarketLoop T next

/-- The function `saveMarket`: the value returned and the contents of the file written,
none when no file is written; `opens` tells whether the file can be opened. -/
def saveMarket (T : DoubleText α) (market : Option (Market α)) (opens : Bool) :
    Outcome (Option (List Char)) :=
  match market with
  | none => ⟨FAILURE, [.noMarket], none⟩
  | some m =>
    if opens then ⟨SUCCESS, [], some (saveMarketLoop T m.head)⟩
    else ⟨FAILURE, [.cannotOpen], none⟩

/-- The locals `ticker` and `shares` of `createPortfolio`. -/
structure ShareLocals (α : Type) where
  ticker : List Char
  shares : α
  deriving DecidableEq

/-- The call `fscanf(f, "%lf\n", &(portfolio->balance))`: the balance and the unread input
it leaves. -/
def fscanfBalance (T : DoubleText α) (input : List Char) (balance : α) : α × List Char :=
  match skipSpace input with
  | [] => (balance, [])
  | c :: cs =>
    match T.scan (c :: cs) with
    | (none, n) => (balance, (c :: cs).drop n)
    | (some b, n) => (b, skipSpace ((c :: cs).drop n))

/-- The call `fscanf(f, "%4s %lf\n", ticker, &shares)`: the value returned, the locals and
the unread input it leaves. -/
def fscanfShare (T : DoubleText α) (input : List Char) (v : ShareLocals α) :
    Int × ShareLocals α × List Char :=
  match skipSpace input with
  | [] => (EOF, v, [])
  | c :: cs =>
    let word := scanString TICKER_LENGTH (c :: cs)
    match skipSpace word.2 with
    | [] => (1, { v with ticker := word.1 }, [])
    | c1 :: cs1 =>
      match T.scan (c1 :: cs1) with
      | (none, n) => (1, { v with ticker := word.1 }, (c1 :: cs1).drop n)
      | (some shares, n) =>
        (2, { ticker := word.1, shares := shares }, skipSpace ((c1 :: cs1).drop n))

/-- The loop of `createPortfolio`, on the unread input, with the locals and the portfolio
as they stand.  The first argument bounds the number of iterations; the length of the
input is enough (`createPortfolioLoop_fuel`). -/
def createPortfolioLoop (T : DoubleText α) (D : DoubleOps α) :
    Nat → List Char → ShareLocals α → Option (Portfolio α) → Created (Portfolio α)
  | 0, _, _, portfolio => ⟨[], portfolio⟩
  | fuel + 1, input, v, portfolio =>
    let r := fscanfShare T input v
    if r.1 = EOF then ⟨[], portfolio⟩
    else if D.eq r.2.1.shares D.zero then createPortfolioLoop T D fuel r.2.2 r.2.1 portfolio
    else
      let i := insertShare D portfolio r.2.1.ticker r.2.1.shares
      if i.status = FAILURE then ⟨i.printed, none⟩
      else createPortfolioLoop T D fuel r.2.2 r.2.1 i.state

/-- The function `createPortfolio`, on the contents of the file, `none` when it cannot be
opened, and the indeterminate values its locals start with.  The portfolio starts as
`calloc` leaves it: no holdings and the balance `0`. -/
def createPortfolio (T : DoubleText α) (D : DoubleOps α) (file : Option (List Char))
    (v : ShareLocals α) : Created (Portfolio α) :=
  match file with
  | none => ⟨[.cannotOpen], none⟩
  | some text =>
    let b := fscanfBalance T text D.zero
    createPortfolioLoop T D b.2.length b.2 v (some { head := [], balance := b.1 })

/-- The loop of `savePortfolio`, from the node `current`: the text written by the calls
`fprintf(f, "%s %lf\n", ...)`. -/
def savePortfolioLoop (T : DoubleText α) : List (Share α) → List Char
  | [] => []
  | current :: next =>
    (current.ticker.chars ++ ' ' :: (T.print current.count ++ ['\n'])) ++
      savePortfolioLoop T next

/-- The function `savePortfolio`: the value returned and the contents of the file written,
none when no file is written; `opens` tells whether the file can be opened. -/
def savePortfolio (T : DoubleText α) (portfolio : Option (Portfolio α)) (opens : Bool) :
    Outcome (Option (List Char)) :=
  match portfolio with
  | none => ⟨FAILURE, [.noPortfolio], none⟩
  | some p =>
    if opens then
      ⟨SUCCESS, [], some (T.print p.balance ++ '\n' :: savePortfolioLoop T p.head)⟩
    else ⟨FAILURE, [.cannotOpen], none⟩

/-! ### The conversions of binary64

`F64.print` is `%lf` of `fprintf`: six digits after the point, the exact value rounded to
nearest, ties to even.  `F64.scan` is `%lf` of `fscanf` for the decimal forms without an
exponent part and for `inf` and `nan`, the forms `F64.print` writes, converted with
correct rounding; exponent parts and hexadecimal forms are not read.  On a text that only
starts like `inf` or `nan` the number of characters read may differ from the library's.
Binary64 is modelled with a single NaN, which `F64.print` writes as `nan` whatever the
sign the library would give it. -/

namespace F64

/-- The nearest binary64 value to `(-1)^neg * n / d`, for `d > 0`. -/
def ofRatio (neg : Bool) (n d : Nat) : F64 :=
  let s := 64 + bitLength d d
  let q := n * 2 ^ s / d
  let r := n * 2 ^ s % d
  round neg (2 * q + (if r = 0 then 0 else 1)) (-(s : Int) - 1)

/-- The integer nearest to `m * 2^e * 10^6`, ties to even. -/
def scaled (m : Nat) (e : Int) : Nat :=
  if 0 ≤ e then m * 2 ^ e.toNat * 10 ^ 6
  else
    let d := 2 ^ (-e).toNat
    let q := m * 10 ^ 6 / d
    let r := m * 10 ^ 6 % d
    if d < 2 * r ∨ (2 * r = d ∧ q % 2 = 1) then q + 1 else q

/-- The text `fprintf` writes for the conversion `%lf`. -/
def print : F64 → List Char
  | .nan => ['n', 'a', 'n']
  | .inf neg => (if neg then ['-'] else []) ++ ['i', 'n', 'f']
  | .fin neg m e =>
    (if neg then ['-'] else []) ++ Nat.toDigits 10 (scaled m e / 10 ^ 6) ++
      '.' :: (Nat.toDigits 10 (10 ^ 6 + scaled m e % 10 ^ 6)).drop 1

/-- The value of a string of decimal digits, after the digits valued `acc`. -/
def digitsValue (acc : Nat) : List Char → Nat
  | [] => acc
  | c :: cs => digitsValue (10 * acc + (c.toNat - 48)) cs

/-- The conversion `%lf` of `fscanf` on the characters before the next white space, after
the sign: the value converted, if they start with a decimal number, `inf` or `nan`, and the
number of characters read. -/
def scanUnsigned (neg : Bool) (input : List Char) : Option F64 × Nat :=
  let low := (input.take 3).map Char.toLower
  if low = ['i', 'n', 'f'] then
    (some (.inf neg),
      if (input.take 8).map Char.toLower = ['i', 'n', 'f', 'i', 'n', 'i', 't', 'y'] then 8
      else 3)
  else if low = ['n', 'a', 'n'] then (some .nan, 3)
  else
    let whole := input.takeWhile Char.isDigit
    let afterWhole := input.drop whole.length
    match afterWhole with
    | '.' :: more =>
      let frac := more.takeWhile Char.isDigit
      if whole = [] ∧ frac = [] then (none, 1)
      else (some (ofRatio neg (digitsValue 0 (whole ++ frac)) (10 ^ frac.length)),
        whole.length + 1 + frac.length)
    | _ =>
      if whole = [] then (none, 0)
      else (some (ofRatio neg (digitsValue 0 whole) 1), whole.length)

/-- The conversion `%lf` of `fscanf` on the characters before the next white space. -/
def scanToken : List Char → Option F64 × Nat
  | '-' :: input => ((scanUnsigned true input).1, (scanUnsigned true input).2 + 1)
  | '+' :: input => ((scanUnsigned false input).1, (scanUnsigned false input).2 + 1)
  | input => scanUnsigned false input

/-- The conversion `%lf` of `fscanf`.  It reads no white space, so that it is a function
of the characters before the next white space. -/
def scan (input : List Char) : Option F64 × Nat :=
  scanToken (input.takeWhile fun c => !isspace c)

end F64

/-- The conversions of binary64 to and from text. -/
def ieeeText : DoubleText F64 where
  print := F64.print
  scan := F64.scan

/-- The ticker is one the conversion `%4s` can read back: it is not empty and holds no
white space. -/
def Ticker.Readable (t : Ticker) : Prop :=
  t.chars ≠ [] ∧ ∀ c ∈ t.chars, isspace c = false

/-- The value is written by `%lf` as a text that `%lf` reads back as the same value, when
a blank or a newline follows it. -/
def ReadsBack (T : DoubleText α) (x : α) : Prop :=
  (∃ c cs, T.print x = c :: cs ∧ isspace c = false) ∧
  ∀ rest, T.scan (T.print x ++ ' ' :: rest) = (some x, (T.print x).length) ∧
    T.scan (T.print x ++ '\n' :: rest) = (some x, (T.print x).length)

/-- The record is one `insertStock` accepts: neither `price <= 0` nor
`totalShares <= 0`. -/
def Stock.accepted (D : DoubleOps α) (s : Stock α) : Bool :=
  !(D.le s.price D.zero || D.le s.totalShares D.zero)

/-- The record is kept by a save followed by a load: its ticker can be read back, and so
can its price and its total shares. -/
def Stock.Portable (T : DoubleText α) (s : Stock α) : Prop :=
  s.ticker.Readable ∧ ReadsBack T s.price ∧ ReadsBack T s.totalShares

/-- The holding is one `createPortfolio` inserts: its count is not `== 0`. -/
def Share.held (D : DoubleOps α) (s : Share α) : Bool := !D.eq s.count D.zero

/-- The holding is one `insertShare` accepts: not `count < 0`. -/
def Share.accepted (D : DoubleOps α) (s : Share α) : Bool := !D.lt s.count D.zero

/-- The holding is kept by a save followed by a load, when it is not skipped: its ticker
can be read back, and so can its count. -/
def Share.Portable (T : DoubleText α) (s : Share α) : Prop :=
  s.ticker.Readable ∧ ReadsBack T s.count

/-! ## Scenario data -/

/-- The ticker `AAPL`. -/
def AAPL : List Char := ['A', 'A', 'P', 'L']

/-- The ticker `ZZZZ`. -/
def ZZZZ : List Char := ['Z', 'Z', 'Z', 'Z']

/-- The record of the line `AAPL 150.000000 1000.000000`. -/
def scenarioStock : Stock Int :=
  { price := 150, totalShares := 1000, ticker := copyTicker AAPL }

/-- The market of the file `AAPL 150.000000 1000.000000`. -/
def scenarioMarket : Market Int := { head := [scenarioStock] }

/-- The portfolio with balance `1000.000000` and no holdings. -/
def scenarioPortfolio : Portfolio Int := { head := [], balance := 1000 }

/-- The portfolio after `buy(AAPL, 5)`: balance `250.000000`, one holding of 5 `AAPL`. -/
def scenarioPortfolioAfterBuy : Portfolio Int :=
  { head := [{ count := 5, ticker := copyTicker AAPL }], balance := 250 }

/-- A ticker string of six characters. -/
def GOOGLE : List Char := ['G', 'O', 'O', 'G', 'L', 'E']

/-- A portfolio with balance `150000.000000` and no holdings, enough to buy every share of
`scenarioMarket`. -/
def fundedPortfolio : Portfolio Int := { head := [], balance := 150000 }

/-- The market of the file `AAPL 1.000000 1000.000000`, in binary64. -/
def unitMarket : Market F64 :=
  { head := [{ price := F64.ofNat 1, totalShares := F64.ofNat 1000,
               ticker := copyTicker AAPL }] }

/-- The portfolio of the file `18014398509481984.000000` (the balance is `2^54`), in
binary64. -/
def largePortfolio : Portfolio F64 := { head := [], balance := F64.ofNat 18014398509481984 }

/-- A portfolio with two holdings, of `ZZZZ` and of `AAPL`. -/
def twoHoldings : Portfolio Int :=
  { head := [{ count := 2, ticker := copyTicker ZZZZ },
             { count := 5, ticker := copyTicker AAPL }],
    balance := 1000 }

/-- The portfolio of the file `0.000000`, `AAPL 5.000000`, in binary64. -/
def fiveShares : Portfolio F64 :=
  { head := [{ count := F64.ofNat 5, ticker := copyTicker AAPL }], balance := F64.ofNat 0 }

/-- The portfolio of the file `0.000000`, `AAPL inf`, in binary64. -/
def infiniteShares : Portfolio F64 :=
  { head := [{ count := .inf false, ticker := copyTicker AAPL }], balance := F64.ofNat 0 }

/-- The portfolio of the file `9007199254740994.000000` (the balance is `2^53 + 2`), in
binary64. -/
def evenPortfolio : Portfolio F64 := { head := [], balance := F64.ofNat 9007199254740994 }

/-- The locals of `createMarket`, holding zeros. -/
def zeroStockLocals : StockLocals F64 :=
  { ticker := [], price := F64.ofNat 0, totalShares := F64.ofNat 0 }

/-- The locals of `createPortfolio`, holding zeros. -/
def zeroShareLocals : ShareLocals F64 := { ticker := [], shares := F64.ofNat 0 }

/-- A market file of two records. -/
def twoStocksText : List Char := "AAPL 150 1000\nZZZZ 0.5 20\n".toList

/-- The market `createMarket` loads from `twoStocksText`: `ZZZZ 0.5 20` in front of
`AAPL 150 1000`. -/
def twoStocks : Market F64 :=
  { head := [{ price := .fin false 4503599627370496 (-53), totalShares := F64.ofNat 20,
               ticker := copyTicker ZZZZ },
             { price := F64.ofNat 150, totalShares := F64.ofNat 1000,
               ticker := copyTicker AAPL }] }

/-- A market file whose price has nine digits after the point. -/
def tinyPriceText : List Char := "AAPL 0.000000001 1000\n".toList

/-- The market `createMarket` loads from `tinyPriceText`: the price is the binary64 value
nearest to `0.000000001`. -/
def tinyPriceMarket : Market F64 :=
  { head := [{ price := .fin false 4835703278458517 (-82), totalShares := F64.ofNat 1000,
               ticker := copyTicker AAPL }] }

/-- A market file whose second record has a price that is not a number. -/
def malformedText : List Char := "AAPL 150 1000\nMSFT abc 5\n".toList

/-- A market file whose second record has a price `<= 0`. -/
def rejectedText : List Char := "AAPL 150 1000\nMSFT -1 5\nZZZZ 2 3\n".toList

/-- A portfolio with the balance `250`, a holding of 5 `AAPL` and a holding of 0 `ZZZZ`,
in binary64. -/
def soldOut : Portfolio F64 :=
  { head := [{ count := F64.ofNat 5, ticker := copyTicker AAPL },
             { count := F64.ofNat 0, ticker := copyTicker ZZZZ }],
    balance := F64.ofNat 250 }

/-- A portfolio file whose holding has nine digits after the point. -/
def dustText : List Char := "0.5\nAAPL 0.000000001\n".toList

/-- The portfolio `createPortfolio` loads from `dustText`: the balance `0.5` and a holding
of `AAPL` whose count is the binary64 value nearest to `0.000000001`. -/
def dustPortfolio : Portfolio F64 :=
  { head := [{ count := .fin false 4835703278458517 (-82), ticker := copyTicker AAPL }],
    balance := .fin false 4503599627370496 (-53) }

/-- The market `insertStock` builds from the empty market with the empty ticker, the
price `1` and one share. -/
def emptyTickerMarket : Market F64 :=
  { head := [{ price := F64.ofNat 1, totalShares := F64.ofNat 1, ticker := copyTicker [] }] }

/-- The portfolio `insertShare` builds from the balance `250` and no holdings with the
empty ticker and the count `5`. -/
def emptyTickerPortfolio : Portfolio F64 :=
  { head := [{ count := F64.ofNat 5, ticker := copyTicker [] }], balance := F64.ofNat 250 }

/-- The portfolio of the file `1000.000000`, in binary64: no holdings. -/
def cashPortfolio : Portfolio F64 := { head := [], balance := F64.ofNat 1000 }

/-- The calls `buy(AAPL, 5)`, `sell(AAPL, 10)`, `sell(AAPL, 2)`, `buy(ZZZZ, 3)`, in
binary64. -/
def cashCalls : List (TradeCall F64) :=
  [.buy AAPL (F64.ofNat 5), .sell AAPL (F64.ofNat 10), .sell AAPL (F64.ofNat 2),
    .buy ZZZZ (F64.ofNat 3)]

/-- The record of `AAPL` in `twoStocks`. -/
def appleStock : Stock F64 :=
  { price := F64.ofNat 150, totalShares := F64.ofNat 1000, ticker := copyTicker AAPL }

/-- The market of the file `AAPL 1.000000 inf`, in binary64. -/
def boundlessMarket : Market F64 :=
  { head := [{ price := F64.ofNat 1, totalShares := .inf false, ticker := copyTicker AAPL }] }

/-- The portfolio of the file `inf`, in binary64: no holdings. -/
def boundlessPortfolio : Portfolio F64 := { head := [], balance := .inf false }

/-- The portfolio of the file `10.000000`, `AAPL 9007199254740992.000000` (the count is
`2^53`), in binary64. -/
def fullHolding : Portfolio F64 :=
  { head := [{ count := F64.ofNat 9007199254740992, ticker := copyTicker AAPL }],
    balance := F64.ofNat 10 }

/-! ## Lemmas on strings and lookups -/

theorem ieeeOps_orderLaws : OrderLaws ieeeOps where
  lt_le := by
    intro x y h
    cases x <;> cases y <;>
      simp_all [ieeeOps, F64.lt, F64.le]
    exact le_of_lt h
  lt_irrefl := by
    intro x
    cases x <;> simp [ieeeOps, F64.lt]
  le_not_lt := by
    intro x y h
    cases x <;> cases y <;>
      simp_all [ieeeOps, F64.lt, F64.le]
    · rcases h with h | h <;> simp [h]
    · rw [min_comm]
      exact h

theorem intOps_orderLaws : OrderLaws intOps where
  lt_le := by
    intro x y h
    simp only [intOps, decide_eq_true_eq] at h ⊢
    exact le_of_lt h
  lt_irrefl := by
    intro x
    simp [intOps]
  le_not_lt := by
    intro x y h
    simp only [intOps, decide_eq_true_eq, decide_eq_false_iff_not, not_lt] at h ⊢
    exact h


theorem strcmp_eq_zero_iff (a b : List Char) : strcmp a b = 0 ↔ a = b := by
  induction a generalizing b with
  | nil => cases b <;> simp [strcmp]
  | cons x xs ih =>
    cases b with
    | nil => simp [strcmp]
    | cons y ys =>
      by_cases hxy : x = y
      · simp [strcmp, hxy, ih]
      · by_cases hlt : x.toNat < y.toNat <;> simp [strcmp, hxy, hlt]

theorem copyLoop_eq_take (n : Nat) (src : List Char) : copyLoop n src = src.take n := by
  induction n generalizing src with
  | zero => simp [copyLoop]
  | succ n ih =>
    cases src with
    | nil => simp [copyLoop]
    | cons c cs => simp [copyLoop, ih]

theorem copyTicker_chars (ticker : List Char) :
    (copyTicker ticker).chars = ticker.take TICKER_LENGTH := by
  simp [copyTicker, copyLoop_eq_take]

theorem copyTicker_chars_of_le (ticker : List Char) (h : ticker.length ≤ TICKER_LENGTH) :
    (copyTicker ticker).chars = ticker := by
  rw [copyTicker_chars, List.take_of_length_le h]

theorem getStockLoop_some {ticker : List Char} {l : List (Stock α)} {stock : Stock α}
    (h : getStockLoop ticker l = some stock) : stock ∈ l ∧ stock.ticker.chars = ticker := by
  induction l with
  | nil => simp [getStockLoop] at h
  | cons current next ih =>
    by_cases hc : strcmp ticker current.ticker.chars = 0
    · simp only [getStockLoop, hc, if_true, Option.some.injEq] at h
      subst h
      exact ⟨List.mem_cons_self _ _, ((strcmp_eq_zero_iff _ _).1 hc).symm⟩
    · simp only [getStockLoop, hc, if_false] at h
      exact ⟨List.mem_cons_of_mem _ (ih h).1, (ih h).2⟩

theorem getStock_some_length {market : Option (Market α)} {ticker : List Char}
    {stock : Stock α} (h : getStock market ticker = some stock) :
    ticker.length ≤ TICKER_LENGTH := by
  cases market with
  | none => simp [getStock] at h
  | some m =>
    have hs := (getStockLoop_some (by simpa [getStock] using h)).2
    rw [← hs]
    exact stock.ticker.fits

theorem getShareLoop_some {ticker : List Char} {l : List (Share α)} {found : Nat × Share α}
    (h : getShareLoop ticker l = some found) :
    l[found.1]? = some found.2 ∧ found.2.ticker.chars = ticker ∧
      ∀ j, j < found.1 → ∀ s, l[j]? = some s → s.ticker.chars ≠ ticker := by
  induction l generalizing found with
  | nil => simp [getShareLoop] at h
  | cons current next ih =>
    by_cases hc : strcmp ticker current.ticker.chars = 0
    · simp only [getShareLoop, hc, if_true, Option.some.injEq] at h
      subst h
      refine ⟨by simp, ((strcmp_eq_zero_iff _ _).1 hc).symm, ?_⟩
      intro j hj
      simp at hj
    · simp only [getShareLoop, hc, if_false, Option.map_eq_some'] at h
      obtain ⟨f, hf, rfl⟩ := h
      obtain ⟨h1, h2, h3⟩ := ih hf
      refine ⟨by simpa using h1, h2, ?_⟩
      intro j hj s hs
      cases j with
      | zero =>
        simp only [List.getElem?_cons_zero, Option.some.injEq] at hs
        subst hs
        intro heq
        exact hc ((strcmp_eq_zero_iff _ _).2 heq.symm)
      | succ j =>
        simp only [List.getElem?_cons_succ] at hs
        exact h3 j (by simpa using hj) s hs

theorem writeCount_eq_set (f : α → α) (l : List (Share α)) (i : Nat) (node : Share α)
    (h : l[i]? = some node) : writeCount f i l = l.set i { node with count := f node.count } := by
  induction l generalizing i with
  | nil => simp at h
  | cons s rest ih =>
    cases i with
    | zero =>
      simp only [List.getElem?_cons_zero, Option.some.injEq] at h
      subst h
      simp [writeCount]
    | succ i =>
      simp only [List.getElem?_cons_succ] at h
      simp [writeCount, ih i h]

/-! ## Effect of a successful trade -/

/-- C1. When `buyStock` returns `SUCCESS`, the market and the portfolio are present,
`getStock` finds a stock for the ticker, and the portfolio left has the old balance minus
`stock.price * count`; if `getShare` found no holding, the share list is the old one with
one new node in front, holding the ticker and `count`; otherwise it is the old list in
which the node `getShare` returned has `count` added to its count, all other nodes being
the same. -/
theorem buyStock_success_effect (D : DoubleOps α) (market : Option (Market α))
    (portfolio : Option (Portfolio α)) (ticker : List Char) (count : α)
    (h : (buyStock D market portfolio ticker count).status = SUCCESS) :
    ∃ p stock p', portfolio = some p ∧ getStock market ticker = some stock ∧
      (buyStock D market portfolio ticker count).state.portfolio = some p' ∧
      p'.balance = D.sub p.balance (D.mul stock.price count) ∧
      (getShare portfolio ticker = none →
        ∃ share, p'.head = share :: p.head ∧ share.ticker.chars = ticker ∧
          share.count = count) ∧
      (∀ found, getShare portfolio ticker = some found →
        p.head[found.1]? = some found.2 ∧
        p'.head = p.head.set found.1
          { found.2 with count := D.add found.2.count count }) := by
  have hne : FAILURE ≠ SUCCESS := by decide
  rcases market with _ | m <;> rcases portfolio with _ | p <;>
    try (exact absurd (by simpa [buyStock] using h) hne)
  by_cases hcount : D.le count D.zero = true
  · exact absurd (by simpa [buyStock, hcount] using h) hne
  cases hstock : getStock (some m) ticker with
  | none => exact absurd (by simpa [buyStock, hcount, hstock] using h) hne
  | some stock =>
    by_cases hshares : D.lt stock.totalShares count = true
    · exact absurd (by simpa [buyStock, hcount, hstock, hshares] using h) hne
    by_cases hfunds : D.lt p.balance (D.mul stock.price count) = true
    · exact absurd (by simpa [buyStock, hcount, hstock, hshares, hfunds] using h) hne
    have hlen := getStock_some_length hstock
    cases hshare : getShare (some p) ticker with
    | none =>
      by_cases hneg : D.lt count D.zero = true
      · exact absurd (by simpa [buyStock, hcount, hstock, hshares, hfunds, hshare,
          insertShare, createShare, hneg] using h) hne
      · simp [buyStock, hcount, hstock, hshares, hfunds, hshare, insertShare, createShare,
          hneg, hne.symm, copyTicker_chars_of_le ticker hlen]
    | some found =>
      have hfound := (getShareLoop_some (by simpa [getShare] using hshare)).1
      simp [buyStock, hcount, hstock, hshares, hfunds, hshare, hfound,
        writeCount_eq_set _ _ _ _ hfound]

theorem buyStock_success_effect_witness :
    buyStock intOps (some scenarioMarket) (some scenarioPortfolio) AAPL 5 =
        ⟨SUCCESS, [.bought], ⟨some scenarioMarket, some scenarioPortfolioAfterBuy⟩⟩ ∧
      ∃ p stock p', some scenarioPortfolio = some p ∧
        getStock (some scenarioMarket) AAPL = some stock ∧
        (buyStock intOps (some scenarioMarket) (some scenarioPortfolio) AAPL
          5).state.portfolio = some p' ∧
        p'.balance = intOps.sub p.balance (intOps.mul stock.price 5) ∧
        (getShare (some scenarioPortfolio) AAPL = none →
          ∃ share, p'.head = share :: p.head ∧ share.ticker.chars = AAPL ∧
            share.count = 5) ∧
        (∀ found, getShare (some scenarioPortfolio) AAPL = some found →
          p.head[found.1]? = some found.2 ∧
          p'.head = p.head.set found.1
            { found.2 with count := intOps.add found.2.count 5 }) :=
  ⟨by decide,
    buyStock_success_effect intOps (some scenarioMarket) (some scenarioPortfolio) AAPL 5
      (by decide)⟩

/-- C2. When `sellStock` returns `SUCCESS`, the market and the portfolio are present,
`getStock` finds a stock and `getShare` a holding for the ticker, and the portfolio left
has the old balance plus `stock.price * count` and the old share list in which the node
`getShare` returned has `count` subtracted from its count, all other nodes being the
same. -/
theorem sellStock_success_effect (D : DoubleOps α) (market : Option (Market α))
    (portfolio : Option (Portfolio α)) (ticker : List Char) (count : α)
    (h : (sellStock D market portfolio ticker count).status = SUCCESS) :
    ∃ p stock found p', portfolio = some p ∧ getStock market ticker = some stock ∧
      getShare portfolio ticker = some found ∧ p.head[found.1]? = some found.2 ∧
      (sellStock D market portfolio ticker count).state.portfolio = some p' ∧
      p'.balance = D.add p.balance (D.mul stock.price count) ∧
      p'.head = p.head.set found.1
        { found.2 with count := D.sub found.2.count count } := by
  have hne : FAILURE ≠ SUCCESS := by decide
  rcases market with _ | m <;> rcases portfolio with _ | p <;>
    try (exact absurd (by simpa [sellStock] using h) hne)
  by_cases hcount : D.le count D.zero = true
  · exact absurd (by simpa [sellStock, hcount] using h) hne
  cases hshare : getShare (some p) ticker with
  | none => exact absurd (by simpa [sellStock, hcount, hshare] using h) hne
  | some found =>
    cases hstock : getStock (some m) ticker with
    | none => exact absurd (by simpa [sellStock, hcount, hshare, hstock] using h) hne
    | some stock =>
      by_cases hshares : D.lt found.2.count count = true
      · exact absurd (by simpa [sellStock, hcount, hshare, hstock, hshares] using h) hne
      have hfound := (getShareLoop_some (by simpa [getShare] using hshare)).1
      simp [sellStock, hcount, hstock, hshares, hshare, hfound,
        writeCount_eq_set _ _ _ _ hfound]

theorem sellStock_success_effect_witness :
    sellStock intOps (some scenarioMarket) (some scenarioPortfolioAfterBuy) AAPL 2 =
        ⟨SUCCESS, [.sold], ⟨some scenarioMarket,
          some { head := [{ count := 3, ticker := copyTicker AAPL }], balance := 550 }⟩⟩ ∧
      ∃ p stock found p', some scenarioPortfolioAfterBuy = some p ∧
        getStock (some scenarioMarket) AAPL = some stock ∧
        getShare (some scenarioPortfolioAfterBuy) AAPL = some found ∧
        p.head[found.1]? = some found.2 ∧
        (sellStock intOps (some scenarioMarket) (some scenarioPortfolioAfterBuy) AAPL
          2).state.portfolio = some p' ∧
        p'.balance = intOps.add p.balance (intOps.mul stock.price 2) ∧
        p'.head = p.head.set found.1
          { found.2 with count := intOps.sub found.2.count 2 } :=
  ⟨by decide,
    sellStock_success_effect intOps (some scenarioMarket) (some scenarioPortfolioAfterBuy)
      AAPL 2 (by decide)⟩

/-! ## Failed trades -/

/-- C3. A call of `buyStock` or of `sellStock` that returns `FAILURE`, whatever the check
that failed, leaves the portfolio as it was: the same balance and the same share list. -/
theorem trade_failure_portfolio_unchanged (D : DoubleOps α) (market : Option (Market α))
    (portfolio : Option (Portfolio α)) (ticker : List Char) (count : α) :
    ((buyStock D market portfolio ticker count).status = FAILURE →
        (buyStock D market portfolio ticker count).state.portfolio = portfolio) ∧
      ((sellStock D market portfolio ticker count).status = FAILURE →
        (sellStock D market portfolio ticker count).state.portfolio = portfolio) := by
  have hne : SUCCESS ≠ FAILURE := by decide
  constructor
  · intro h
    rcases market with _ | m <;> rcases portfolio with _ | p <;> try rfl
    by_cases hcount : D.le count D.zero = true
    · simp [buyStock, hcount]
    cases hstock : getStock (some m) ticker with
    | none => simp [buyStock, hcount, hstock]
    | some stock =>
      by_cases hshares : D.lt stock.totalShares count = true
      · simp [buyStock, hcount, hstock, hshares]
      by_cases hfunds : D.lt p.balance (D.mul stock.price count) = true
      · simp [buyStock, hcount, hstock, hshares, hfunds]
      cases hshare : getShare (some p) ticker with
      | none =>
        by_cases hneg : D.lt count D.zero = true
        · simp [buyStock, hcount, hstock, hshares, hfunds, hshare, insertShare,
            createShare, hneg]
        · exact absurd (by simpa [buyStock, hcount, hstock, hshares, hfunds, hshare,
            insertShare, createShare, hneg, hne.symm] using h) hne
      | some found =>
        exact absurd (by simpa [buyStock, hcount, hstock, hshares, hfunds, hshare]
          using h) hne
  · intro h
    rcases market with _ | m <;> rcases portfolio with _ | p <;> try rfl
    by_cases hcount : D.le count D.zero = true
    · simp [sellStock, hcount]
    cases hshare : getShare (some p) ticker with
    | none => simp [sellStock, hcount, hshare]
    | some found =>
      cases hstock : getStock (some m) ticker with
      | none => simp [sellStock, hcount, hshare, hstock]
      | some stock =>
        by_cases hshares : D.lt found.2.count count = true
        · simp [sellStock, hcount, hshare, hstock, hshares]
        · exact absurd (by simpa [sellStock, hcount, hshare, hstock, hshares] using h) hne

theorem trade_failure_portfolio_unchanged_witness :
    (buyStock intOps (some scenarioMarket) (some scenarioPortfolio) ZZZZ 1 =
        ⟨FAILURE, [.stockNotAvailable], ⟨some scenarioMarket, some scenarioPortfolio⟩⟩ ∧
      (buyStock intOps (some scenarioMarket) (some scenarioPortfolio) ZZZZ
        1).state.portfolio = some scenarioPortfolio) ∧
    (sellStock intOps (some scenarioMarket) (some scenarioPortfolioAfterBuy) AAPL 10 =
        ⟨FAILURE, [.notEnoughShares],
          ⟨some scenarioMarket, some scenarioPortfolioAfterBuy⟩⟩ ∧
      (sellStock intOps (some scenarioMarket) (some scenarioPortfolioAfterBuy) AAPL
        10).state.portfolio = some scenarioPortfolioAfterBuy) :=
  ⟨⟨by decide,
      (trade_failure_portfolio_unchanged intOps (some scenarioMarket)
        (some scenarioPortfolio) ZZZZ 1).1 (by decide)⟩,
    ⟨by decide,
      (trade_failure_portfolio_unchanged intOps (some scenarioMarket)
        (some scenarioPortfolioAfterBuy) AAPL 10).2 (by decide)⟩⟩

/-! ## Validation order -/

/-- C4. For a present market and portfolio, `buyStock` reports the first check that fails,
in the order of the source, and returns `SUCCESS` iff none fails: (1) `count <= 0` prints
`Shares desired must be positive.` whatever the ticker; (2) otherwise a ticker `getStock`
does not find prints `Stock not available.`; (3) otherwise `count > stock.totalShares`
prints `Not enough shares available.` whatever the balance; (4) otherwise
`balance < stock.price * count` prints `You can't afford that trade.`; otherwise the call
succeeds.  In particular, for a count that passes (1) and a ticker that passes (2), a
count equal to `stock.totalShares` succeeds whenever `stock.price * count <= balance`,
and a count above `stock.totalShares` fails with `Not enough shares available.` -/
theorem buyStock_validation_order (D : DoubleOps α) (hD : OrderLaws D) (m : Market α)
    (p : Portfolio α) (ticker : List Char) (count : α) :
    (D.le count D.zero = true →
      (buyStock D (some m) (some p) ticker count).status = FAILURE ∧
      (buyStock D (some m) (some p) ticker count).printed = [.buyCountNotPositive]) ∧
    (D.le count D.zero = false → getStock (some m) ticker = none →
      (buyStock D (some m) (some p) ticker count).status = FAILURE ∧
      (buyStock D (some m) (some p) ticker count).printed = [.stockNotAvailable]) ∧
    (∀ stock, D.le count D.zero = false → getStock (some m) ticker = some stock →
      (D.lt stock.totalShares count = true →
        (buyStock D (some m) (some p) ticker count).status = FAILURE ∧
        (buyStock D (some m) (some p) ticker count).printed = [.notEnoughShares]) ∧
      (D.lt stock.totalShares count = false →
        D.lt p.balance (D.mul stock.price count) = true →
        (buyStock D (some m) (some p) ticker count).status = FAILURE ∧
        (buyStock D (some m) (some p) ticker count).printed = [.cannotAfford]) ∧
      (D.lt stock.totalShares count = false →
        D.lt p.balance (D.mul stock.price count) = false →
        (buyStock D (some m) (some p) ticker count).status = SUCCESS ∧
        (buyStock D (some m) (some p) ticker count).printed = [.bought]) ∧
      (count = stock.totalShares → D.le (D.mul stock.price count) p.balance = true →
        (buyStock D (some m) (some p) ticker count).status = SUCCESS)) ∧
    ((buyStock D (some m) (some p) ticker count).status = SUCCESS ↔
      D.le count D.zero = false ∧ ∃ stock, getStock (some m) ticker = some stock ∧
        D.lt stock.totalShares count = false ∧
        D.lt p.balance (D.mul stock.price count) = false) := by
  have hne : FAILURE ≠ SUCCESS := by decide
  have hok : ∀ stock, D.le count D.zero = false → getStock (some m) ticker = some stock →
      D.lt stock.totalShares count = false →
      D.lt p.balance (D.mul stock.price count) = false →
      (buyStock D (some m) (some p) ticker count).status = SUCCESS ∧
      (buyStock D (some m) (some p) ticker count).printed = [.bought] := by
    intro stock hcount hstock hshares hfunds
    have hneg : D.lt count D.zero = false := by
      cases hlt : D.lt count D.zero with
      | false => rfl
      | true => rw [hD.lt_le _ _ hlt] at hcount; exact absurd hcount (by decide)
    cases hshare : getShare (some p) ticker with
    | none =>
      simp [buyStock, hcount, hstock, hshares, hfunds, hshare, insertShare, createShare,
        hneg, hne.symm]
    | some found => simp [buyStock, hcount, hstock, hshares, hfunds, hshare]
  refine ⟨?_, ?_, ?_, ?_⟩
  · intro hcount
    simp [buyStock, hcount]
  · intro hcount hstock
    simp [buyStock, hcount, hstock]
  · intro stock hcount hstock
    refine ⟨?_, ?_, hok stock hcount hstock, ?_⟩
    · intro hshares
      simp [buyStock, hcount, hstock, hshares]
    · intro hshares hfunds
      simp [buyStock, hcount, hstock, hshares, hfunds]
    · intro heq hfunds
      refine (hok stock hcount hstock ?_ (hD.le_not_lt _ _ hfunds)).1
      rw [heq]
      exact hD.lt_irrefl _
  · constructor
    · intro h
      cases hcount : D.le count D.zero with
      | true => exact absurd (by simpa [buyStock, hcount] using h) hne
      | false =>
        cases hstock : getStock (some m) ticker with
        | none => exact absurd (by simpa [buyStock, hcount, hstock] using h) hne
        | some stock =>
          cases hshares : D.lt stock.totalShares count with
          | true => exact absurd (by simpa [buyStock, hcount, hstock, hshares] using h) hne
          | false =>
            cases hfunds : D.lt p.balance (D.mul stock.price count) with
            | true =>
              exact absurd (by simpa [buyStock, hcount, hstock, hshares, hfunds] using h)
                hne
            | false => exact ⟨rfl, stock, rfl, hshares, hfunds⟩
    · rintro ⟨hcount, stock, hstock, hshares, hfunds⟩
      exact (hok stock hcount hstock hshares hfunds).1

theorem buyStock_validation_order_witness :
    ((buyStock intOps (some scenarioMarket) (some scenarioPortfolio) ZZZZ (-5)).status
        = FAILURE ∧
      (buyStock intOps (some scenarioMarket) (some scenarioPortfolio) ZZZZ (-5)).printed
        = [.buyCountNotPositive]) ∧
    (buyStock intOps (some scenarioMarket) (some fundedPortfolio) AAPL 1000).status
      = SUCCESS ∧
    ((buyStock intOps (some scenarioMarket) (some scenarioPortfolio) AAPL 1001).status
        = FAILURE ∧
      (buyStock intOps (some scenarioMarket) (some scenarioPortfolio) AAPL 1001).printed
        = [.notEnoughShares]) :=
  ⟨(buyStock_validation_order intOps intOps_orderLaws scenarioMarket scenarioPortfolio
      ZZZZ (-5)).1 (by decide),
    ((buyStock_validation_order intOps intOps_orderLaws scenarioMarket fundedPortfolio
      AAPL 1000).2.2.1 scenarioStock (by decide) (by decide)).2.2.2 (by decide)
        (by decide),
    ((buyStock_validation_order intOps intOps_orderLaws scenarioMarket scenarioPortfolio
      AAPL 1001).2.2.1 scenarioStock (by decide) (by decide)).1 (by decide)⟩

/-- C5. For a present market and portfolio, `sellStock` reports the first check that
fails, in the order of the source, and returns `SUCCESS` iff none fails: (1) `count <= 0`
prints `Shares to sell must be positive.`; (2) otherwise a ticker `getShare` does not find
prints `No shares of that stock in portfolio available.`; (3) otherwise a ticker
`getStock` does not find prints `That stock doesn't exist in the market.`; (4) otherwise
`count > share.count` prints `Not enough shares available.`; otherwise the call succeeds.
In particular, for a count that passes (1): a ticker absent from both the portfolio and
the market makes `sellStock` print the line of (2) and `buyStock` print
`Stock not available.`; and with the holding and the stock found, selling exactly the
count of the holding succeeds. -/
theorem sellStock_validation_order (D : DoubleOps α) (hD : OrderLaws D) (m : Market α)
    (p : Portfolio α) (ticker : List Char) (count : α) :
    (D.le count D.zero = true →
      (sellStock D (some m) (some p) ticker count).status = FAILURE ∧
      (sellStock D (some m) (some p) ticker count).printed = [.sellCountNotPositive]) ∧
    (D.le count D.zero = false → getShare (some p) ticker = none →
      (sellStock D (some m) (some p) ticker count).status = FAILURE ∧
      (sellStock D (some m) (some p) ticker count).printed = [.noSharesInPortfolio]) ∧
    (∀ share, D.le count D.zero = false → getShare (some p) ticker = some share →
      getStock (some m) ticker = none →
      (sellStock D (some m) (some p) ticker count).status = FAILURE ∧
      (sellStock D (some m) (some p) ticker count).printed = [.stockNotInMarket]) ∧
    (∀ share stock, D.le count D.zero = false → getShare (some p) ticker = some share →
      getStock (some m) ticker = some stock →
      (D.lt share.2.count count = true →
        (sellStock D (some m) (some p) ticker count).status = FAILURE ∧
        (sellStock D (some m) (some p) ticker count).printed = [.notEnoughShares]) ∧
      (D.lt share.2.count count = false →
        (sellStock D (some m) (some p) ticker count).status = SUCCESS ∧
        (sellStock D (some m) (some p) ticker count).printed = [.sold]) ∧
      (count = share.2.count →
        (sellStock D (some m) (some p) ticker count).status = SUCCESS)) ∧
    ((sellStock D (some m) (some p) ticker count).status = SUCCESS ↔
      D.le count D.zero = false ∧ ∃ share stock, getShare (some p) ticker = some share ∧
        getStock (some m) ticker = some stock ∧ D.lt share.2.count count = false) ∧
    (D.le count D.zero = false → getShare (some p) ticker = none →
      getStock (some m) ticker = none →
      (sellStock D (some m) (some p) ticker count).printed = [.noSharesInPortfolio] ∧
      (buyStock D (some m) (some p) ticker count).printed = [.stockNotAvailable]) := by
  have hne : FAILURE ≠ SUCCESS := by decide
  refine ⟨?_, ?_, ?_, ?_, ?_, ?_⟩
  · intro hcount
    simp [sellStock, hcount]
  · intro hcount hshare
    simp [sellStock, hcount, hshare]
  · intro share hcount hshare hstock
    simp [sellStock, hcount, hshare, hstock]
  · intro share stock hcount hshare hstock
    refine ⟨?_, ?_, ?_⟩
    · intro hshares
      simp [sellStock, hcount, hshare, hstock, hshares]
    · intro hshares
      simp [sellStock, hcount, hshare, hstock, hshares]
    · intro heq
      have hshares : D.lt share.2.count count = false := by
        rw [heq]
        exact hD.lt_irrefl _
      simp [sellStock, hcount, hshare, hstock, hshares]
  · constructor
    · intro h
      cases hcount : D.le count D.zero with
      | true => exact absurd (by simpa [sellStock, hcount] using h) hne
      | false =>
        cases hshare : getShare (some p) ticker with
        | none => exact absurd (by simpa [sellStock, hcount, hshare] using h) hne
        | some share =>
          cases hstock : getStock (some m) ticker with
          | none => exact absurd (by simpa [sellStock, hcount, hshare, hstock] using h) hne
          | some stock =>
            cases hshares : D.lt share.2.count count with
            | true =>
              exact absurd (by simpa [sellStock, hcount, hshare, hstock, hshares] using h)
                hne
            | false => exact ⟨rfl, share, stock, rfl, rfl, hshares⟩
    · rintro ⟨hcount, share, stock, hshare, hstock, hshares⟩
      simp [sellStock, hcount, hshare, hstock, hshares]
  · intro hcount hshare hstock
    simp [sellStock, buyStock, hcount, hshare, hstock]

theorem sellStock_validation_order_witness :
    ((sellStock intOps (some scenarioMarket) (some scenarioPortfolio) ZZZZ 1).printed
        = [.noSharesInPortfolio] ∧
      (buyStock intOps (some scenarioMarket) (some scenarioPortfolio) ZZZZ 1).printed
        = [.stockNotAvailable]) ∧
    (sellStock intOps (some scenarioMarket) (some scenarioPortfolioAfterBuy) AAPL 5).status
      = SUCCESS :=
  ⟨(sellStock_validation_order intOps intOps_orderLaws scenarioMarket scenarioPortfolio
      ZZZZ 1).2.2.2.2.2 (by decide) (by decide) (by decide),
    ((sellStock_validation_order intOps intOps_orderLaws scenarioMarket
      scenarioPortfolioAfterBuy AAPL 5).2.2.2.1 (0, { count := 5, ticker := copyTicker AAPL })
        scenarioStock (by decide) (by decide) (by decide)).2.2 (by decide)⟩

/-! ## Binary64: values and rounding

The comparisons of finite values are those of the numbers they denote.  `round` returns
values of binary64 only, and it is monotone with respect to them: when the exact result of
an operation is at most, or at least, a value of binary64, so is the rounded result
(`round_le`, `le_round`).  Hence an operation whose exact result is a value of binary64
returns that value. -/

namespace F64

theorem bitLength_spec (fuel : Nat) : ∀ m : Nat, m < 2 ^ fuel → m ≠ 0 →
    2 ^ (bitLength fuel m - 1) ≤ m ∧ m < 2 ^ bitLength fuel m := by
  induction fuel with
  | zero =>
    intro m h hm
    simp at h
    exact absurd h hm
  | succ fuel ih =>
    intro m h hm
    have hhalf : m / 2 < 2 ^ fuel := by
      rw [Nat.div_lt_iff_lt_mul (by norm_num)]
      rw [pow_succ] at h
      exact h
    simp only [bitLength, hm, if_false, Nat.add_sub_cancel]
    by_cases h2 : m / 2 = 0
    · have h1 : m = 1 := by omega
      subst h1
      cases fuel <;> simp [bitLength]
    · obtain ⟨hlo, hhi⟩ := ih (m / 2) hhalf h2
      have hpos : 0 < bitLength fuel (m / 2) := by
        cases fuel with
        | zero => simp at hhalf; exact absurd hhalf h2
        | succ k => simp [bitLength, h2]
      constructor
      · have : 2 ^ bitLength fuel (m / 2) = 2 ^ (bitLength fuel (m / 2) - 1) * 2 := by
          rw [← pow_succ]
          congr 1
          omega
        rw [this]
        omega
      · rw [pow_succ]
        omega

theorem bits_spec (m : Nat) (hm : m ≠ 0) :
    2 ^ (bitLength m m - 1) ≤ m ∧ m < 2 ^ bitLength m m ∧ 0 < bitLength m m := by
  obtain ⟨h1, h2⟩ := bitLength_spec m m (Nat.lt_two_pow m) hm
  refine ⟨h1, h2, ?_⟩
  cases m with
  | zero => exact absurd rfl hm
  | succ k => simp [bitLength]

end F64

namespace F64

theorem signed_scale (s : Bool) (m k : Nat) : signed s (m * k) = signed s m * k := by
  cases s <;> simp [signed]

theorem two_zpow_pos (e : Int) : (0 : ℚ) < 2 ^ e := zpow_pos (by norm_num) e

theorem two_zpow_toNat {a : Int} (h : 0 ≤ a) : ((2 : ℚ) ^ a.toNat) = 2 ^ a := by
  rw [← zpow_natCast, Int.toNat_of_nonneg h]

theorem scaled_cast (s : Bool) (m : Nat) (e g : Int) (h : g ≤ e) :
    ((signed s (m * 2 ^ (e - g).toNat) : Int) : ℚ) * 2 ^ g = (signed s m : ℚ) * 2 ^ e := by
  rw [signed_scale]
  push_cast
  rw [two_zpow_toNat (by omega), mul_assoc, ← zpow_add₀ (by norm_num)]
  congr 2
  omega

theorem le_fin_iff (s : Bool) (m : Nat) (e : Int) (t : Bool) (n : Nat) (f : Int) :
    le (.fin s m e) (.fin t n f) = true ↔
      (signed s m : ℚ) * 2 ^ e ≤ (signed t n : ℚ) * 2 ^ f := by
  rw [← scaled_cast s m e (min e f) (min_le_left e f),
    ← scaled_cast t n f (min e f) (min_le_right e f),
    mul_le_mul_right (two_zpow_pos _), Int.cast_le]
  simp [le]

theorem lt_fin_iff (s : Bool) (m : Nat) (e : Int) (t : Bool) (n : Nat) (f : Int) :
    lt (.fin s m e) (.fin t n f) = true ↔
      (signed s m : ℚ) * 2 ^ e < (signed t n : ℚ) * 2 ^ f := by
  rw [← scaled_cast s m e (min e f) (min_le_left e f),
    ← scaled_cast t n f (min e f) (min_le_right e f),
    mul_lt_mul_right (two_zpow_pos _), Int.cast_lt]
  simp [lt]

theorem eq_fin_iff (s : Bool) (m : Nat) (e : Int) (t : Bool) (n : Nat) (f : Int) :
    eq (.fin s m e) (.fin t n f) = true ↔
      (signed s m : ℚ) * 2 ^ e = (signed t n : ℚ) * 2 ^ f := by
  rw [← scaled_cast s m e (min e f) (min_le_left e f),
    ← scaled_cast t n f (min e f) (min_le_right e f),
    mul_left_inj' (ne_of_gt (two_zpow_pos _)), Int.cast_inj]
  simp [eq]

/-- On finite values the comparisons are those of the rational numbers denoted. -/
theorem le_iff_toRat {a b : F64} {x y : ℚ} (ha : toRat a = some x) (hb : toRat b = some y) :
    le a b = true ↔ x ≤ y := by
  cases a <;> cases b <;> simp [toRat] at ha hb
  subst ha hb
  exact le_fin_iff _ _ _ _ _ _

theorem lt_iff_toRat {a b : F64} {x y : ℚ} (ha : toRat a = some x) (hb : toRat b = some y) :
    lt a b = true ↔ x < y := by
  cases a <;> cases b <;> simp [toRat] at ha hb
  subst ha hb
  exact lt_fin_iff _ _ _ _ _ _

theorem eq_iff_toRat {a b : F64} {x y : ℚ} (ha : toRat a = some x) (hb : toRat b = some y) :
    eq a b = true ↔ x = y := by
  cases a <;> cases b <;> simp [toRat] at ha hb
  subst ha hb
  exact eq_fin_iff _ _ _ _ _ _

end F64

namespace F64

theorem zp_add (a b : Int) : (2 : ℚ) ^ (a + b) = 2 ^ a * 2 ^ b := zpow_add₀ (by norm_num) a b

theorem zp_mono {a b : Int} (h : a ≤ b) : (2 : ℚ) ^ a ≤ 2 ^ b :=
  zpow_le_zpow_right₀ (by norm_num) h

theorem zp_nat (k : Nat) : (2 : ℚ) ^ (k : Int) = ((2 ^ k : Nat) : ℚ) := by
  push_cast
  exact zpow_natCast 2 k

theorem pack_zero (neg : Bool) (e : Int) : pack neg 0 e = .fin neg 0 0 := by
  simp [pack]

theorem pack_fin (neg : Bool) {m : Nat} {e : Int} (hm : m ≠ 0) (he : e ≤ 971) :
    pack neg m e = .fin neg m e := by
  simp [pack, hm, not_lt.2 he]

theorem pack_inf (neg : Bool) {m : Nat} {e : Int} (hm : m ≠ 0) (he : 971 < e) :
    pack neg m e = .inf neg := by
  simp [pack, hm, he]

/-- The two branches of `round`: the value fits and is kept, or it is cut to the quotient
`q` by `2^s` or to `q + 1`, the latter only when the remainder is not zero. -/
theorem round_cases (neg : Bool) (M : Nat) (E : Int) (hM : M ≠ 0) :
    (max (E + (bitLength M M : Int) - 53) (-1074) ≤ E ∧
      round neg M E = pack neg
        (M * 2 ^ (E - max (E + (bitLength M M : Int) - 53) (-1074)).toNat)
        (max (E + (bitLength M M : Int) - 53) (-1074))) ∨
    (E < max (E + (bitLength M M : Int) - 53) (-1074) ∧
      ∃ q, (q = M / 2 ^ (max (E + (bitLength M M : Int) - 53) (-1074) - E).toNat ∨
          (q = M / 2 ^ (max (E + (bitLength M M : Int) - 53) (-1074) - E).toNat + 1 ∧
            0 < M % 2 ^ (max (E + (bitLength M M : Int) - 53) (-1074) - E).toNat)) ∧
        round neg M E = if q = 2 ^ 53
          then pack neg (2 ^ 52) (max (E + (bitLength M M : Int) - 53) (-1074) + 1)
          else pack neg q (max (E + (bitLength M M : Int) - 53) (-1074))) := by
  by_cases hE : max (E + (bitLength M M : Int) - 53) (-1074) ≤ E
  · left
    refine ⟨hE, ?_⟩
    simp only [round, hM, if_false, hE, if_true]
  · right
    refine ⟨lt_of_not_le hE, ?_⟩
    simp only [round, hM, if_false, hE]
    split_ifs with h1 h2 h3
    · refine ⟨_, Or.inr ⟨rfl, ?_⟩, by rw [if_pos h2]⟩
      rcases h1 with h | ⟨h, -⟩
      · exact lt_of_le_of_lt (Nat.zero_le _) h
      · rw [h]
        positivity
    · refine ⟨_, Or.inr ⟨rfl, ?_⟩, by rw [if_neg h2]⟩
      rcases h1 with h | ⟨h, -⟩
      · exact lt_of_le_of_lt (Nat.zero_le _) h
      · rw [h]
        positivity
    · exact ⟨_, Or.inl rfl, by rw [if_pos h3]⟩
    · exact ⟨_, Or.inl rfl, by rw [if_neg h3]⟩

end F64

namespace F64

theorem nat_cast_zp (M k : Nat) (E X : Int) (hX : X ≤ E) (hk : k = (E - X).toNat) :
    ((M * 2 ^ k : Nat) : ℚ) * 2 ^ X = (M : ℚ) * 2 ^ E := by
  subst hk
  push_cast
  rw [two_zpow_toNat (by omega), mul_assoc, ← zp_add]
  congr 2
  omega

/-- Rounding a magnitude that is at most a value of binary64 gives at most that value. -/
theorem round_mag_le (neg : Bool) (M : Nat) (E : Int) (n : Nat) (f : Int) (hM : M ≠ 0)
    (hn : n < 2 ^ 53) (hf : -1074 ≤ f) (hf2 : f ≤ 971)
    (h : (M : ℚ) * 2 ^ E ≤ (n : ℚ) * 2 ^ f) :
    ∃ Q X, round neg M E = .fin neg Q X ∧ (Q : ℚ) * 2 ^ X ≤ (n : ℚ) * 2 ^ f := by
  obtain ⟨hlo, hhi, hbpos⟩ := bits_spec M hM
  have he : max (E + (bitLength M M : Int) - 53) (-1074) ≤ f := by
    apply max_le _ hf
    by_contra hc
    push_neg at hc
    have h1 : (n : ℚ) * 2 ^ f < 2 ^ (53 + f) := by
      rw [zp_add]
      have h0 : (n : ℚ) < 2 ^ (53 : Int) := by
        have : ((53 : Nat) : Int) = 53 := rfl
        rw [← this, zp_nat]
        exact_mod_cast hn
      exact mul_lt_mul_of_pos_right h0 (two_zpow_pos f)
    have h2 : (2 : ℚ) ^ (53 + f) ≤ 2 ^ (((bitLength M M - 1 : Nat) : Int) + E) :=
      zp_mono (by omega)
    have h3 : (2 : ℚ) ^ (((bitLength M M - 1 : Nat) : Int) + E) ≤ (M : ℚ) * 2 ^ E := by
      rw [zp_add, zp_nat]
      exact mul_le_mul_of_nonneg_right (by exact_mod_cast hlo) (le_of_lt (two_zpow_pos E))
    exact absurd (lt_of_lt_of_le h1 (le_trans h2 h3)) (not_lt.2 h)
  rcases round_cases neg M E hM with ⟨hE, hr⟩ | ⟨hE, q, hq, hr⟩
  · generalize hX : max (E + (bitLength M M : Int) - 53) (-1074) = X at he hE hr
    refine ⟨M * 2 ^ (E - X).toNat, X, ?_, ?_⟩
    · rw [hr]
      exact pack_fin neg (by positivity) (by omega)
    · rw [nat_cast_zp M _ E _ hE rfl]
      exact h
  · generalize hX : max (E + (bitLength M M : Int) - 53) (-1074) = X at he hE hq hr
    generalize hs : (X - E).toNat = s at hq hr
    have hsE : (s : Int) + E = X := by omega
    have hspos : 0 < s := by omega
    -- the target value as a multiple of `2^X`
    have hN : ((n * 2 ^ (f - X).toNat : Nat) : ℚ) * 2 ^ X = (n : ℚ) * 2 ^ f :=
      nat_cast_zp n _ f X he rfl
    generalize (n * 2 ^ (f - X).toNat : Nat) = N at hN
    have hX2 : (2 : ℚ) ^ X = ((2 ^ s : Nat) : ℚ) * 2 ^ E := by
      rw [← hsE, zp_add, zp_nat]
    have hMN : M ≤ N * 2 ^ s := by
      have : (M : ℚ) * 2 ^ E ≤ ((N * 2 ^ s : Nat) : ℚ) * 2 ^ E := by
        rw [← hN, hX2] at h
        push_cast at h ⊢
        linarith
      exact_mod_cast le_of_mul_le_mul_right this (two_zpow_pos E)
    have hdm := Nat.div_add_mod M (2 ^ s)
    have hpos : 0 < 2 ^ s := by positivity
    have hqN : q ≤ N := by
      rcases hq with hq | ⟨hq, hrem⟩
      · rw [hq]
        exact Nat.div_le_of_le_mul (by rw [mul_comm]; exact hMN)
      · rw [hq]
        have : M / 2 ^ s < N := by
          rw [Nat.div_lt_iff_lt_mul hpos]
          by_contra hc
          push_neg at hc
          have hM2 : M = N * 2 ^ s := le_antisymm hMN hc
          rw [hM2, Nat.mul_mod_left] at hrem
          exact absurd hrem (lt_irrefl 0)
        omega
    have hval : (q : ℚ) * 2 ^ X ≤ (n : ℚ) * 2 ^ f := by
      rw [← hN]
      exact mul_le_mul_of_nonneg_right (by exact_mod_cast hqN) (le_of_lt (two_zpow_pos X))
    by_cases h53 : q = 2 ^ 53
    · rw [if_pos h53] at hr
      have hfX : X + 1 ≤ f := by
        by_contra hc
        have hXf : X = f := by omega
        rw [hXf, h53] at hval
        have := le_of_mul_le_mul_right hval (two_zpow_pos f)
        have h2 : (2 ^ 53 : Nat) ≤ n := by exact_mod_cast this
        omega
      refine ⟨2 ^ 52, X + 1, ?_, ?_⟩
      · rw [hr]
        exact pack_fin neg (by norm_num) (by omega)
      · rw [h53] at hval
        rw [zp_add]
        push_cast at hval ⊢
        linarith
    · rw [if_neg h53] at hr
      by_cases hq0 : q = 0
      · refine ⟨0, 0, ?_, ?_⟩
        · rw [hr, hq0, pack_zero]
        · simp only [Nat.cast_zero, zero_mul]
          exact mul_nonneg (Nat.cast_nonneg n) (le_of_lt (two_zpow_pos f))
      · refine ⟨q, X, ?_, hval⟩
        rw [hr]
        exact pack_fin neg hq0 (by omega)

end F64

namespace F64

theorem pack_cases (neg : Bool) {m : Nat} (e : Int) (hm : m ≠ 0) :
    pack neg m e = .inf neg ∨ pack neg m e = .fin neg m e := by
  by_cases he : 971 < e
  · exact Or.inl (pack_inf neg hm he)
  · exact Or.inr (pack_fin neg hm (not_lt.1 he))

/-- Rounding a magnitude that is at least a value of binary64 gives at least that value,
or overflows. -/
theorem round_mag_ge (neg : Bool) (M : Nat) (E : Int) (n : Nat) (f : Int) (hM : M ≠ 0)
    (hn0 : n ≠ 0) (hn : n < 2 ^ 53) (hf : -1074 ≤ f) (hnorm : 2 ^ 52 ≤ n ∨ f = -1074)
    (h : (n : ℚ) * 2 ^ f ≤ (M : ℚ) * 2 ^ E) :
    round neg M E = .inf neg ∨
      ∃ Q X, round neg M E = .fin neg Q X ∧ (n : ℚ) * 2 ^ f ≤ (Q : ℚ) * 2 ^ X := by
  obtain ⟨hlo, hhi, hbpos⟩ := bits_spec M hM
  have he : f ≤ max (E + (bitLength M M : Int) - 53) (-1074) := by
    rcases hnorm with hnorm | hnorm
    · apply le_max_of_le_left
      by_contra hc
      push_neg at hc
      have h1 : (M : ℚ) * 2 ^ E < 2 ^ ((bitLength M M : Int) + E) := by
        rw [zp_add, zp_nat]
        exact mul_lt_mul_of_pos_right (by exact_mod_cast hhi) (two_zpow_pos E)
      have h2 : (2 : ℚ) ^ ((bitLength M M : Int) + E) ≤ 2 ^ (((52 : Nat) : Int) + f) :=
        zp_mono (by omega)
      have h3 : (2 : ℚ) ^ (((52 : Nat) : Int) + f) ≤ (n : ℚ) * 2 ^ f := by
        rw [zp_add, zp_nat]
        exact mul_le_mul_of_nonneg_right (by exact_mod_cast hnorm)
          (le_of_lt (two_zpow_pos f))
      exact absurd (lt_of_lt_of_le h1 (le_trans h2 h3)) (not_lt.2 h)
    · rw [hnorm]
      exact le_max_right _ _
  rcases round_cases neg M E hM with ⟨hE, hr⟩ | ⟨hE, q, hq, hr⟩
  · generalize hX : max (E + (bitLength M M : Int) - 53) (-1074) = X at he hE hr
    have hne : M * 2 ^ (E - X).toNat ≠ 0 := by positivity
    rcases pack_cases neg X hne with hp | hp
    · exact Or.inl (by rw [hr, hp])
    · refine Or.inr ⟨M * 2 ^ (E - X).toNat, X, by rw [hr, hp], ?_⟩
      rw [nat_cast_zp M _ E _ hE rfl]
      exact h
  · have hq2 : M / 2 ^ (max (E + (bitLength M M : Int) - 53) (-1074) - E).toNat ≤ q := by
      rcases hq with hq | ⟨hq, -⟩ <;> omega
    have hfirst : f < max (E + (bitLength M M : Int) - 53) (-1074) →
        max (E + (bitLength M M : Int) - 53) (-1074) = E + (bitLength M M : Int) - 53 := by
      intro hlt
      rcases max_cases (E + (bitLength M M : Int) - 53) (-1074) with ⟨h1, -⟩ | ⟨h1, -⟩
      · exact h1
      · omega
    generalize hX : max (E + (bitLength M M : Int) - 53) (-1074) = X at he hE hq2 hr hfirst
    generalize hs : (X - E).toNat = s at hq2 hr
    have hsE : (s : Int) + E = X := by omega
    have hX2 : (2 : ℚ) ^ X = ((2 ^ s : Nat) : ℚ) * 2 ^ E := by
      rw [← hsE, zp_add, zp_nat]
    have hpos : 0 < 2 ^ s := by positivity
    have hval : (n : ℚ) * 2 ^ f ≤ (q : ℚ) * 2 ^ X := by
      have hqq : ((M / 2 ^ s : Nat) : ℚ) * 2 ^ X ≤ (q : ℚ) * 2 ^ X :=
        mul_le_mul_of_nonneg_right (by exact_mod_cast hq2) (le_of_lt (two_zpow_pos X))
      refine le_trans ?_ hqq
      rcases eq_or_lt_of_le he with hfX | hfX
      · -- the exponents agree: the quotient is at least `n`
        subst hfX
        have hle : n ≤ M / 2 ^ s := by
          rw [Nat.le_div_iff_mul_le hpos]
          have : ((n * 2 ^ s : Nat) : ℚ) * 2 ^ E ≤ (M : ℚ) * 2 ^ E := by
            rw [hX2] at h
            push_cast at h ⊢
            linarith
          exact_mod_cast le_of_mul_le_mul_right this (two_zpow_pos E)
        exact mul_le_mul_of_nonneg_right (by exact_mod_cast hle) (le_of_lt (two_zpow_pos f))
      · -- the result has a larger exponent and a full significand
        have hXe := hfirst hfX
        have hsb : s + 53 = bitLength M M := by omega
        have hle : 2 ^ 52 ≤ M / 2 ^ s := by
          rw [Nat.le_div_iff_mul_le hpos, ← pow_add]
          have : 52 + s = bitLength M M - 1 := by omega
          rw [this]
          exact hlo
        have h1 : (n : ℚ) * 2 ^ f ≤ 2 ^ (((53 : Nat) : Int) + f) := by
          rw [zp_add, zp_nat]
          exact mul_le_mul_of_nonneg_right (by exact_mod_cast le_of_lt hn)
            (le_of_lt (two_zpow_pos f))
        have h2 : (2 : ℚ) ^ (((53 : Nat) : Int) + f) ≤ 2 ^ (((52 : Nat) : Int) + X) :=
          zp_mono (by omega)
        have h3 : (2 : ℚ) ^ (((52 : Nat) : Int) + X) ≤ ((M / 2 ^ s : Nat) : ℚ) * 2 ^ X := by
          rw [zp_add, zp_nat]
          exact mul_le_mul_of_nonneg_right (by exact_mod_cast hle)
            (le_of_lt (two_zpow_pos X))
        exact le_trans h1 (le_trans h2 h3)
    have hq0 : q ≠ 0 := by
      intro h0
      rw [h0] at hval
      simp only [Nat.cast_zero, zero_mul] at hval
      have : (0 : ℚ) < (n : ℚ) * 2 ^ f :=
        mul_pos (by exact_mod_cast Nat.pos_of_ne_zero hn0) (two_zpow_pos f)
      linarith
    by_cases h53 : q = 2 ^ 53
    · rw [if_pos h53] at hr
      rcases pack_cases neg (X + 1) (show (2 ^ 52 : Nat) ≠ 0 by norm_num) with hp | hp
      · exact Or.inl (by rw [hr, hp])
      · refine Or.inr ⟨2 ^ 52, X + 1, by rw [hr, hp], ?_⟩
        rw [h53] at hval
        rw [zp_add]
        push_cast at hval ⊢
        linarith
    · rw [if_neg h53] at hr
      rcases pack_cases neg X hq0 with hp | hp
      · exact Or.inl (by rw [hr, hp])
      · exact Or.inr ⟨q, X, by rw [hr, hp], hval⟩

end F64

namespace F64

theorem normalised_fin {t : Bool} {n : Nat} {f : Int} (h : normalised (.fin t n f) = true)
    (hn : n ≠ 0) :
    n < 2 ^ 53 ∧ -1074 ≤ f ∧ f ≤ 971 ∧ (2 ^ 52 ≤ n ∨ f = -1074) := by
  simp only [normalised, Bool.or_eq_true, Bool.and_eq_true, decide_eq_true_eq] at h
  rcases h with ⟨h, -⟩ | ⟨⟨⟨⟨-, h1⟩, h2⟩, h3⟩, h4⟩
  · exact absurd h hn
  · exact ⟨h1, h2, h3, h4⟩

theorem round_sign (neg : Bool) (M : Nat) (E : Int) :
    round neg M E = .inf neg ∨ ∃ Q X, round neg M E = .fin neg Q X := by
  by_cases hM : M = 0
  · exact Or.inr ⟨0, 0, by simp [round, hM]⟩
  have hp : ∀ (q : Nat) (X : Int), pack neg q X = .inf neg ∨ ∃ Q X1, pack neg q X
      = .fin neg Q X1 := by
    intro q X
    by_cases hq : q = 0
    · exact Or.inr ⟨0, 0, by rw [hq, pack_zero]⟩
    · rcases pack_cases neg X hq with h | h
      · exact Or.inl h
      · exact Or.inr ⟨q, X, h⟩
  rcases round_cases neg M E hM with ⟨-, hr⟩ | ⟨-, q, -, hr⟩
  · rw [hr]
    exact hp _ _
  · rw [hr]
    split_ifs
    · exact hp _ _
    · exact hp _ _

theorem signed_cast_false (m : Nat) : ((signed false m : Int) : ℚ) = (m : ℚ) := by
  simp [signed]

theorem signed_cast_true (m : Nat) : ((signed true m : Int) : ℚ) = -(m : ℚ) := by
  simp [signed]

/-- Rounding is monotone above a value of binary64: when the exact value is at most `z`,
so is the rounded one. -/
theorem round_le (neg : Bool) (M : Nat) (E : Int) (t : Bool) (n : Nat) (f : Int)
    (hM : M ≠ 0) (hz : normalised (.fin t n f) = true)
    (h : ((signed neg M : Int) : ℚ) * 2 ^ E ≤ ((signed t n : Int) : ℚ) * 2 ^ f) :
    le (round neg M E) (.fin t n f) = true := by
  have hMpos : (0 : ℚ) < (M : ℚ) * 2 ^ E :=
    mul_pos (by exact_mod_cast Nat.pos_of_ne_zero hM) (two_zpow_pos E)
  have hnn : (0 : ℚ) ≤ (n : ℚ) * 2 ^ f :=
    mul_nonneg (Nat.cast_nonneg n) (le_of_lt (two_zpow_pos f))
  cases neg with
  | false =>
    rw [signed_cast_false] at h
    cases t with
    | true =>
      rw [signed_cast_true, neg_mul] at h
      linarith
    | false =>
      rw [signed_cast_false] at h
      have hn : n ≠ 0 := by
        intro h0
        rw [h0] at h
        simp only [Nat.cast_zero, zero_mul] at h
        linarith
      obtain ⟨h1, h2, h3, -⟩ := normalised_fin hz hn
      obtain ⟨Q, X, hr, hv⟩ := round_mag_le false M E n f hM h1 h2 h3 h
      rw [hr, le_fin_iff, signed_cast_false, signed_cast_false]
      exact hv
  | true =>
    rw [signed_cast_true, neg_mul] at h
    by_cases hpos : (0 : ℚ) ≤ ((signed t n : Int) : ℚ) * 2 ^ f
    · rcases round_sign true M E with hr | ⟨Q, X, hr⟩
      · rw [hr]
        rfl
      · rw [hr, le_fin_iff, signed_cast_true, neg_mul]
        have : (0 : ℚ) ≤ (Q : ℚ) * 2 ^ X :=
          mul_nonneg (Nat.cast_nonneg Q) (le_of_lt (two_zpow_pos X))
        linarith
    · cases t with
      | false =>
        rw [signed_cast_false] at hpos
        exact absurd hnn hpos
      | true =>
        rw [signed_cast_true, neg_mul] at h hpos
        have hn : n ≠ 0 := by
          intro h0
          rw [h0] at hpos
          simp at hpos
        obtain ⟨h1, h2, -, h4⟩ := normalised_fin hz hn
        rcases round_mag_ge true M E n f hM hn h1 h2 h4 (by linarith) with hr | ⟨Q, X, hr, hv⟩
        · rw [hr]
          rfl
        · rw [hr, le_fin_iff, signed_cast_true, signed_cast_true, neg_mul, neg_mul]
          linarith

/-- Rounding is monotone below a value of binary64: when the exact value is at least `z`,
so is the rounded one. -/
theorem le_round (neg : Bool) (M : Nat) (E : Int) (t : Bool) (n : Nat) (f : Int)
    (hM : M ≠ 0) (hz : normalised (.fin t n f) = true)
    (h : ((signed t n : Int) : ℚ) * 2 ^ f ≤ ((signed neg M : Int) : ℚ) * 2 ^ E) :
    le (.fin t n f) (round neg M E) = true := by
  have hMpos : (0 : ℚ) < (M : ℚ) * 2 ^ E :=
    mul_pos (by exact_mod_cast Nat.pos_of_ne_zero hM) (two_zpow_pos E)
  have hnn : (0 : ℚ) ≤ (n : ℚ) * 2 ^ f :=
    mul_nonneg (Nat.cast_nonneg n) (le_of_lt (two_zpow_pos f))
  cases neg with
  | true =>
    rw [signed_cast_true, neg_mul] at h
    cases t with
    | false =>
      rw [signed_cast_false] at h
      linarith
    | true =>
      rw [signed_cast_true, neg_mul] at h
      have hn : n ≠ 0 := by
        intro h0
        rw [h0] at h
        simp only [Nat.cast_zero, zero_mul] at h
        linarith
      obtain ⟨h1, h2, h3, -⟩ := normalised_fin hz hn
      obtain ⟨Q, X, hr, hv⟩ := round_mag_le true M E n f hM h1 h2 h3 (by linarith)
      rw [hr, le_fin_iff, signed_cast_true, signed_cast_true, neg_mul, neg_mul]
      linarith
  | false =>
    rw [signed_cast_false] at h
    by_cases hpos : ((signed t n : Int) : ℚ) * 2 ^ f ≤ 0
    · rcases round_sign false M E with hr | ⟨Q, X, hr⟩
      · rw [hr]
        rfl
      · rw [hr, le_fin_iff, signed_cast_false]
        have : (0 : ℚ) ≤ (Q : ℚ) * 2 ^ X :=
          mul_nonneg (Nat.cast_nonneg Q) (le_of_lt (two_zpow_pos X))
        linarith
    · cases t with
      | true =>
        rw [signed_cast_true, neg_mul] at hpos
        exact absurd (by linarith) hpos
      | false =>
        rw [signed_cast_false] at h hpos
        have hn : n ≠ 0 := by
          intro h0
          rw [h0] at hpos
          simp at hpos
        obtain ⟨h1, h2, -, h4⟩ := normalised_fin hz hn
        rcases round_mag_ge false M E n f hM hn h1 h2 h4 h with hr | ⟨Q, X, hr, hv⟩
        · rw [hr]
          rfl
        · rw [hr, le_fin_iff, signed_cast_false, signed_cast_false]
          exact hv

end F64

namespace F64

theorem signed_natAbs (c : Int) : signed (decide (c < 0)) c.natAbs = c := by
  by_cases h : c < 0
  · simp only [signed, h, decide_True, if_true]
    omega
  · simp only [signed, h, decide_False]
    simp only [Bool.false_eq_true, if_false]
    omega

theorem add_fin (s : Bool) (m : Nat) (e : Int) (t : Bool) (n : Nat) (f : Int) :
    add (.fin s m e) (.fin t n f) =
      if signed s (m * 2 ^ (e - min e f).toNat) + signed t (n * 2 ^ (f - min e f).toNat) = 0
      then .fin (s && t) 0 0
      else round
        (decide (signed s (m * 2 ^ (e - min e f).toNat)
          + signed t (n * 2 ^ (f - min e f).toNat) < 0))
        (signed s (m * 2 ^ (e - min e f).toNat)
          + signed t (n * 2 ^ (f - min e f).toNat)).natAbs (min e f) := rfl

theorem add_value (s : Bool) (m : Nat) (e : Int) (t : Bool) (n : Nat) (f : Int) :
    ((signed s (m * 2 ^ (e - min e f).toNat)
        + signed t (n * 2 ^ (f - min e f).toNat) : Int) : ℚ) * 2 ^ (min e f)
      = ((signed s m : Int) : ℚ) * 2 ^ e + ((signed t n : Int) : ℚ) * 2 ^ f := by
  rw [Int.cast_add, add_mul, scaled_cast s m e _ (min_le_left e f),
    scaled_cast t n f _ (min_le_right e f)]

theorem toRat_fin {a : F64} {x : ℚ} (h : toRat a = some x) :
    ∃ s m e, a = .fin s m e ∧ x = ((signed s m : Int) : ℚ) * 2 ^ e := by
  cases a <;> simp [toRat] at h
  exact ⟨_, _, _, rfl, h.symm⟩

/-- A sum whose exact value is at most a value `z` of binary64 is computed as at most
`z`. -/
theorem add_le {a b z : F64} {x y v : ℚ} (ha : toRat a = some x) (hb : toRat b = some y)
    (hz : toRat z = some v) (hn : normalised z = true) (h : x + y ≤ v) :
    le (add a b) z = true := by
  obtain ⟨s, m, e, rfl, rfl⟩ := toRat_fin ha
  obtain ⟨t, n, f, rfl, rfl⟩ := toRat_fin hb
  obtain ⟨u, k, g, rfl, rfl⟩ := toRat_fin hz
  rw [← add_value] at h
  rw [add_fin]
  split_ifs with hc
  · rw [hc] at h
    rw [le_fin_iff]
    simpa [signed] using h
  · apply round_le _ _ _ _ _ _ (by simpa using hc) hn
    rw [signed_natAbs]
    exact h

/-- A sum whose exact value is at least a value `z` of binary64 is computed as at least
`z`. -/
theorem le_add {a b z : F64} {x y v : ℚ} (ha : toRat a = some x) (hb : toRat b = some y)
    (hz : toRat z = some v) (hn : normalised z = true) (h : v ≤ x + y) :
    le z (add a b) = true := by
  obtain ⟨s, m, e, rfl, rfl⟩ := toRat_fin ha
  obtain ⟨t, n, f, rfl, rfl⟩ := toRat_fin hb
  obtain ⟨u, k, g, rfl, rfl⟩ := toRat_fin hz
  rw [← add_value] at h
  rw [add_fin]
  split_ifs with hc
  · rw [hc] at h
    rw [le_fin_iff]
    simpa [signed] using h
  · apply le_round _ _ _ _ _ _ (by simpa using hc) hn
    rw [signed_natAbs]
    exact h

theorem toRat_neg {b : F64} {y : ℚ} (h : toRat b = some y) : toRat (neg b) = some (-y) := by
  obtain ⟨t, n, f, rfl, rfl⟩ := toRat_fin h
  cases t <;> simp [neg, toRat, signed]

theorem sub_le {a b z : F64} {x y v : ℚ} (ha : toRat a = some x) (hb : toRat b = some y)
    (hz : toRat z = some v) (hn : normalised z = true) (h : x - y ≤ v) :
    le (sub a b) z = true :=
  add_le ha (toRat_neg hb) hz hn (by linarith)

theorem le_sub {a b z : F64} {x y v : ℚ} (ha : toRat a = some x) (hb : toRat b = some y)
    (hz : toRat z = some v) (hn : normalised z = true) (h : v ≤ x - y) :
    le z (sub a b) = true :=
  le_add ha (toRat_neg hb) hz hn (by linarith)

theorem le_antisymm_eq {a b : F64} (h1 : le a b = true) (h2 : le b a = true) :
    eq a b = true := by
  cases a with
  | nan => simp [le] at h1
  | inf s =>
    cases b with
    | nan => simp [le] at h1
    | inf t => cases s <;> cases t <;> simp_all [le, eq]
    | fin t n f => cases s <;> simp_all [le]
  | fin s m e =>
    cases b with
    | nan => simp [le] at h1
    | inf t => cases t <;> simp_all [le]
    | fin t n f =>
      rw [le_fin_iff] at h1 h2
      rw [eq_fin_iff]
      exact le_antisymm h1 h2

end F64

namespace F64

theorem isSum_toRat {a b r : F64} (h : isSum a b r = true) :
    ∃ x y, toRat a = some x ∧ toRat b = some y ∧ toRat r = some (x + y) := by
  cases a with
  | nan => simp [isSum] at h
  | inf s => simp [isSum] at h
  | fin s m e =>
    cases b with
    | nan => simp [isSum] at h
    | inf t => simp [isSum] at h
    | fin t n f =>
      cases r with
      | nan => simp [isSum] at h
      | inf u => simp [isSum] at h
      | fin u k g =>
        refine ⟨_, _, rfl, rfl, ?_⟩
        simp only [isSum, decide_eq_true_eq] at h
        have h1 := scaled_cast s m e (min (min e f) g)
          (le_trans (min_le_left _ _) (min_le_left _ _))
        have h2 := scaled_cast t n f (min (min e f) g)
          (le_trans (min_le_left _ _) (min_le_right _ _))
        have h3 := scaled_cast u k g (min (min e f) g) (min_le_right _ _)
        simp only [toRat]
        rw [← h1, ← h2, ← h3, ← add_mul, ← Int.cast_add, h]

theorem signed_xor (s t : Bool) (m n : Nat) :
    signed (xor s t) (m * n) = signed s m * signed t n := by
  cases s <;> cases t <;> simp [signed]

theorem isProduct_toRat {a b r : F64} (h : isProduct a b r = true) :
    ∃ x y, toRat a = some x ∧ toRat b = some y ∧ toRat r = some (x * y) := by
  cases a with
  | nan => simp [isProduct] at h
  | inf s => simp [isProduct] at h
  | fin s m e =>
    cases b with
    | nan => simp [isProduct] at h
    | inf t => simp [isProduct] at h
    | fin t n f =>
      cases r with
      | nan => simp [isProduct] at h
      | inf u => simp [isProduct] at h
      | fin u k g =>
        refine ⟨_, _, rfl, rfl, ?_⟩
        simp only [isProduct, decide_eq_true_eq] at h
        have h1 := scaled_cast (xor s t) (m * n) (e + f) (min (e + f) g) (min_le_left _ _)
        have h3 := scaled_cast u k g (min (e + f) g) (min_le_right _ _)
        simp only [toRat, Option.some.injEq]
        rw [← h3, ← h, h1, signed_xor, zp_add, Int.cast_mul]
        ring

theorem toRat_of_neg {b : F64} {y : ℚ} (h : toRat (neg b) = some y) :
    toRat b = some (-y) := by
  cases b with
  | nan => simp [neg, toRat] at h
  | inf t => simp [neg, toRat] at h
  | fin t n f =>
    simp only [neg, toRat, Option.some.injEq] at h ⊢
    rw [← h]
    cases t <;> simp [signed]

end F64

/-- A sum that `F64.isSum` finds exact is exact. -/
theorem exactAdd_of_isSum (a b : F64) (h : F64.isSum a b (F64.add a b) = true) :
    ExactAdd ieeeOps F64.toRat a b :=
  F64.isSum_toRat h

/-- A difference that `F64.isSum` finds exact is exact. -/
theorem exactSub_of_isSum (a b : F64) (h : F64.isSum a (F64.neg b) (F64.sub a b) = true) :
    ExactSub ieeeOps F64.toRat a b := by
  obtain ⟨x, y, hx, hy, hr⟩ := F64.isSum_toRat h
  refine ⟨x, -y, hx, F64.toRat_of_neg hy, ?_⟩
  rw [sub_neg_eq_add]
  exact hr

/-- A product that `F64.isProduct` finds exact is exact. -/
theorem exactMul_of_isProduct (a b : F64) (h : F64.isProduct a b (F64.mul a b) = true) :
    ExactMul ieeeOps F64.toRat a b :=
  F64.isProduct_toRat h

namespace F64

theorem toRat_zero : toRat (ofNat 0) = some 0 := by
  simp [ofNat, round, toRat, signed]

theorem normalised_zero : normalised (ofNat 0) = true := by
  simp [ofNat, round, normalised]

theorem toRat_of_isfinite {a : F64} (h : isfinite a = true) : ∃ x, toRat a = some x := by
  cases a <;> simp [isfinite] at h
  exact ⟨_, rfl⟩

theorem le_not_lt {a b : F64} (h : le a b = true) : lt b a = false := by
  cases a <;> cases b <;> simp_all [lt, le]
  · rcases h with h | h <;> simp [h]
  · rw [min_comm]
    exact h

/-- A count that is not a NaN and fails the test `count <= 0` is positive. -/
theorem pos_of_not_le {c : F64} (hc : c ≠ .nan) (h : le c (ofNat 0) = false) :
    lt (ofNat 0) c = true := by
  cases c with
  | nan => exact absurd rfl hc
  | inf s => cases s <;> simp_all [le, lt, ofNat, round]
  | fin s m e =>
    have h0 : ofNat 0 = .fin false 0 0 := by simp [ofNat, round]
    rw [h0] at h ⊢
    rw [lt_fin_iff]
    by_contra hn
    have := (le_fin_iff s m e false 0 0).2 (not_lt.1 hn)
    rw [h] at this
    exact absurd this (by decide)

theorem toRat_fin_eq (s : Bool) (m : Nat) (e : Int) :
    toRat (.fin s m e) = some (((signed s m : Int) : ℚ) * 2 ^ e) := rfl

/-- A value `>= 0` is `+inf` or finite with a value `>= 0`. -/
theorem nonneg_cases {a : F64} (h : le (ofNat 0) a = true) :
    a = .inf false ∨ ∃ x, toRat a = some x ∧ 0 ≤ x := by
  cases a with
  | nan => simp [le, ofNat, round] at h
  | inf s =>
    cases s
    · exact Or.inl rfl
    · simp [le, ofNat, round] at h
  | fin s m e =>
    exact Or.inr ⟨_, rfl, (le_iff_toRat toRat_zero (toRat_fin_eq s m e)).1 h⟩

theorem pos_fin {s : Bool} {m : Nat} {e : Int} (h : lt (ofNat 0) (.fin s m e) = true) :
    s = false ∧ m ≠ 0 := by
  have hv := (lt_iff_toRat toRat_zero (toRat_fin_eq s m e)).1 h
  have hpos : (0 : ℚ) < ((signed s m : Int) : ℚ) :=
    (mul_pos_iff_of_pos_right (two_zpow_pos e)).1 hv
  have hint : 0 < signed s m := by exact_mod_cast hpos
  cases s
  · refine ⟨rfl, ?_⟩
    intro hm
    rw [hm] at hint
    simp [signed] at hint
  · simp only [signed, if_true] at hint
    omega

theorem round_false_nonneg (M : Nat) (E : Int) : le (ofNat 0) (round false M E) = true := by
  rcases round_sign false M E with h | ⟨Q, X, h⟩
  · rw [h]
    simp [le, ofNat, round]
  · rw [h, le_iff_toRat toRat_zero (toRat_fin_eq false Q X), signed_cast_false]
    exact mul_nonneg (Nat.cast_nonneg Q) (le_of_lt (two_zpow_pos X))

/-- The product of two values `> 0` is `>= 0`: it may be rounded to zero, and it may
overflow, but it is neither negative nor a NaN. -/
theorem mul_nonneg_of_pos {a b : F64} (ha : lt (ofNat 0) a = true)
    (hb : lt (ofNat 0) b = true) : le (ofNat 0) (mul a b) = true := by
  cases a with
  | nan => simp [lt, ofNat, round] at ha
  | inf s =>
    cases s
    · cases b with
      | nan => simp [lt, ofNat, round] at hb
      | inf t => cases t <;> simp_all [lt, le, mul, ofNat, round]
      | fin t n f =>
        obtain ⟨rfl, hn⟩ := pos_fin hb
        simp [mul, hn, le, ofNat, round]
    · simp [lt, ofNat, round] at ha
  | fin s m e =>
    obtain ⟨rfl, hm⟩ := pos_fin ha
    cases b with
    | nan => simp [lt, ofNat, round] at hb
    | inf t =>
      cases t
      · simp [mul, hm, le, ofNat, round]
      · simp [lt, ofNat, round] at hb
    | fin t n f =>
      obtain ⟨rfl, -⟩ := pos_fin hb
      exact round_false_nonneg _ _

/-- The sum of two values `>= 0` is `>= 0`. -/
theorem add_nonneg_of_nonneg {a b : F64} (ha : le (ofNat 0) a = true)
    (hb : le (ofNat 0) b = true) : le (ofNat 0) (add a b) = true := by
  rcases nonneg_cases ha with rfl | ⟨x, hx, hx0⟩
  · rcases nonneg_cases hb with rfl | ⟨y, hy, hy0⟩
    · simp [add, le, ofNat, round]
    · obtain ⟨t, n, f, rfl, -⟩ := toRat_fin hy
      simp [add, le, ofNat, round]
  · rcases nonneg_cases hb with rfl | ⟨y, hy, hy0⟩
    · obtain ⟨s, m, e, rfl, -⟩ := toRat_fin hx
      simp [add, le, ofNat, round]
    · exact le_add hx hy toRat_zero normalised_zero (by linarith)

/-- A difference `a - b` that passed the test `a < b` is `>= 0` when `a` is finite and `b`
is `>= 0`. -/
theorem sub_nonneg_of_not_lt {a b : F64} (ha : isfinite a = true)
    (hb : le (ofNat 0) b = true) (h : lt a b = false) : le (ofNat 0) (sub a b) = true := by
  obtain ⟨x, hx⟩ := toRat_of_isfinite ha
  rcases nonneg_cases hb with rfl | ⟨y, hy, -⟩
  · obtain ⟨s, m, e, rfl, -⟩ := toRat_fin hx
    simp [lt] at h
  · refine le_sub hx hy toRat_zero normalised_zero ?_
    have : ¬ x < y := by
      intro hlt
      rw [(lt_iff_toRat hx hy).2 hlt] at h
      exact absurd h (by decide)
    linarith

/-- Subtracting a value `>= 0` from a finite value never gives more. -/
theorem sub_le_self {a b : F64} (ha : isfinite a = true) (hn : normalised a = true)
    (hb : le (ofNat 0) b = true) : le (sub a b) a = true := by
  obtain ⟨x, hx⟩ := toRat_of_isfinite ha
  rcases nonneg_cases hb with rfl | ⟨y, hy, hy0⟩
  · obtain ⟨s, m, e, rfl, -⟩ := toRat_fin hx
    simp [sub, neg, add, le]
  · exact sub_le hx hy hx hn (by linarith)

/-- Adding a value `>= 0` to a value `>= 0` never gives less. -/
theorem le_add_self {a b : F64} (hn : normalised a = true) (ha : le (ofNat 0) a = true)
    (hb : le (ofNat 0) b = true) : le a (add a b) = true := by
  rcases nonneg_cases ha with rfl | ⟨x, hx, -⟩
  · rcases nonneg_cases hb with rfl | ⟨y, hy, -⟩
    · simp [add, le]
    · obtain ⟨t, n, f, rfl, -⟩ := toRat_fin hy
      simp [add, le]
  · rcases nonneg_cases hb with rfl | ⟨y, hy, hy0⟩
    · obtain ⟨s, m, e, rfl, -⟩ := toRat_fin hx
      simp [add, le]
    · exact le_add hx hy hx hn (by linarith)

/-- After `s + c` with `s >= 0`, the test `s + c < c` fails. -/
theorem add_not_lt {s c : F64} (hn : normalised c = true) (hs : le (ofNat 0) s = true) :
    lt (add s c) c = false := by
  rcases nonneg_cases hs with rfl | ⟨x, hx, hx0⟩
  · cases c with
    | nan => simp [add, lt]
    | inf t => cases t <;> simp [add, lt]
    | fin t n f => simp [add, lt]
  · obtain ⟨u, m, e, rfl, -⟩ := toRat_fin hx
    cases c with
    | nan => simp [add, lt]
    | inf t => cases t <;> simp [add, lt]
    | fin t n f =>
      exact le_not_lt (le_add hx rfl rfl hn (by linarith))

/-- An exact subtraction of a value `> 0` gives strictly less. -/
theorem sub_lt_of_exact {a b : F64} (h : ExactSub ieeeOps toRat a b)
    (hb : lt (ofNat 0) b = true) : lt (sub a b) a = true := by
  obtain ⟨x, y, hx, hy, hr⟩ := h
  have hy0 : (0 : ℚ) < y := (lt_iff_toRat toRat_zero hy).1 hb
  exact (lt_iff_toRat hr hx).2 (by linarith)

/-- An exact addition of a value `> 0` gives strictly more. -/
theorem lt_add_of_exact {a b : F64} (h : ExactAdd ieeeOps toRat a b)
    (hb : lt (ofNat 0) b = true) : lt a (add a b) = true := by
  obtain ⟨x, y, hx, hy, hr⟩ := h
  have hy0 : (0 : ℚ) < y := (lt_iff_toRat toRat_zero hy).1 hb
  exact (lt_iff_toRat hx hr).2 (by linarith)

/-- Adding back what an exact subtraction took gives the value one started from. -/
theorem add_sub_cancel_of_exact {a b : F64} (h : ExactSub ieeeOps toRat a b)
    (hn : normalised a = true) : eq (add (sub a b) b) a = true := by
  obtain ⟨x, y, hx, hy, hr⟩ := h
  exact le_antisymm_eq (add_le hr hy hx hn (by linarith)) (le_add hr hy hx hn (by linarith))

/-- Subtracting what an exact addition gave gives the value one started from. -/
theorem sub_add_cancel_of_exact {a b : F64} (h : ExactAdd ieeeOps toRat a b)
    (hn : normalised a = true) : eq (sub (add a b) b) a = true := by
  obtain ⟨x, y, hx, hy, hr⟩ := h
  exact le_antisymm_eq (sub_le hr hy hx hn (by linarith)) (le_sub hr hy hx hn (by linarith))

end F64

namespace F64

theorem normalised_of {neg : Bool} {Q : Nat} {X : Int} (h0 : Q ≠ 0) (h1 : Q < 2 ^ 53)
    (h2 : -1074 ≤ X) (h3 : X ≤ 971) (h4 : 2 ^ 52 ≤ Q ∨ X = -1074) :
    normalised (.fin neg Q X) = true := by
  simp only [normalised, Bool.or_eq_true, Bool.and_eq_true, decide_eq_true_eq]
  exact Or.inr ⟨⟨⟨⟨Nat.pos_of_ne_zero h0, h1⟩, h2⟩, h3⟩, h4⟩

theorem pack_normalised (neg : Bool) (Q : Nat) (X : Int) (h1 : Q < 2 ^ 53)
    (h2 : -1074 ≤ X) (h4 : Q ≠ 0 → 2 ^ 52 ≤ Q ∨ X = -1074) :
    normalised (pack neg Q X) = true := by
  by_cases hQ : Q = 0
  · rw [hQ, pack_zero]
    rfl
  · by_cases hX : 971 < X
    · rw [pack_inf neg hQ hX]
      rfl
    · rw [pack_fin neg hQ (not_lt.1 hX)]
      exact normalised_of hQ h1 h2 (not_lt.1 hX) (h4 hQ)

/-- What `round` returns is a value of binary64. -/
theorem round_normalised (neg : Bool) (M : Nat) (E : Int) :
    normalised (round neg M E) = true := by
  by_cases hM : M = 0
  · simp [round, hM, normalised]
  obtain ⟨hlo, hhi, hbpos⟩ := bits_spec M hM
  have hfirst : max (E + (bitLength M M : Int) - 53) (-1074) ≠ -1074 →
      max (E + (bitLength M M : Int) - 53) (-1074) = E + (bitLength M M : Int) - 53 := by
    intro hne
    rcases max_cases (E + (bitLength M M : Int) - 53) (-1074) with ⟨h1, -⟩ | ⟨h1, -⟩
    · exact h1
    · exact absurd h1 hne
  have hge1 : E + (bitLength M M : Int) - 53 ≤ max (E + (bitLength M M : Int) - 53) (-1074) :=
    le_max_left _ _
  have hge2 : -1074 ≤ max (E + (bitLength M M : Int) - 53) (-1074) := le_max_right _ _
  rcases round_cases neg M E hM with ⟨hE, hr⟩ | ⟨hE, q, hq, hr⟩
  · generalize hX : max (E + (bitLength M M : Int) - 53) (-1074) = X at *
    rw [hr]
    generalize hk : (E - X).toNat = k
    have hkb : bitLength M M + k ≤ 53 := by omega
    apply pack_normalised _ _ _ _ hge2
    · intro _
      by_cases hX2 : X = -1074
      · exact Or.inr hX2
      · left
        have hXe := hfirst hX2
        have hk2 : bitLength M M - 1 + k = 52 := by omega
        calc 2 ^ 52 = 2 ^ (bitLength M M - 1) * 2 ^ k := by rw [← pow_add, hk2]
          _ ≤ M * 2 ^ k := Nat.mul_le_mul_right _ hlo
    · calc M * 2 ^ k < 2 ^ bitLength M M * 2 ^ k :=
            Nat.mul_lt_mul_of_pos_right hhi (by positivity)
        _ = 2 ^ (bitLength M M + k) := by rw [pow_add]
        _ ≤ 2 ^ 53 := Nat.pow_le_pow_right (by norm_num) hkb
  · generalize hX : max (E + (bitLength M M : Int) - 53) (-1074) = X at *
    generalize hs : (X - E).toNat = s at *
    have hpos : 0 < 2 ^ s := by positivity
    have hsb : bitLength M M ≤ s + 53 := by omega
    have hq53 : M / 2 ^ s < 2 ^ 53 := by
      rw [Nat.div_lt_iff_lt_mul hpos, ← pow_add]
      exact lt_of_lt_of_le hhi (Nat.pow_le_pow_right (by norm_num) (by omega))
    have hq52 : X ≠ -1074 → 2 ^ 52 ≤ M / 2 ^ s := by
      intro hX2
      have hXe := hfirst hX2
      rw [Nat.le_div_iff_mul_le hpos, ← pow_add]
      have : 52 + s = bitLength M M - 1 := by omega
      rw [this]
      exact hlo
    rw [hr]
    split_ifs with h53
    · exact pack_normalised _ _ _ (by norm_num) (by omega) (fun _ => Or.inl (le_refl _))
    · apply pack_normalised _ _ _ _ hge2
      · intro _
        by_cases hX2 : X = -1074
        · exact Or.inr hX2
        · left
          have := hq52 hX2
          rcases hq with hq | ⟨hq, -⟩ <;> omega
      · rcases hq with hq | ⟨hq, -⟩ <;> omega

theorem add_normalised (a b : F64) : normalised (add a b) = true := by
  cases a with
  | nan => cases b <;> rfl
  | inf s =>
    cases b with
    | nan => rfl
    | inf t =>
      simp only [add]
      split_ifs <;> rfl
    | fin t n f => rfl
  | fin s m e =>
    cases b with
    | nan => rfl
    | inf t => rfl
    | fin t n f =>
      rw [add_fin]
      split_ifs
      · rfl
      · exact round_normalised _ _ _

theorem sub_normalised (a b : F64) : normalised (sub a b) = true := add_normalised a (neg b)

theorem mul_normalised (a b : F64) : normalised (mul a b) = true := by
  cases a with
  | nan => cases b <;> rfl
  | inf s =>
    cases b with
    | nan => rfl
    | inf t => rfl
    | fin t n f =>
      simp only [mul]
      split_ifs <;> rfl
  | fin s m e =>
    cases b with
    | nan => rfl
    | inf t =>
      simp only [mul]
      split_ifs <;> rfl
    | fin t n f => exact round_normalised _ _ _

end F64

namespace F64

theorem ofNat_normalised (n : Nat) : normalised (ofNat n) = true := round_normalised _ _ _

theorem ofRatio_normalised (neg : Bool) (n d : Nat) : normalised (ofRatio neg n d) = true :=
  round_normalised _ _ _

theorem scanUnsigned_normalised (neg : Bool) (input : List Char) (x : F64)
    (h : (scanUnsigned neg input).1 = some x) : normalised x = true := by
  unfold scanUnsigned at h
  simp only at h
  by_cases h1 : List.map Char.toLower (List.take 3 input) = ['i', 'n', 'f']
  · rw [if_pos h1] at h
    cases h
    rfl
  · rw [if_neg h1] at h
    by_cases h2 : List.map Char.toLower (List.take 3 input) = ['n', 'a', 'n']
    · rw [if_pos h2] at h
      cases h
      rfl
    · rw [if_neg h2] at h
      split at h
      · split_ifs at h
        cases h
        exact ofRatio_normalised _ _ _
      · split_ifs at h
        cases h
        exact ofRatio_normalised _ _ _

/-- What `%lf` reads is a value of binary64. -/
theorem scan_normalised (input : List Char) (x : F64) (h : (scan input).1 = some x) :
    normalised x = true := by
  unfold scan scanToken at h
  split at h
  · exact scanUnsigned_normalised _ _ _ h
  · exact scanUnsigned_normalised _ _ _ h
  · exact scanUnsigned_normalised _ _ _ h

end F64

namespace F64

/-- A difference `a - b` of values `>= 0` that passed the test `a < b` is `>= 0`, unless it
is `inf - inf`. -/
theorem sub_nonneg_of_nonneg {a b : F64} (ha : le (ofNat 0) a = true)
    (hb : le (ofNat 0) b = true) (hinf : a = .inf false → b ≠ .inf false)
    (h : lt a b = false) : le (ofNat 0) (sub a b) = true := by
  rcases nonneg_cases ha with rfl | ⟨x, hx, -⟩
  · rcases nonneg_cases hb with rfl | ⟨y, hy, -⟩
    · exact absurd rfl (hinf rfl)
    · obtain ⟨t, n, f, rfl, -⟩ := toRat_fin hy
      simp [sub, neg, add, le, ofNat, round]
  · obtain ⟨s, m, e, rfl, -⟩ := toRat_fin hx
    exact sub_nonneg_of_not_lt rfl hb h

/-- Subtracting a value `>= 0` from a value `>= 0` never gives more, unless it is
`inf - inf`. -/
theorem sub_le_of_nonneg {a b : F64} (hn : normalised a = true) (ha : le (ofNat 0) a = true)
    (hb : le (ofNat 0) b = true) (hinf : a = .inf false → b ≠ .inf false) :
    le (sub a b) a = true := by
  rcases nonneg_cases ha with rfl | ⟨x, hx, -⟩
  · rcases nonneg_cases hb with rfl | ⟨y, hy, -⟩
    · exact absurd rfl (hinf rfl)
    · obtain ⟨t, n, f, rfl, -⟩ := toRat_fin hy
      simp [sub, neg, add, le]
  · obtain ⟨s, m, e, rfl, -⟩ := toRat_fin hx
    exact sub_le_self rfl hn hb

/-- Below or equal is strictly below exactly when not equal. -/
theorem lt_iff_not_eq {a b : F64} (h : le a b = true) : lt a b = true ↔ eq a b = false := by
  cases a with
  | nan => simp [le] at h
  | inf s =>
    cases b with
    | nan => simp [le] at h
    | inf t => cases s <;> cases t <;> simp_all [le, lt, eq]
    | fin t n f => cases s <;> simp_all [le, lt, eq]
  | fin s m e =>
    cases b with
    | nan => simp [le] at h
    | inf t => cases t <;> simp_all [le, lt, eq]
    | fin t n f =>
      rw [le_fin_iff] at h
      rw [lt_fin_iff, ← Bool.not_eq_true, eq_fin_iff]
      exact ⟨fun h1 => ne_of_lt h1, fun h1 => lt_of_le_of_ne h h1⟩

end F64

/-! ## Conservation of the balance -/

theorem buyStock_state (D : DoubleOps α) (m : Market α) (p : Portfolio α)
    (ticker : List Char) (count : α) :
    ∃ p', (buyStock D (some m) (some p) ticker count).state = ⟨some m, some p'⟩ ∧
      p'.balance = (TradeCall.buy ticker count).settle D ⟨some m, some p⟩ p.balance := by
  have hne : FAILURE ≠ SUCCESS := by decide
  by_cases hcount : D.le count D.zero = true
  · exact ⟨p, by simp [buyStock, hcount], by simp [TradeCall.settle, TradeCall.run,
      buyStock, hcount, hne]⟩
  cases hstock : getStock (some m) ticker with
  | none =>
    exact ⟨p, by simp [buyStock, hcount, hstock], by simp [TradeCall.settle, TradeCall.run,
      buyStock, hcount, hstock, hne]⟩
  | some stock =>
    by_cases hshares : D.lt stock.totalShares count = true
    · exact ⟨p, by simp [buyStock, hcount, hstock, hshares], by simp [TradeCall.settle,
        TradeCall.run, buyStock, hcount, hstock, hshares, hne]⟩
    by_cases hfunds : D.lt p.balance (D.mul stock.price count) = true
    · exact ⟨p, by simp [buyStock, hcount, hstock, hshares, hfunds], by simp
        [TradeCall.settle, TradeCall.run, buyStock, hcount, hstock, hshares, hfunds, hne]⟩
    cases hshare : getShare (some p) ticker with
    | none =>
      by_cases hneg : D.lt count D.zero = true
      · exact ⟨p, by simp [buyStock, hcount, hstock, hshares, hfunds, hshare, insertShare,
          createShare, hneg], by simp [TradeCall.settle, TradeCall.run, buyStock, hcount,
          hstock, hshares, hfunds, hshare, insertShare, createShare, hneg, hne]⟩
      · exact ⟨_, by simp [buyStock, hcount, hstock, hshares, hfunds, hshare, insertShare,
          createShare, hneg, hne.symm]; rfl, by simp [TradeCall.settle, TradeCall.run,
          buyStock, hcount, hstock, hshares, hfunds, hshare, insertShare, createShare, hneg,
          hne.symm]⟩
    | some found =>
      exact ⟨_, by simp [buyStock, hcount, hstock, hshares, hfunds, hshare]; rfl,
        by simp [TradeCall.settle, TradeCall.run, buyStock, hcount, hstock, hshares, hfunds,
          hshare]⟩

theorem sellStock_state (D : DoubleOps α) (m : Market α) (p : Portfolio α)
    (ticker : List Char) (count : α) :
    ∃ p', (sellStock D (some m) (some p) ticker count).state = ⟨some m, some p'⟩ ∧
      p'.balance = (TradeCall.sell ticker count).settle D ⟨some m, some p⟩ p.balance := by
  have hne : FAILURE ≠ SUCCESS := by decide
  by_cases hcount : D.le count D.zero = true
  · exact ⟨p, by simp [sellStock, hcount], by simp [TradeCall.settle, TradeCall.run,
      sellStock, hcount, hne]⟩
  cases hshare : getShare (some p) ticker with
  | none =>
    exact ⟨p, by simp [sellStock, hcount, hshare], by simp [TradeCall.settle, TradeCall.run,
      sellStock, hcount, hshare, hne]⟩
  | some found =>
    cases hstock : getStock (some m) ticker with
    | none =>
      exact ⟨p, by simp [sellStock, hcount, hshare, hstock], by simp [TradeCall.settle,
        TradeCall.run, sellStock, hcount, hshare, hstock, hne]⟩
    | some stock =>
      by_cases hshares : D.lt found.2.count count = true
      · exact ⟨p, by simp [sellStock, hcount, hshare, hstock, hshares], by simp
          [TradeCall.settle, TradeCall.run, sellStock, hcount, hshare, hstock, hshares, hne]⟩
      · exact ⟨_, by simp [sellStock, hcount, hshare, hstock, hshares]; rfl,
          by simp [TradeCall.settle, TradeCall.run, sellStock, hcount, hshare, hstock,
            hshares]⟩

theorem run_state (D : DoubleOps α) (m : Market α) (p : Portfolio α) (c : TradeCall α) :
    ∃ p', (c.run D ⟨some m, some p⟩).state = ⟨some m, some p'⟩ ∧
      p'.balance = c.settle D ⟨some m, some p⟩ p.balance := by
  cases c with
  | buy ticker count => exact buyStock_state D m p ticker count
  | sell ticker count => exact sellStock_state D m p ticker count

theorem runCalls_balance (D : DoubleOps α) (m : Market α) (calls : List (TradeCall α)) :
    ∀ p : Portfolio α, ∃ p', runCalls D ⟨some m, some p⟩ calls = ⟨some m, some p'⟩ ∧
      p'.balance = settleCalls D ⟨some m, some p⟩ calls p.balance := by
  induction calls with
  | nil => exact fun p => ⟨p, rfl, rfl⟩
  | cons c cs ih =>
    intro p
    obtain ⟨p1, hstate, hbal⟩ := run_state D m p c
    obtain ⟨p', hfinal, hbal'⟩ := ih p1
    refine ⟨p', ?_, ?_⟩
    · simp only [runCalls, hstate, hfinal]
    · simp only [settleCalls, hstate, ← hbal, hbal']

theorem settleCalls_value {R : Type} [CommRing R] (D : DoubleOps α) (val : α → Option R)
    (m : Market α) (calls : List (TradeCall α)) :
    ∀ (p : Portfolio α) (x : R), val p.balance = some x →
      ExactRun D val ⟨some m, some p⟩ calls →
      val (settleCalls D ⟨some m, some p⟩ calls p.balance)
        = some (x - buyValue D val ⟨some m, some p⟩ calls
            + sellValue D val ⟨some m, some p⟩ calls) := by
  induction calls with
  | nil =>
    intro p x hx _
    simp [settleCalls, buyValue, sellValue, hx]
  | cons c cs ih =>
    intro p x hx hrun
    obtain ⟨p1, hstate, hbal⟩ := run_state D m p c
    simp only [ExactRun] at hrun
    obtain ⟨hexact, hrest⟩ := hrun
    rw [hstate] at hrest
    have hgoal : settleCalls D ⟨some m, some p⟩ (c :: cs) p.balance
        = settleCalls D ⟨some m, some p1⟩ cs p1.balance := by
      simp only [settleCalls, hstate, ← hbal]
    rw [hgoal]
    cases c with
    | buy ticker count =>
      cases hstock : getStock (some m) ticker with
      | none =>
        have hp1 : p1.balance = p.balance := by
          rw [hbal]
          simp [TradeCall.settle, hstock]
        rw [ih p1 x (by rw [hp1]; exact hx) hrest]
        simp [buyValue, sellValue, hstock, hstate]
      | some stock =>
        by_cases hs : ((TradeCall.buy ticker count).run D ⟨some m, some p⟩).status = SUCCESS
        · simp only [TradeCall.Exact, hstock] at hexact
          obtain ⟨⟨a, b, ha, hb, hab⟩, ⟨x', y', hx', hy', hxy⟩⟩ := hexact hs
          rw [hx] at hx'
          rw [hab] at hy'
          cases hx'
          cases hy'
          have hp1 : p1.balance = D.sub p.balance (D.mul stock.price count) := by
            rw [hbal]
            simp [TradeCall.settle, hstock, hs]
          rw [ih p1 (x - a * b) (by rw [hp1]; exact hxy) hrest]
          simp only [buyValue, sellValue, hstock, hstate, hs, if_true, valueOf, ha, hb,
            Option.getD_some]
          congr 1
          ring
        · have hp1 : p1.balance = p.balance := by
            rw [hbal]
            simp [TradeCall.settle, hs]
          rw [ih p1 x (by rw [hp1]; exact hx) hrest]
          simp [buyValue, sellValue, hstock, hstate, hs]
    | sell ticker count =>
      cases hstock : getStock (some m) ticker with
      | none =>
        have hp1 : p1.balance = p.balance := by
          rw [hbal]
          simp [TradeCall.settle, hstock]
        rw [ih p1 x (by rw [hp1]; exact hx) hrest]
        simp [buyValue, sellValue, hstock, hstate]
      | some stock =>
        by_cases hs : ((TradeCall.sell ticker count).run D ⟨some m, some p⟩).status = SUCCESS
        · simp only [TradeCall.Exact, hstock] at hexact
          obtain ⟨⟨a, b, ha, hb, hab⟩, ⟨x', y', hx', hy', hxy⟩⟩ := hexact hs
          rw [hx] at hx'
          rw [hab] at hy'
          cases hx'
          cases hy'
          have hp1 : p1.balance = D.add p.balance (D.mul stock.price count) := by
            rw [hbal]
            simp [TradeCall.settle, hstock, hs]
          rw [ih p1 (x + a * b) (by rw [hp1]; exact hxy) hrest]
          simp only [buyValue, sellValue, hstock, hstate, hs, if_true, valueOf, ha, hb,
            Option.getD_some]
          congr 1
          ring
        · have hp1 : p1.balance = p.balance := by
            rw [hbal]
            simp [TradeCall.settle, hs]
          rw [ih p1 x (by rw [hp1]; exact hx) hrest]
          simp [buyValue, sellValue, hstock, hstate, hs]

/-- C6, as the code has it.  For every market, starting portfolio and sequence of
`buyStock` / `sellStock` calls applied in order, the final balance is the initial balance
updated, in call order and in the arithmetic of `double`, by `- stock.price * count` for
each successful buy and `+ stock.price * count` for each successful sell, failed calls
contributing nothing.  And whenever the products and the updates of the balance that the
successful calls perform are all exact, the final balance minus the initial balance is, as
a number, minus the sum of `price * count` over the successful buys plus the sum over the
successful sells. -/
theorem balance_conservation (D : DoubleOps α) (m : Market α) (p : Portfolio α)
    (calls : List (TradeCall α)) :
    ∃ p', (runCalls D ⟨some m, some p⟩ calls).portfolio = some p' ∧
      p'.balance = settleCalls D ⟨some m, some p⟩ calls p.balance ∧
      ∀ {R : Type} [CommRing R] (val : α → Option R) (x : R), val p.balance = some x →
        ExactRun D val ⟨some m, some p⟩ calls →
        ∃ x', val p'.balance = some x' ∧
          x' - x = -buyValue D val ⟨some m, some p⟩ calls
            + sellValue D val ⟨some m, some p⟩ calls := by
  obtain ⟨p', hfinal, hbal⟩ := runCalls_balance D m calls p
  refine ⟨p', by rw [hfinal], hbal, ?_⟩
  intro R _ val x hx hrun
  refine ⟨_, by rw [hbal]; exact settleCalls_value D val m calls p x hx hrun, ?_⟩
  ring

section Binary64

set_option maxRecDepth 100000

theorem balance_conservation_witness :
    runCalls ieeeOps ⟨some twoStocks, some cashPortfolio⟩ cashCalls
        = ⟨some twoStocks, some
            { head := [{ count := F64.ofNat 3, ticker := copyTicker ZZZZ },
                       { count := F64.ofNat 3, ticker := copyTicker AAPL }],
              balance := .fin false 4824657022681088 (-43) }⟩ ∧
      ExactRun ieeeOps F64.toRat ⟨some twoStocks, some cashPortfolio⟩ cashCalls ∧
      ∃ p', (runCalls ieeeOps ⟨some twoStocks, some cashPortfolio⟩ cashCalls).portfolio
          = some p' ∧
        p'.balance = settleCalls ieeeOps ⟨some twoStocks, some cashPortfolio⟩ cashCalls
            cashPortfolio.balance ∧
        ∃ x x', F64.toRat cashPortfolio.balance = some x ∧ F64.toRat p'.balance = some x' ∧
          x' - x = -buyValue ieeeOps F64.toRat ⟨some twoStocks, some cashPortfolio⟩ cashCalls
            + sellValue ieeeOps F64.toRat ⟨some twoStocks, some cashPortfolio⟩ cashCalls :=
  have hrun : ExactRun ieeeOps F64.toRat ⟨some twoStocks, some cashPortfolio⟩ cashCalls :=
    ⟨fun _ => ⟨exactMul_of_isProduct _ _ (by decide), exactSub_of_isSum _ _ (by decide)⟩,
      fun h => absurd h (by decide),
      fun _ => ⟨exactMul_of_isProduct _ _ (by decide), exactAdd_of_isSum _ _ (by decide)⟩,
      fun _ => ⟨exactMul_of_isProduct _ _ (by decide), exactSub_of_isSum _ _ (by decide)⟩,
      trivial⟩
  ⟨by decide, hrun,
    (balance_conservation ieeeOps twoStocks cashPortfolio cashCalls).elim
      fun p' h => ⟨p', h.1, h.2.1, _,
        (h.2.2 F64.toRat _ rfl hrun).elim fun x' hx' => ⟨x', rfl, hx'.1, hx'.2⟩⟩⟩

/-- C6 as stated fails in binary64.  With the market `AAPL 1 1000` and the balance `2^54`,
`buy(AAPL, 1)` succeeds and `balance -= 1 * 1` rounds back to `2^54`: the balance does not
change, while the sum over the successful buys is `1`. -/
theorem balance_conservation_counterexample :
    (buyStock ieeeOps (some unitMarket) (some largePortfolio) AAPL (F64.ofNat 1)).status
        = SUCCESS ∧
      buyTotal ieeeOps ⟨some unitMarket, some largePortfolio⟩ [.buy AAPL (F64.ofNat 1)]
        = F64.ofNat 1 ∧
      sellTotal ieeeOps ⟨some unitMarket, some largePortfolio⟩ [.buy AAPL (F64.ofNat 1)]
        = F64.ofNat 0 ∧
      ∃ p', (runCalls ieeeOps ⟨some unitMarket, some largePortfolio⟩
            [.buy AAPL (F64.ofNat 1)]).portfolio = some p' ∧
        p'.balance = largePortfolio.balance ∧
        ieeeOps.eq (ieeeOps.sub p'.balance largePortfolio.balance)
          (ieeeOps.add
            (ieeeOps.sub ieeeOps.zero
              (buyTotal ieeeOps ⟨some unitMarket, some largePortfolio⟩
                [.buy AAPL (F64.ofNat 1)]))
            (sellTotal ieeeOps ⟨some unitMarket, some largePortfolio⟩
              [.buy AAPL (F64.ofNat 1)])) = false :=
  ⟨by decide, by decide, by decide,
    { head := [{ count := F64.ofNat 1, ticker := copyTicker AAPL }],
      balance := F64.ofNat 18014398509481984 },
    by decide, by decide, by decide⟩

end Binary64

/-! ## Insertion and lookup -/

/-- C7. Most recent wins: for a ticker of at most `TICKER_LENGTH` characters, after
`insertStock` succeeds `getStock` returns for that ticker a record with the price and
total shares just inserted, whatever records the market already held, and returns for
every other ticker what it returned before.  Likewise after `insertShare` succeeds
`getShare` returns for that ticker the new head node, with the count just inserted, and
for every other ticker the node it returned before (now one position further). -/
theorem insert_then_lookup (D : DoubleOps α) (market : Option (Market α))
    (portfolio : Option (Portfolio α)) (ticker : List Char)
    (hlen : ticker.length ≤ TICKER_LENGTH) (price totalShares count : α) :
    ((insertStock D market ticker price totalShares).status = SUCCESS →
      (∃ stock, getStock (insertStock D market ticker price totalShares).state ticker
          = some stock ∧ stock.price = price ∧ stock.totalShares = totalShares ∧
          stock.ticker.chars = ticker) ∧
      ∀ other, other ≠ ticker →
        getStock (insertStock D market ticker price totalShares).state other
          = getStock market other) ∧
    ((insertShare D portfolio ticker count).status = SUCCESS →
      (∃ share, getShare (insertShare D portfolio ticker count).state ticker
          = some (0, share) ∧ share.count = count ∧ share.ticker.chars = ticker) ∧
      ∀ other, other ≠ ticker →
        getShare (insertShare D portfolio ticker count).state other
          = (getShare portfolio other).map fun found => (found.1 + 1, found.2)) := by
  have hne : FAILURE ≠ SUCCESS := by decide
  have hchars := copyTicker_chars_of_le ticker hlen
  have hself : strcmp ticker ticker = 0 := (strcmp_eq_zero_iff _ _).2 rfl
  constructor
  · intro h
    rcases market with _ | m
    · exact absurd (by simpa [insertStock] using h) hne
    by_cases hbad : (D.le price D.zero || D.le totalShares D.zero) = true
    · exact absurd (by simpa [insertStock, createStock, hbad] using h) hne
    have hstate : (insertStock D (some m) ticker price totalShares).state
        = some { head := { price := price, totalShares := totalShares,
                           ticker := copyTicker ticker } :: m.head } := by
      simp [insertStock, createStock, hbad]
    rw [hstate]
    constructor
    · exact ⟨{ price := price, totalShares := totalShares, ticker := copyTicker ticker },
        by simp [getStock, getStockLoop, hchars, hself], rfl, rfl, hchars⟩
    · intro other hother
      have hcmp : strcmp other ticker ≠ 0 := fun hc => hother ((strcmp_eq_zero_iff _ _).1 hc)
      simp [getStock, getStockLoop, hchars, hcmp]
  · intro h
    rcases portfolio with _ | p
    · exact absurd (by simpa [insertShare] using h) hne
    by_cases hbad : D.lt count D.zero = true
    · exact absurd (by simpa [insertShare, createShare, hbad] using h) hne
    have hstate : (insertShare D (some p) ticker count).state
        = some { head := { count := count, ticker := copyTicker ticker } :: p.head,
                 balance := p.balance } := by
      simp [insertShare, createShare, hbad]
    rw [hstate]
    constructor
    · exact ⟨{ count := count, ticker := copyTicker ticker },
        by simp [getShare, getShareLoop, hchars, hself], rfl, hchars⟩
    · intro other hother
      have hcmp : strcmp other ticker ≠ 0 := fun hc => hother ((strcmp_eq_zero_iff _ _).1 hc)
      simp [getShare, getShareLoop, hchars, hcmp]

theorem insert_then_lookup_witness :
    ((∃ stock, getStock (insertStock intOps (some scenarioMarket) AAPL 175 2000).state AAPL
          = some stock ∧ stock.price = 175 ∧ stock.totalShares = 2000 ∧
          stock.ticker.chars = AAPL) ∧
      ∀ other, other ≠ AAPL →
        getStock (insertStock intOps (some scenarioMarket) AAPL 175 2000).state other
          = getStock (some scenarioMarket) other) ∧
    ((∃ share, getShare (insertShare intOps (some scenarioPortfolioAfterBuy) AAPL 7).state
          AAPL = some (0, share) ∧ share.count = 7 ∧ share.ticker.chars = AAPL) ∧
      ∀ other, other ≠ AAPL →
        getShare (insertShare intOps (some scenarioPortfolioAfterBuy) AAPL 7).state other
          = (getShare (some scenarioPortfolioAfterBuy) other).map
              fun found => (found.1 + 1, found.2)) :=
  ⟨(insert_then_lookup intOps (some scenarioMarket) (some scenarioPortfolioAfterBuy) AAPL
      (by decide) 175 2000 7).1 (by decide),
    (insert_then_lookup intOps (some scenarioMarket) (some scenarioPortfolioAfterBuy) AAPL
      (by decide) 175 2000 7).2 (by decide)⟩

/-- C8. For a present market, `insertStock` returns `FAILURE` iff `price <= 0` or
`totalShares <= 0`; a failed call leaves the market as it was; a successful call leaves
the old list with exactly one new record linked in front of it, carrying the given price
and total shares. -/
theorem insertStock_validation (D : DoubleOps α) (m : Market α) (ticker : List Char)
    (price totalShares : α) :
    ((insertStock D (some m) ticker price totalShares).status = FAILURE ↔
      (D.le price D.zero = true ∨ D.le totalShares D.zero = true)) ∧
    ((insertStock D (some m) ticker price totalShares).status = FAILURE →
      (insertStock D (some m) ticker price totalShares).state = some m) ∧
    ((insertStock D (some m) ticker price totalShares).status ≠ FAILURE →
      (insertStock D (some m) ticker price totalShares).status = SUCCESS ∧
      ∃ stock, (insertStock D (some m) ticker price totalShares).state
          = some { head := stock :: m.head } ∧
        stock.price = price ∧ stock.totalShares = totalShares) := by
  have hne : SUCCESS ≠ FAILURE := by decide
  by_cases hbad : (D.le price D.zero || D.le totalShares D.zero) = true
  · have hor : D.le price D.zero = true ∨ D.le totalShares D.zero = true := by
      simpa [Bool.or_eq_true] using hbad
    simp [insertStock, createStock, hbad, hor]
  · have hor : ¬ (D.le price D.zero = true ∨ D.le totalShares D.zero = true) := by
      simpa [Bool.or_eq_true] using hbad
    simp only [insertStock, createStock, hbad]
    refine ⟨⟨fun h => absurd h hne, fun h => absurd h hor⟩, fun h => absurd h hne, ?_⟩
    intro _
    exact ⟨rfl, _, rfl, rfl, rfl⟩

theorem insertStock_validation_witness :
    ((insertStock intOps (some scenarioMarket) ZZZZ 0 10).status = FAILURE ∧
      (insertStock intOps (some scenarioMarket) ZZZZ 0 10).state = some scenarioMarket) ∧
    ((insertStock intOps (some scenarioMarket) ZZZZ 3 10).status = SUCCESS ∧
      ∃ stock, (insertStock intOps (some scenarioMarket) ZZZZ 3 10).state
          = some { head := stock :: scenarioMarket.head } ∧
        stock.price = 3 ∧ stock.totalShares = 10) :=
  ⟨⟨(insertStock_validation intOps scenarioMarket ZZZZ 0 10).1.2 (Or.inl (by decide)),
      (insertStock_validation intOps scenarioMarket ZZZZ 0 10).2.1 (by decide)⟩,
    (insertStock_validation intOps scenarioMarket ZZZZ 3 10).2.2 (by decide)⟩

/-- C9. For a present portfolio, `insertShare` returns `FAILURE` iff `count < 0`; a count
of `0` is accepted and puts a holding with count `0` at the head of the share list; a
failed call leaves the portfolio as it was; no call changes the balance. -/
theorem insertShare_validation (D : DoubleOps α) (hD : OrderLaws D) (p : Portfolio α)
    (ticker : List Char) (count : α) :
    ((insertShare D (some p) ticker count).status = FAILURE ↔ D.lt count D.zero = true) ∧
    ((insertShare D (some p) ticker count).status = FAILURE →
      (insertShare D (some p) ticker count).state = some p) ∧
    ((insertShare D (some p) ticker count).status ≠ FAILURE →
      (insertShare D (some p) ticker count).status = SUCCESS ∧
      ∃ share, (insertShare D (some p) ticker count).state
          = some { head := share :: p.head, balance := p.balance } ∧
        share.count = count) ∧
    ((insertShare D (some p) ticker D.zero).status = SUCCESS ∧
      ∃ share, (insertShare D (some p) ticker D.zero).state
          = some { head := share :: p.head, balance := p.balance } ∧
        share.count = D.zero) ∧
    (∃ p', (insertShare D (some p) ticker count).state = some p' ∧
      p'.balance = p.balance) := by
  have hne : SUCCESS ≠ FAILURE := by decide
  have hzero : D.lt D.zero D.zero = false := hD.lt_irrefl _
  have hz : (insertShare D (some p) ticker D.zero).status = SUCCESS ∧
      ∃ share, (insertShare D (some p) ticker D.zero).state
          = some { head := share :: p.head, balance := p.balance } ∧
        share.count = D.zero := by
    simp only [insertShare, createShare, hzero]
    exact ⟨rfl, _, rfl, rfl⟩
  by_cases hbad : D.lt count D.zero = true
  · exact ⟨by simp [insertShare, createShare, hbad],
      by simp [insertShare, createShare, hbad],
      by simp [insertShare, createShare, hbad], hz,
      by simp [insertShare, createShare, hbad]⟩
  · simp only [insertShare, createShare, hbad]
    refine ⟨⟨fun h => absurd h hne, fun h => absurd h (by simp)⟩, fun h => absurd h hne,
      ?_, hz, _, rfl, rfl⟩
    intro _
    exact ⟨rfl, _, rfl, rfl⟩

theorem insertShare_validation_witness :
    ((insertShare intOps (some scenarioPortfolio) AAPL (-1)).status = FAILURE ∧
      (insertShare intOps (some scenarioPortfolio) AAPL (-1)).state
        = some scenarioPortfolio) ∧
    ((insertShare intOps (some scenarioPortfolio) AAPL 0).status = SUCCESS ∧
      ∃ share, (insertShare intOps (some scenarioPortfolio) AAPL 0).state
          = some { head := share :: scenarioPortfolio.head,
                   balance := scenarioPortfolio.balance } ∧
        share.count = 0) :=
  ⟨⟨(insertShare_validation intOps intOps_orderLaws scenarioPortfolio AAPL (-1)).1.2
        (by decide),
      (insertShare_validation intOps intOps_orderLaws scenarioPortfolio AAPL (-1)).2.1
        (by decide)⟩,
    (insertShare_validation intOps intOps_orderLaws scenarioPortfolio AAPL 0).2.2.1
      (by decide)⟩

/-! ## Ticker truncation -/

/-- C10. The record created by a successful `insertStock`, and the one created by a
successful `insertShare`, stores exactly the first `min TICKER_LENGTH length` characters
of the ticker it was given: a ticker of at most `TICKER_LENGTH` characters, the empty one
included, is stored as it is, a longer one is stored as its first `TICKER_LENGTH`
characters; so the stored ticker never has more than `TICKER_LENGTH` characters. -/
theorem stored_ticker_truncated (D : DoubleOps α) (m : Market α) (p : Portfolio α)
    (ticker : List Char) (price totalShares count : α) :
    ((insertStock D (some m) ticker price totalShares).status = SUCCESS →
      ∃ stock, (insertStock D (some m) ticker price totalShares).state
          = some { head := stock :: m.head } ∧
        stock.ticker.chars = ticker.take (min TICKER_LENGTH ticker.length) ∧
        (ticker.length ≤ TICKER_LENGTH → stock.ticker.chars = ticker) ∧
        (TICKER_LENGTH < ticker.length → stock.ticker.chars = ticker.take TICKER_LENGTH ∧
          stock.ticker.chars.length = TICKER_LENGTH) ∧
        stock.ticker.chars.length ≤ TICKER_LENGTH) ∧
    ((insertShare D (some p) ticker count).status = SUCCESS →
      ∃ share, (insertShare D (some p) ticker count).state
          = some { head := share :: p.head, balance := p.balance } ∧
        share.ticker.chars = ticker.take (min TICKER_LENGTH ticker.length) ∧
        (ticker.length ≤ TICKER_LENGTH → share.ticker.chars = ticker) ∧
        (TICKER_LENGTH < ticker.length → share.ticker.chars = ticker.take TICKER_LENGTH ∧
          share.ticker.chars.length = TICKER_LENGTH) ∧
        share.ticker.chars.length ≤ TICKER_LENGTH) := by
  have hne : FAILURE ≠ SUCCESS := by decide
  have hfacts : (copyTicker ticker).chars = ticker.take (min TICKER_LENGTH ticker.length) ∧
      (ticker.length ≤ TICKER_LENGTH → (copyTicker ticker).chars = ticker) ∧
      (TICKER_LENGTH < ticker.length →
        (copyTicker ticker).chars = ticker.take TICKER_LENGTH ∧
        (copyTicker ticker).chars.length = TICKER_LENGTH) ∧
      (copyTicker ticker).chars.length ≤ TICKER_LENGTH := by
    refine ⟨?_, copyTicker_chars_of_le ticker, ?_, (copyTicker ticker).fits⟩
    · rw [copyTicker_chars]
      rcases Nat.le_total TICKER_LENGTH ticker.length with h | h
      · rw [Nat.min_eq_left h]
      · rw [Nat.min_eq_right h, List.take_of_length_le h, List.take_length]
    · intro h
      refine ⟨copyTicker_chars ticker, ?_⟩
      rw [copyTicker_chars, List.length_take, Nat.min_eq_left (Nat.le_of_lt h)]
  constructor
  · intro h
    by_cases hbad : (D.le price D.zero || D.le totalShares D.zero) = true
    · exact absurd (by simpa [insertStock, createStock, hbad] using h) hne
    · simp only [insertStock, createStock, hbad]
      exact ⟨_, rfl, hfacts⟩
  · intro h
    by_cases hbad : D.lt count D.zero = true
    · exact absurd (by simpa [insertShare, createShare, hbad] using h) hne
    · simp only [insertShare, createShare, hbad]
      exact ⟨_, rfl, hfacts⟩

theorem stored_ticker_truncated_witness :
    (∃ stock, (insertStock intOps (some scenarioMarket) GOOGLE 3 10).state
          = some { head := stock :: scenarioMarket.head } ∧
        stock.ticker.chars = GOOGLE.take (min TICKER_LENGTH GOOGLE.length) ∧
        (GOOGLE.length ≤ TICKER_LENGTH → stock.ticker.chars = GOOGLE) ∧
        (TICKER_LENGTH < GOOGLE.length → stock.ticker.chars = GOOGLE.take TICKER_LENGTH ∧
          stock.ticker.chars.length = TICKER_LENGTH) ∧
        stock.ticker.chars.length ≤ TICKER_LENGTH) ∧
    (∃ share, (insertShare intOps (some scenarioPortfolio) [] 1).state
          = some { head := share :: scenarioPortfolio.head,
                   balance := scenarioPortfolio.balance } ∧
        share.ticker.chars = ([] : List Char).take
          (min TICKER_LENGTH ([] : List Char).length) ∧
        (([] : List Char).length ≤ TICKER_LENGTH → share.ticker.chars = []) ∧
        (TICKER_LENGTH < ([] : List Char).length →
          share.ticker.chars = ([] : List Char).take TICKER_LENGTH ∧
          share.ticker.chars.length = TICKER_LENGTH) ∧
        share.ticker.chars.length ≤ TICKER_LENGTH) ∧
    (copyTicker GOOGLE).chars = ['G', 'O', 'O', 'G'] :=
  ⟨(stored_ticker_truncated intOps scenarioMarket scenarioPortfolio GOOGLE 3 10 1).1
      (by decide),
    (stored_ticker_truncated intOps scenarioMarket scenarioPortfolio [] 3 10 1).2
      (by decide),
    by decide⟩

/-! ## The paths of a trade -/

theorem buyStock_cases (D : DoubleOps α) (m : Market α) (p : Portfolio α)
    (ticker : List Char) (count : α) :
    ((buyStock D (some m) (some p) ticker count).status = FAILURE ∧
      (buyStock D (some m) (some p) ticker count).state = ⟨some m, some p⟩) ∨
    ∃ stock, getStock (some m) ticker = some stock ∧ D.le count D.zero = false ∧
      D.lt stock.totalShares count = false ∧
      D.lt p.balance (D.mul stock.price count) = false ∧
      (buyStock D (some m) (some p) ticker count).status = SUCCESS ∧
      ((getShare (some p) ticker = none ∧ D.lt count D.zero = false ∧
          (buyStock D (some m) (some p) ticker count).state
            = ⟨some m, some
                { head := { count := count, ticker := copyTicker ticker } :: p.head
                  balance := D.sub p.balance (D.mul stock.price count) }⟩) ∨
        ∃ found, getShare (some p) ticker = some found ∧
          (buyStock D (some m) (some p) ticker count).state
            = ⟨some m, some
                { head := writeCount (fun c => D.add c count) found.1 p.head
                  balance := D.sub p.balance (D.mul stock.price count) }⟩) := by
  have hne : SUCCESS ≠ FAILURE := by decide
  cases hcount : D.le count D.zero with
  | true => exact Or.inl (by simp [buyStock, hcount])
  | false =>
    cases hstock : getStock (some m) ticker with
    | none => exact Or.inl (by simp [buyStock, hcount, hstock])
    | some stock =>
      cases hshares : D.lt stock.totalShares count with
      | true => exact Or.inl (by simp [buyStock, hcount, hstock, hshares])
      | false =>
        cases hfunds : D.lt p.balance (D.mul stock.price count) with
        | true => exact Or.inl (by simp [buyStock, hcount, hstock, hshares, hfunds])
        | false =>
          cases hshare : getShare (some p) ticker with
          | none =>
            cases hneg : D.lt count D.zero with
            | true =>
              exact Or.inl (by simp [buyStock, hcount, hstock, hshares, hfunds, hshare,
                insertShare, createShare, hneg])
            | false =>
              refine Or.inr ⟨stock, rfl, rfl, hshares, hfunds, ?_, Or.inl ⟨rfl, rfl, ?_⟩⟩
              · simp [buyStock, hcount, hstock, hshares, hfunds, hshare, insertShare,
                  createShare, hneg, hne]
              · simp [buyStock, hcount, hstock, hshares, hfunds, hshare, insertShare,
                  createShare, hneg, hne]
          | some found =>
            refine Or.inr ⟨stock, rfl, rfl, hshares, hfunds, ?_, Or.inr ⟨found, rfl, ?_⟩⟩
            · simp [buyStock, hcount, hstock, hshares, hfunds, hshare]
            · simp [buyStock, hcount, hstock, hshares, hfunds, hshare]

theorem sellStock_cases (D : DoubleOps α) (m : Market α) (p : Portfolio α)
    (ticker : List Char) (count : α) :
    ((sellStock D (some m) (some p) ticker count).status = FAILURE ∧
      (sellStock D (some m) (some p) ticker count).state = ⟨some m, some p⟩) ∨
    ∃ stock found, getStock (some m) ticker = some stock ∧
      getShare (some p) ticker = some found ∧ D.le count D.zero = false ∧
      D.lt found.2.count count = false ∧
      (sellStock D (some m) (some p) ticker count).status = SUCCESS ∧
      (sellStock D (some m) (some p) ticker count).state
        = ⟨some m, some
            { head := writeCount (fun c => D.sub c count) found.1 p.head
              balance := D.add p.balance (D.mul stock.price count) }⟩ := by
  cases hcount : D.le count D.zero with
  | true => exact Or.inl (by simp [sellStock, hcount])
  | false =>
    cases hshare : getShare (some p) ticker with
    | none => exact Or.inl (by simp [sellStock, hcount, hshare])
    | some found =>
      cases hstock : getStock (some m) ticker with
      | none => exact Or.inl (by simp [sellStock, hcount, hshare, hstock])
      | some stock =>
        cases hshares : D.lt found.2.count count with
        | true => exact Or.inl (by simp [sellStock, hcount, hshare, hstock, hshares])
        | false =>
          exact Or.inr ⟨stock, found, rfl, rfl, rfl, hshares,
            by simp [sellStock, hcount, hshare, hstock, hshares],
            by simp [sellStock, hcount, hshare, hstock, hshares]⟩

/-! ## The market is a frame of every trade -/

/-- C16. A call of `buyStock` or of `sellStock`, successful or failed, leaves the market
as it was: the same records, with the same tickers, prices and total shares, in the same
order; in particular a successful buy does not decrement `totalShares`. -/
theorem trade_market_unchanged (D : DoubleOps α) (market : Option (Market α))
    (portfolio : Option (Portfolio α)) (ticker : List Char) (count : α) :
    (buyStock D market portfolio ticker count).state.market = market ∧
      (sellStock D market portfolio ticker count).state.market = market := by
  rcases market with _ | m <;> rcases portfolio with _ | p <;>
    try exact ⟨rfl, rfl⟩
  constructor
  · rcases buyStock_cases D m p ticker count with ⟨-, h⟩ | ⟨_, -, -, -, -, -, h⟩
    · rw [h]
    · rcases h with ⟨-, -, h⟩ | ⟨_, -, h⟩ <;> rw [h]
  · rcases sellStock_cases D m p ticker count with ⟨-, h⟩ | ⟨_, _, -, -, -, -, -, h⟩ <;>
      rw [h]

/-! ## Uniqueness of the tickers of a portfolio -/

theorem writeCount_tickers (f : α → α) (i : Nat) (l : List (Share α)) :
    (writeCount f i l).map (fun s => s.ticker.chars) = l.map fun s => s.ticker.chars := by
  induction l generalizing i with
  | nil => simp [writeCount]
  | cons s rest ih =>
    cases i with
    | zero => simp [writeCount]
    | succ i => simp [writeCount, ih i]

theorem writeCount_length (f : α → α) (i : Nat) (l : List (Share α)) :
    (writeCount f i l).length = l.length := by
  have h := congrArg List.length (writeCount_tickers f i l)
  simpa using h

theorem getShareLoop_none {ticker : List Char} {l : List (Share α)}
    (h : getShareLoop ticker l = none) : ticker ∉ l.map fun s => s.ticker.chars := by
  induction l with
  | nil => simp
  | cons current next ih =>
    by_cases hc : strcmp ticker current.ticker.chars = 0
    · simp [getShareLoop, hc] at h
    · simp only [getShareLoop, hc, if_false, Option.map_eq_none'] at h
      have hne : ticker ≠ current.ticker.chars := fun heq =>
        hc ((strcmp_eq_zero_iff _ _).2 heq)
      simp only [List.map_cons, List.mem_cons, not_or]
      exact ⟨hne, ih h⟩

/-- C17. `buyStock` preserves the uniqueness of the tickers of a portfolio: when no two
holdings share a ticker before a call of `buyStock`, with any market, any ticker string of
any length and any count, no two holdings share a ticker after it. -/
theorem buyStock_keeps_tickers_distinct (D : DoubleOps α) (market : Option (Market α))
    (p : Portfolio α) (ticker : List Char) (count : α)
    (hp : (p.head.map fun s => s.ticker.chars).Nodup) :
    ∃ p', (buyStock D market (some p) ticker count).state.portfolio = some p' ∧
      (p'.head.map fun s => s.ticker.chars).Nodup := by
  rcases market with _ | m
  · exact ⟨p, rfl, hp⟩
  rcases buyStock_cases D m p ticker count with ⟨-, h⟩ | ⟨stock, hstock, -, -, -, -, h⟩
  · exact ⟨p, by rw [h], hp⟩
  · rcases h with ⟨hshare, -, h⟩ | ⟨found, -, h⟩
    · refine ⟨_, by rw [h], ?_⟩
      have hnot := getShareLoop_none (by simpa [getShare] using hshare)
      have hchars := copyTicker_chars_of_le ticker (getStock_some_length hstock)
      simp only [List.map_cons, List.nodup_cons, hchars]
      exact ⟨hnot, hp⟩
    · refine ⟨_, by rw [h], ?_⟩
      simpa only [writeCount_tickers] using hp

theorem buyStock_keeps_tickers_distinct_witness :
    buyStock intOps (some scenarioMarket) (some twoHoldings) AAPL 1
        = ⟨SUCCESS, [.bought], ⟨some scenarioMarket, some
            { head := [{ count := 2, ticker := copyTicker ZZZZ },
                       { count := 6, ticker := copyTicker AAPL }],
              balance := 850 }⟩⟩ ∧
      ∃ p', (buyStock intOps (some scenarioMarket) (some twoHoldings) AAPL 1).state.portfolio
          = some p' ∧ (p'.head.map fun s => s.ticker.chars).Nodup :=
  ⟨by decide,
    buyStock_keeps_tickers_distinct intOps (some scenarioMarket) twoHoldings AAPL 1
      (by decide)⟩

/-! ## Lookup of a ticker that is too long -/

theorem getStockLoop_long {ticker : List Char} (l : List (Stock α))
    (h : TICKER_LENGTH < ticker.length) : getStockLoop ticker l = none := by
  cases hl : getStockLoop ticker l with
  | none => rfl
  | some stock =>
    have hs := (getStockLoop_some hl).2
    have hfits := stock.ticker.fits
    rw [hs] at hfits
    exact absurd hfits (Nat.not_le_of_lt h)

/-- C20. Lookup does not truncate its query: `getStock` finds nothing for a ticker of
more than `TICKER_LENGTH` characters, in any market, also right after `insertStock`
succeeded with that ticker; the record inserted is the one `getStock` returns for the
first `TICKER_LENGTH` characters of the ticker, and for no other query; and `buyStock`
with a count that passes the check `count <= 0` and such a ticker fails and prints
`Stock not available.` -/
theorem long_ticker_not_found (D : DoubleOps α) (m : Market α) (p : Portfolio α)
    (ticker : List Char) (h : TICKER_LENGTH < ticker.length) (price totalShares count : α) :
    getStock (some m) ticker = none ∧
    ((insertStock D (some m) ticker price totalShares).status = SUCCESS →
      getStock (insertStock D (some m) ticker price totalShares).state ticker = none ∧
      ∃ stock, (insertStock D (some m) ticker price totalShares).state
          = some { head := stock :: m.head } ∧
        stock.price = price ∧ stock.totalShares = totalShares ∧
        ∀ query, getStock (insertStock D (some m) ticker price totalShares).state query
          = some stock ↔ query = ticker.take TICKER_LENGTH) ∧
    (D.le count D.zero = false →
      (buyStock D (some m) (some p) ticker count).status = FAILURE ∧
      (buyStock D (some m) (some p) ticker count).printed = [.stockNotAvailable]) := by
  have hne : FAILURE ≠ SUCCESS := by decide
  have hnone : ∀ l : List (Stock α), getStockLoop ticker l = none :=
    fun l => getStockLoop_long l h
  refine ⟨by simp [getStock, hnone], ?_, ?_⟩
  · intro hs
    by_cases hbad : (D.le price D.zero || D.le totalShares D.zero) = true
    · exact absurd (by simpa [insertStock, createStock, hbad] using hs) hne
    have hstate : (insertStock D (some m) ticker price totalShares).state
        = some { head := { price := price, totalShares := totalShares,
                           ticker := copyTicker ticker } :: m.head } := by
      simp [insertStock, createStock, hbad]
    rw [hstate]
    refine ⟨by simp only [getStock, hnone],
      { price := price, totalShares := totalShares, ticker := copyTicker ticker },
      rfl, rfl, rfl, ?_⟩
    intro query
    constructor
    · intro hq
      have hs2 := (getStockLoop_some (by simpa only [getStock] using hq)).2
      rw [← hs2, copyTicker_chars]
    · intro hq
      have hself : strcmp query (copyTicker ticker).chars = 0 := by
        rw [strcmp_eq_zero_iff, copyTicker_chars, hq]
      simp [getStock, getStockLoop, hself]
  · intro hcount
    simp [buyStock, hcount, getStock, hnone]

theorem long_ticker_not_found_witness :
    getStock (some scenarioMarket) GOOGLE = none ∧
    (getStock (insertStock intOps (some scenarioMarket) GOOGLE 3 10).state GOOGLE = none ∧
      ∃ stock, (insertStock intOps (some scenarioMarket) GOOGLE 3 10).state
          = some { head := stock :: scenarioMarket.head } ∧
        stock.price = 3 ∧ stock.totalShares = 10 ∧
        ∀ query, getStock (insertStock intOps (some scenarioMarket) GOOGLE 3 10).state query
          = some stock ↔ query = GOOGLE.take TICKER_LENGTH) ∧
    ((buyStock intOps (some scenarioMarket) (some scenarioPortfolio) GOOGLE 1).status
        = FAILURE ∧
      (buyStock intOps (some scenarioMarket) (some scenarioPortfolio) GOOGLE 1).printed
        = [.stockNotAvailable]) :=
  ⟨(long_ticker_not_found intOps scenarioMarket scenarioPortfolio GOOGLE (by decide)
      3 10 1).1,
    (long_ticker_not_found intOps scenarioMarket scenarioPortfolio GOOGLE (by decide)
      3 10 1).2.1 (by decide),
    (long_ticker_not_found intOps scenarioMarket scenarioPortfolio GOOGLE (by decide)
      3 10 1).2.2 (by decide)⟩

/-! ## Holdings are never removed -/

theorem getShareLoop_writeCount (f : α → α) (ticker : List Char) (i : Nat)
    (l : List (Share α)) :
    getShareLoop ticker (writeCount f i l)
      = (getShareLoop ticker l).map fun found =>
          (found.1, if found.1 = i then { found.2 with count := f found.2.count }
            else found.2) := by
  induction l generalizing i with
  | nil => simp [writeCount, getShareLoop]
  | cons s rest ih =>
    cases i with
    | zero =>
      by_cases hc : strcmp ticker s.ticker.chars = 0
      · simp [writeCount, getShareLoop, hc]
      · simp [writeCount, getShareLoop, hc, Option.map_map, Function.comp_def]
    | succ i =>
      by_cases hc : strcmp ticker s.ticker.chars = 0
      · simp [writeCount, getShareLoop, hc]
      · simp [writeCount, getShareLoop, hc, ih i, Option.map_map, Function.comp_def]

theorem ieee_sub_self (neg : Bool) (m : Nat) (e : Int) :
    ieeeOps.sub (.fin neg m e) (.fin neg m e) = ieeeOps.zero := by
  cases neg <;> simp [ieeeOps, F64.sub, F64.neg, F64.add, F64.signed, F64.ofNat, F64.round]

theorem trade_length_le (D : DoubleOps α) (market : Option (Market α)) (p : Portfolio α)
    (c : TradeCall α) :
    ∃ p', (c.run D ⟨market, some p⟩).state.portfolio = some p' ∧
      p.head.length ≤ p'.head.length := by
  rcases market with _ | m
  · cases c <;> exact ⟨p, rfl, Nat.le_refl _⟩
  cases c with
  | buy ticker count =>
    rcases buyStock_cases D m p ticker count with ⟨-, h⟩ | ⟨_, -, -, -, -, -, h⟩
    · exact ⟨p, by rw [TradeCall.run, h], Nat.le_refl _⟩
    · rcases h with ⟨-, -, h⟩ | ⟨_, -, h⟩
      · refine ⟨_, by rw [TradeCall.run, h], ?_⟩
        simp
      · refine ⟨_, by rw [TradeCall.run, h], ?_⟩
        simp [writeCount_length]
  | sell ticker count =>
    rcases sellStock_cases D m p ticker count with ⟨-, h⟩ | ⟨_, _, -, -, -, -, -, h⟩
    · exact ⟨p, by rw [TradeCall.run, h], Nat.le_refl _⟩
    · refine ⟨_, by rw [TradeCall.run, h], ?_⟩
      simp [writeCount_length]

/-- C15, as the code has it.  When `getShare` returns a holding of count `c > 0` for the
ticker, `getStock` finds the ticker in the market, and `c - c` is `0` in the arithmetic of
`double` (as it is for every finite `c`), `sellStock` of `c` shares succeeds and `getShare`
still returns a holding for the ticker afterwards, the same node, with count `0`.  And
no call of `buyStock` or of `sellStock` reduces the number of holdings. -/
theorem sell_all_keeps_holding (D : DoubleOps α) (m : Market α) (p : Portfolio α) :
    (OrderLaws D → ∀ (ticker : List Char) (found : Nat × Share α) (stock : Stock α),
      getShare (some p) ticker = some found → D.lt D.zero found.2.count = true →
      getStock (some m) ticker = some stock →
      D.sub found.2.count found.2.count = D.zero →
      (sellStock D (some m) (some p) ticker found.2.count).status = SUCCESS ∧
      ∃ p' share, (sellStock D (some m) (some p) ticker found.2.count).state.portfolio
          = some p' ∧ getShare (some p') ticker = some (found.1, share) ∧
          share.count = D.zero ∧ p'.head.length = p.head.length) ∧
    ∀ (market : Option (Market α)) (c : TradeCall α),
      ∃ p', (c.run D ⟨market, some p⟩).state.portfolio = some p' ∧
        p.head.length ≤ p'.head.length := by
  refine ⟨?_, fun market c => trade_length_le D market p c⟩
  intro hD ticker found stock hshare hpos hstock hsub
  have hcount : D.le found.2.count D.zero = false := by
    cases hle : D.le found.2.count D.zero with
    | false => rfl
    | true => rw [hD.le_not_lt _ _ hle] at hpos; exact absurd hpos (by decide)
  have hirr := hD.lt_irrefl found.2.count
  refine ⟨?_, ?_⟩
  · simp [sellStock, hcount, hshare, hstock, hirr]
  · refine ⟨{ head := writeCount (fun c => D.sub c found.2.count) found.1 p.head,
              balance := D.add p.balance (D.mul stock.price found.2.count) },
      { found.2 with count := D.sub found.2.count found.2.count }, ?_, ?_, hsub,
      writeCount_length _ _ _⟩
    · simp [sellStock, hcount, hshare, hstock, hirr]
    · have hloop : getShareLoop ticker p.head = some found := by simpa [getShare] using hshare
      simp [getShare, getShareLoop_writeCount, hloop]

section Binary64Holdings

set_option maxRecDepth 100000

theorem sell_all_keeps_holding_witness :
    ((sellStock ieeeOps (some unitMarket) (some fiveShares) AAPL (F64.ofNat 5)).status
        = SUCCESS ∧
      ∃ p' share, (sellStock ieeeOps (some unitMarket) (some fiveShares) AAPL
          (F64.ofNat 5)).state.portfolio = some p' ∧
        getShare (some p') AAPL = some (0, share) ∧
        share.count = ieeeOps.zero ∧ p'.head.length = fiveShares.head.length) ∧
    ∀ (market : Option (Market F64)) (c : TradeCall F64),
      ∃ p', (c.run ieeeOps ⟨market, some fiveShares⟩).state.portfolio = some p' ∧
        fiveShares.head.length ≤ p'.head.length :=
  ⟨(sell_all_keeps_holding ieeeOps unitMarket fiveShares).1 ieeeOps_orderLaws AAPL
      (0, { count := F64.ofNat 5, ticker := copyTicker AAPL })
      { price := F64.ofNat 1, totalShares := F64.ofNat 1000, ticker := copyTicker AAPL }
      (by decide) (by decide) (by decide) (ieee_sub_self _ _ _),
    (sell_all_keeps_holding ieeeOps unitMarket fiveShares).2⟩

/-- C15 as stated fails in binary64 for the count `+inf`, which is `> 0`.
`createPortfolio` loads the file `0`, `AAPL inf` as a portfolio with the holding
`AAPL inf`; `sell(AAPL, inf)` succeeds and `share->count -= count` leaves `inf - inf`, a
NaN, not `0`. -/
theorem sell_all_keeps_holding_counterexample :
    createPortfolio ieeeText ieeeOps (some "0\nAAPL inf\n".toList) zeroShareLocals
        = ⟨[], some infiniteShares⟩ ∧
      getShare (some infiniteShares) AAPL
        = some (0, { count := .inf false, ticker := copyTicker AAPL }) ∧
      ieeeOps.lt ieeeOps.zero (.inf false) = true ∧
      (sellStock ieeeOps (some unitMarket) (some infiniteShares) AAPL (.inf false)).status
        = SUCCESS ∧
      ∃ p', (sellStock ieeeOps (some unitMarket) (some infiniteShares) AAPL
            (.inf false)).state.portfolio = some p' ∧
        getShare (some p') AAPL = some (0, { count := .nan, ticker := copyTicker AAPL }) ∧
        ieeeOps.eq .nan ieeeOps.zero = false :=
  ⟨by decide, by decide, by decide, by decide,
    { head := [{ count := .nan, ticker := copyTicker AAPL }], balance := .inf false },
    by decide, by decide, by decide⟩

end Binary64Holdings

/-! ## Signs of the balance and of the counts -/

theorem getStock_mem {m : Market α} {ticker : List Char} {stock : Stock α}
    (h : getStock (some m) ticker = some stock) : stock ∈ m.head :=
  (getStockLoop_some (by simpa [getStock] using h)).1

theorem getShare_mem {p : Portfolio α} {ticker : List Char} {found : Nat × Share α}
    (h : getShare (some p) ticker = some found) :
    p.head[found.1]? = some found.2 ∧ found.2 ∈ p.head := by
  have h1 := (getShareLoop_some (by simpa [getShare] using h)).1
  exact ⟨h1, List.getElem?_mem h1⟩

theorem writeCount_forall (P : α → Prop) (f : α → α) (l : List (Share α)) (i : Nat)
    (node : Share α) (hnode : l[i]? = some node) (hl : ∀ s ∈ l, P s.count)
    (hf : P (f node.count)) : ∀ s ∈ writeCount f i l, P s.count := by
  intro s hs
  rw [writeCount_eq_set f l i node hnode] at hs
  rcases List.mem_or_eq_of_mem_set hs with h | h
  · exact hl s h
  · rw [h]
    exact hf

/-- C11, in binary64.  For every market whose stocks all have a price `> 0` and every
portfolio with a balance `>= 0`, a value of binary64, and holding counts `>= 0`: a call of
`buyStock` or of `sellStock` that fails leaves the portfolio as it was.  After a
successful call whose count is not a NaN and whose update is not `inf - inf` (a buy that
costs `+inf` on a balance of `+inf`, a sale of `+inf` shares from a holding of `+inf`), the
balance is still `>= 0` and every holding count is still `>= 0`; a successful buy does not
increase the balance and a successful sell does not decrease it; the change is strict
exactly when the new balance is not equal to the old one, and it is so when
`price * count` is not rounded to zero and the update of the balance is exact. -/
theorem trade_keeps_nonnegative (m : Market F64) (p : Portfolio F64)
    (hm : ∀ stock ∈ m.head, ieeeOps.lt ieeeOps.zero stock.price = true)
    (hb : ieeeOps.le ieeeOps.zero p.balance = true)
    (hc : ∀ share ∈ p.head, ieeeOps.le ieeeOps.zero share.count = true)
    (hn : p.balance.normalised = true) (ticker : List Char) (count : F64) :
    (∃ p', (buyStock ieeeOps (some m) (some p) ticker count).state.portfolio = some p' ∧
      ((buyStock ieeeOps (some m) (some p) ticker count).status ≠ SUCCESS → p' = p) ∧
      ((buyStock ieeeOps (some m) (some p) ticker count).status = SUCCESS →
        count ≠ .nan →
        (∀ stock, getStock (some m) ticker = some stock → p.balance = .inf false →
          ieeeOps.mul stock.price count ≠ .inf false) →
        ieeeOps.le ieeeOps.zero p'.balance = true ∧
        (∀ share ∈ p'.head, ieeeOps.le ieeeOps.zero share.count = true) ∧
        ieeeOps.le p'.balance p.balance = true ∧
        (ieeeOps.lt p'.balance p.balance = true ↔ ieeeOps.eq p'.balance p.balance = false) ∧
        ∀ stock, getStock (some m) ticker = some stock →
          ieeeOps.lt ieeeOps.zero (ieeeOps.mul stock.price count) = true →
          ExactSub ieeeOps F64.toRat p.balance (ieeeOps.mul stock.price count) →
          ieeeOps.lt p'.balance p.balance = true)) ∧
    (∃ p', (sellStock ieeeOps (some m) (some p) ticker count).state.portfolio = some p' ∧
      ((sellStock ieeeOps (some m) (some p) ticker count).status ≠ SUCCESS → p' = p) ∧
      ((sellStock ieeeOps (some m) (some p) ticker count).status = SUCCESS →
        count ≠ .nan →
        (∀ found, getShare (some p) ticker = some found → found.2.count = .inf false →
          count ≠ .inf false) →
        ieeeOps.le ieeeOps.zero p'.balance = true ∧
        (∀ share ∈ p'.head, ieeeOps.le ieeeOps.zero share.count = true) ∧
        ieeeOps.le p.balance p'.balance = true ∧
        (ieeeOps.lt p.balance p'.balance = true ↔ ieeeOps.eq p.balance p'.balance = false) ∧
        ∀ stock, getStock (some m) ticker = some stock →
          ieeeOps.lt ieeeOps.zero (ieeeOps.mul stock.price count) = true →
          ExactAdd ieeeOps F64.toRat p.balance (ieeeOps.mul stock.price count) →
          ieeeOps.lt p.balance p'.balance = true)) := by
  have hne : FAILURE ≠ SUCCESS := by decide
  constructor
  · rcases buyStock_cases ieeeOps m p ticker count with
      ⟨hs, h⟩ | ⟨stock, hstock, hcount, -, hfunds, hsucc, h⟩
    · exact ⟨p, by rw [h], fun _ => rfl, fun h2 => absurd (hs.symm.trans h2) hne⟩
    · have hfacts : count ≠ .nan →
          (∀ stock, getStock (some m) ticker = some stock → p.balance = .inf false →
            ieeeOps.mul stock.price count ≠ .inf false) →
          ieeeOps.le ieeeOps.zero count = true ∧
          ieeeOps.le ieeeOps.zero (ieeeOps.sub p.balance (ieeeOps.mul stock.price count))
            = true ∧
          ieeeOps.le (ieeeOps.sub p.balance (ieeeOps.mul stock.price count)) p.balance
            = true := by
        intro hnan hinf
        have hcnt : F64.lt (F64.ofNat 0) count = true := F64.pos_of_not_le hnan hcount
        have hpc : F64.le (F64.ofNat 0) (F64.mul stock.price count) = true :=
          F64.mul_nonneg_of_pos (hm stock (getStock_mem hstock)) hcnt
        exact ⟨ieeeOps_orderLaws.lt_le _ _ hcnt,
          F64.sub_nonneg_of_nonneg hb hpc (hinf stock hstock) hfunds,
          F64.sub_le_of_nonneg hn hb hpc (hinf stock hstock)⟩
      have hstrict : ∀ stock1, getStock (some m) ticker = some stock1 →
          ieeeOps.lt ieeeOps.zero (ieeeOps.mul stock1.price count) = true →
          ExactSub ieeeOps F64.toRat p.balance (ieeeOps.mul stock1.price count) →
          ieeeOps.lt (ieeeOps.sub p.balance (ieeeOps.mul stock.price count)) p.balance
            = true := by
        intro stock1 h1 hpos hex
        rw [hstock] at h1
        cases h1
        exact F64.sub_lt_of_exact hex hpos
      rcases h with ⟨-, -, h⟩ | ⟨found, hshare, h⟩
      · refine ⟨_, by rw [h], fun h2 => absurd hsucc h2, ?_⟩
        intro _ hnan hinf
        obtain ⟨h1, h2, h3⟩ := hfacts hnan hinf
        refine ⟨h2, ?_, h3, F64.lt_iff_not_eq h3, hstrict⟩
        intro share hs
        rcases List.mem_cons.1 hs with h4 | h4
        · rw [h4]
          exact h1
        · exact hc share h4
      · obtain ⟨hget, hmem⟩ := getShare_mem hshare
        refine ⟨_, by rw [h], fun h2 => absurd hsucc h2, ?_⟩
        intro _ hnan hinf
        obtain ⟨h1, h2, h3⟩ := hfacts hnan hinf
        refine ⟨h2, ?_, h3, F64.lt_iff_not_eq h3, hstrict⟩
        exact writeCount_forall (fun c => ieeeOps.le ieeeOps.zero c = true) _ _ _ _ hget hc
          (F64.add_nonneg_of_nonneg (hc _ hmem) h1)
  · rcases sellStock_cases ieeeOps m p ticker count with
      ⟨hs, h⟩ | ⟨stock, found, hstock, hshare, hcount, hshares, hsucc, h⟩
    · exact ⟨p, by rw [h], fun _ => rfl, fun h2 => absurd (hs.symm.trans h2) hne⟩
    · obtain ⟨hget, hmem⟩ := getShare_mem hshare
      refine ⟨_, by rw [h], fun h2 => absurd hsucc h2, ?_⟩
      intro _ hnan hinf
      have hcnt : F64.lt (F64.ofNat 0) count = true := F64.pos_of_not_le hnan hcount
      have hpc : F64.le (F64.ofNat 0) (F64.mul stock.price count) = true :=
        F64.mul_nonneg_of_pos (hm stock (getStock_mem hstock)) hcnt
      have hle : F64.le p.balance (F64.add p.balance (F64.mul stock.price count)) = true :=
        F64.le_add_self hn hb hpc
      refine ⟨F64.add_nonneg_of_nonneg hb hpc, ?_, hle, F64.lt_iff_not_eq hle, ?_⟩
      · exact writeCount_forall (fun c => ieeeOps.le ieeeOps.zero c = true) _ _ _ _ hget hc
          (F64.sub_nonneg_of_nonneg (hc _ hmem) (ieeeOps_orderLaws.lt_le _ _ hcnt)
            (hinf found hshare) hshares)
      · intro stock1 h1 hpos hex
        rw [hstock] at h1
        cases h1
        exact F64.lt_add_of_exact hex hpos

section Binary64Signs

set_option maxRecDepth 100000

theorem trade_keeps_nonnegative_witness :
    ((buyStock ieeeOps (some twoStocks) (some soldOut) AAPL (F64.ofNat 1)).status = SUCCESS ∧
      ∃ p', (buyStock ieeeOps (some twoStocks) (some soldOut) AAPL
            (F64.ofNat 1)).state.portfolio = some p' ∧
        ieeeOps.le ieeeOps.zero p'.balance = true ∧
        (∀ share ∈ p'.head, ieeeOps.le ieeeOps.zero share.count = true) ∧
        ieeeOps.le p'.balance soldOut.balance = true ∧
        ieeeOps.lt p'.balance soldOut.balance = true) ∧
    ((sellStock ieeeOps (some twoStocks) (some soldOut) AAPL (F64.ofNat 1)).status = SUCCESS ∧
      ∃ p', (sellStock ieeeOps (some twoStocks) (some soldOut) AAPL
            (F64.ofNat 1)).state.portfolio = some p' ∧
        ieeeOps.le ieeeOps.zero p'.balance = true ∧
        (∀ share ∈ p'.head, ieeeOps.le ieeeOps.zero share.count = true) ∧
        ieeeOps.le soldOut.balance p'.balance = true ∧
        ieeeOps.lt soldOut.balance p'.balance = true) ∧
    (sellStock ieeeOps (some twoStocks) (some soldOut) ZZZZ (F64.ofNat 1)).status ≠ SUCCESS ∧
    ∃ p', (sellStock ieeeOps (some twoStocks) (some soldOut) ZZZZ
          (F64.ofNat 1)).state.portfolio = some p' ∧ p' = soldOut :=
  have h := trade_keeps_nonnegative twoStocks soldOut (by decide) (by decide) (by decide)
    (by decide) AAPL (F64.ofNat 1)
  have hz := trade_keeps_nonnegative twoStocks soldOut (by decide) (by decide) (by decide)
    (by decide) ZZZZ (F64.ofNat 1)
  ⟨⟨by decide, h.1.elim fun p' hp =>
      have hs := hp.2.2 (by decide) (by decide) (fun _ _ hb => absurd hb (by decide))
      ⟨p', hp.1, hs.1, hs.2.1, hs.2.2.1,
        hs.2.2.2.2 appleStock (by decide) (by decide) (exactSub_of_isSum _ _ (by decide))⟩⟩,
    ⟨by decide, h.2.elim fun p' hp =>
      have hs := hp.2.2 (by decide) (by decide) (fun _ _ _ => by decide)
      ⟨p', hp.1, hs.1, hs.2.1, hs.2.2.1,
        hs.2.2.2.2 appleStock (by decide) (by decide) (exactAdd_of_isSum _ _ (by decide))⟩⟩,
    by decide, hz.2.elim fun p' hp => ⟨p', hp.1, hp.2.1 (by decide)⟩⟩

/-- C11 as stated fails in binary64.  With the market `AAPL 1 1000` and the balance `2^54`,
`buy(AAPL, 1)` succeeds and leaves the balance at `2^54`: it is not strictly decreased.
And `buy(AAPL, NaN)` passes every check, all comparisons with a NaN being false, and
leaves a NaN as the balance and as the count of the new holding: they are not `>= 0`.
With the market `AAPL 1 inf` and the balance `+inf`, `buy(AAPL, +inf)` succeeds and leaves
the balance `inf - inf`, a NaN.  With a holding of `+inf` shares, `sell(AAPL, +inf)`
succeeds and leaves the count `inf - inf`, a NaN. -/
theorem trade_keeps_nonnegative_counterexample :
    ((∀ stock ∈ unitMarket.head, ieeeOps.lt ieeeOps.zero stock.price = true) ∧
      ieeeOps.le ieeeOps.zero largePortfolio.balance = true ∧
      ∀ share ∈ largePortfolio.head, ieeeOps.le ieeeOps.zero share.count = true) ∧
    ((buyStock ieeeOps (some unitMarket) (some largePortfolio) AAPL (F64.ofNat 1)).status
        = SUCCESS ∧
      ∃ p', (buyStock ieeeOps (some unitMarket) (some largePortfolio) AAPL
            (F64.ofNat 1)).state.portfolio = some p' ∧
        ieeeOps.lt p'.balance largePortfolio.balance = false) ∧
    ((buyStock ieeeOps (some unitMarket) (some largePortfolio) AAPL .nan).status = SUCCESS ∧
      (buyStock ieeeOps (some unitMarket) (some largePortfolio) AAPL .nan).state.portfolio
        = some { head := [{ count := .nan, ticker := copyTicker AAPL }], balance := .nan } ∧
      ieeeOps.le ieeeOps.zero .nan = false) ∧
    (((∀ stock ∈ boundlessMarket.head, ieeeOps.lt ieeeOps.zero stock.price = true) ∧
        ieeeOps.le ieeeOps.zero boundlessPortfolio.balance = true) ∧
      (buyStock ieeeOps (some boundlessMarket) (some boundlessPortfolio) AAPL
          (.inf false)).status = SUCCESS ∧
      (buyStock ieeeOps (some boundlessMarket) (some boundlessPortfolio) AAPL
          (.inf false)).state.portfolio
        = some { head := [{ count := .inf false, ticker := copyTicker AAPL }],
                 balance := .nan }) ∧
    ((ieeeOps.le ieeeOps.zero infiniteShares.balance = true ∧
        ∀ share ∈ infiniteShares.head, ieeeOps.le ieeeOps.zero share.count = true) ∧
      (sellStock ieeeOps (some unitMarket) (some infiniteShares) AAPL (.inf false)).status
        = SUCCESS ∧
      (sellStock ieeeOps (some unitMarket) (some infiniteShares) AAPL
          (.inf false)).state.portfolio
        = some { head := [{ count := .nan, ticker := copyTicker AAPL }],
                 balance := .inf false }) :=
  ⟨⟨by decide, by decide, by decide⟩,
    ⟨by decide,
      { head := [{ count := F64.ofNat 1, ticker := copyTicker AAPL }],
        balance := F64.ofNat 18014398509481984 },
      by decide, by decide⟩,
    ⟨by decide, by decide, by decide⟩,
    ⟨⟨by decide, by decide⟩, by decide, by decide⟩,
    ⟨⟨by decide, by decide⟩, by decide, by decide⟩⟩

end Binary64Signs

/-! ## A buy followed by the opposite sell -/

/-- C19, in binary64.  For every market and every portfolio of values of binary64 whose
holding counts are all `>= 0`, and every count that is a value of binary64: if
`buyStock(ticker, count)` succeeds, then `sellStock(ticker, count)` on the portfolio it
leaves succeeds too; afterwards no holding has been removed and `getShare` still returns a
holding for the ticker; the balance is `(balance - price * count) + price * count` and the
count of the holding is `(c + count) - count`, or `count - count` if the buy created the
holding, in the arithmetic of `double`.  The balance is again the one before the buy when
the subtraction was exact, the count of a holding that existed is again the one before the
buy when the addition was exact, and the count of a holding that the buy created is `0`
when `count` is finite. -/
theorem buy_then_sell_restores (m : Market F64) (p : Portfolio F64)
    (hc : ∀ share ∈ p.head, ieeeOps.le ieeeOps.zero share.count = true)
    (hn : p.balance.normalised = true ∧ ∀ share ∈ p.head, share.count.normalised = true)
    (ticker : List Char) (count : F64) (hcn : count.normalised = true)
    (hbuy : (buyStock ieeeOps (some m) (some p) ticker count).status = SUCCESS) :
    ∃ p1 stock, (buyStock ieeeOps (some m) (some p) ticker count).state
        = ⟨some m, some p1⟩ ∧
      getStock (some m) ticker = some stock ∧
      (sellStock ieeeOps (some m) (some p1) ticker count).status = SUCCESS ∧
      ∃ p2 found2,
        (sellStock ieeeOps (some m) (some p1) ticker count).state.portfolio = some p2 ∧
        p2.head.length = p1.head.length ∧
        getShare (some p2) ticker = some found2 ∧
        p2.balance = ieeeOps.add (ieeeOps.sub p.balance (ieeeOps.mul stock.price count))
          (ieeeOps.mul stock.price count) ∧
        (ExactSub ieeeOps F64.toRat p.balance (ieeeOps.mul stock.price count) →
          ieeeOps.eq p2.balance p.balance = true) ∧
        (getShare (some p) ticker = none →
          found2.2.count = ieeeOps.sub count count ∧
          (count.isfinite = true → found2.2.count = ieeeOps.zero)) ∧
        (∀ found, getShare (some p) ticker = some found →
          found2.1 = found.1 ∧
          found2.2.count = ieeeOps.sub (ieeeOps.add found.2.count count) count ∧
          (ExactAdd ieeeOps F64.toRat found.2.count count →
            ieeeOps.eq found2.2.count found.2.count = true)) := by
  have hne : FAILURE ≠ SUCCESS := by decide
  have hirr : ∀ a : F64, ieeeOps.lt a a = false := ieeeOps_orderLaws.lt_irrefl
  rcases buyStock_cases ieeeOps m p ticker count with
    ⟨hs, -⟩ | ⟨stock, hstock, hcount, -, -, -, h⟩
  · exact absurd (hs.symm.trans hbuy) hne
  have hlen := getStock_some_length hstock
  have hchars := copyTicker_chars_of_le ticker hlen
  have hself : strcmp ticker ticker = 0 := (strcmp_eq_zero_iff _ _).2 rfl
  have hrestore : ExactSub ieeeOps F64.toRat p.balance (ieeeOps.mul stock.price count) →
      ieeeOps.eq (ieeeOps.add (ieeeOps.sub p.balance (ieeeOps.mul stock.price count))
        (ieeeOps.mul stock.price count)) p.balance = true :=
    fun hex => F64.add_sub_cancel_of_exact hex hn.1
  rcases h with ⟨hshare, -, h⟩ | ⟨found, hshare, h⟩
  · refine ⟨_, stock, h, hstock, ?_, ?_⟩
    · simp [sellStock, hcount, hstock, getShare, getShareLoop, hchars, hself, hirr]
    · refine ⟨{ head := { count := ieeeOps.sub count count, ticker := copyTicker ticker }
                  :: p.head,
                balance := ieeeOps.add (ieeeOps.sub p.balance (ieeeOps.mul stock.price count))
                  (ieeeOps.mul stock.price count) },
        (0, { count := ieeeOps.sub count count, ticker := copyTicker ticker }), ?_, rfl, ?_,
        rfl, hrestore, ?_, ?_⟩
      · simp [sellStock, hcount, hstock, getShare, getShareLoop, hchars, hself, hirr,
          writeCount]
      · simp [getShare, getShareLoop, hchars, hself]
      · intro _
        refine ⟨rfl, ?_⟩
        intro hfin
        cases count with
        | nan => simp [F64.isfinite] at hfin
        | inf s => simp [F64.isfinite] at hfin
        | fin s k e => exact ieee_sub_self s k e
      · intro found hf
        rw [hshare] at hf
        exact absurd hf (by simp)
  · obtain ⟨hget, hmem⟩ := getShare_mem hshare
    have hloop : getShareLoop ticker p.head = some found := by simpa [getShare] using hshare
    have hshares : ieeeOps.lt (ieeeOps.add found.2.count count) count = false :=
      F64.add_not_lt hcn (hc _ hmem)
    have hshare1 : getShare (some
          ({ head := writeCount (fun c => ieeeOps.add c count) found.1 p.head,
             balance := ieeeOps.sub p.balance (ieeeOps.mul stock.price count) } :
              Portfolio F64)) ticker
        = some (found.1, { found.2 with count := ieeeOps.add found.2.count count }) := by
      simp [getShare, getShareLoop_writeCount, hloop]
    refine ⟨_, stock, h, hstock, ?_, ?_⟩
    · simp [sellStock, hcount, hstock, hshare1, hshares]
    · refine ⟨{ head := writeCount (fun c => ieeeOps.sub c count) found.1
                  (writeCount (fun c => ieeeOps.add c count) found.1 p.head),
                balance := ieeeOps.add (ieeeOps.sub p.balance (ieeeOps.mul stock.price count))
                  (ieeeOps.mul stock.price count) },
        (found.1, { found.2 with
          count := ieeeOps.sub (ieeeOps.add found.2.count count) count }),
        ?_, ?_, ?_, rfl, hrestore, ?_, ?_⟩
      · simp [sellStock, hcount, hstock, hshare1, hshares]
      · simp [writeCount_length]
      · simp [getShare, getShareLoop_writeCount, hloop]
      · intro hnone
        rw [hshare] at hnone
        exact absurd hnone (by simp)
      · intro found1 hf
        rw [hshare] at hf
        cases hf
        exact ⟨rfl, rfl, fun hex => F64.sub_add_cancel_of_exact hex (hn.2 _ hmem)⟩

section Binary64Inverse

set_option maxRecDepth 100000

theorem buy_then_sell_restores_witness :
    (∃ p1 stock, (buyStock ieeeOps (some twoStocks) (some soldOut) AAPL (F64.ofNat 1)).state
        = ⟨some twoStocks, some p1⟩ ∧
      getStock (some twoStocks) AAPL = some stock ∧
      (sellStock ieeeOps (some twoStocks) (some p1) AAPL (F64.ofNat 1)).status = SUCCESS ∧
      ∃ p2 found2, (sellStock ieeeOps (some twoStocks) (some p1) AAPL
            (F64.ofNat 1)).state.portfolio = some p2 ∧
        p2.head.length = p1.head.length ∧
        getShare (some p2) AAPL = some found2 ∧
        ieeeOps.eq p2.balance soldOut.balance = true ∧
        ∀ found, getShare (some soldOut) AAPL = some found →
          found2.1 = found.1 ∧ ieeeOps.eq found2.2.count found.2.count = true) ∧
    (∃ p1 stock, (buyStock ieeeOps (some twoStocks) (some cashPortfolio) AAPL
          (F64.ofNat 5)).state = ⟨some twoStocks, some p1⟩ ∧
      getStock (some twoStocks) AAPL = some stock ∧
      (sellStock ieeeOps (some twoStocks) (some p1) AAPL (F64.ofNat 5)).status = SUCCESS ∧
      ∃ p2 found2, (sellStock ieeeOps (some twoStocks) (some p1) AAPL
            (F64.ofNat 5)).state.portfolio = some p2 ∧
        p2.head.length = p1.head.length ∧
        getShare (some p2) AAPL = some found2 ∧
        ieeeOps.eq p2.balance cashPortfolio.balance = true ∧
        getShare (some cashPortfolio) AAPL = none ∧ found2.2.count = ieeeOps.zero) :=
  ⟨(buy_then_sell_restores twoStocks soldOut (by decide) (by decide) AAPL (F64.ofNat 1)
      (by decide) (by decide)).elim fun p1 h1 => h1.elim fun stock h =>
    have hstock : stock = appleStock :=
      Option.some.inj (h.2.1.symm.trans (by decide))
    ⟨p1, stock, h.1, h.2.1, h.2.2.1, h.2.2.2.elim fun p2 h2 => h2.elim fun found2 h3 =>
      ⟨p2, found2, h3.1, h3.2.1, h3.2.2.1,
        h3.2.2.2.2.1 (hstock ▸ exactSub_of_isSum _ _ (by decide)),
        fun found hf =>
          have hfound : found = (0, { count := F64.ofNat 5, ticker := copyTicker AAPL }) :=
            Option.some.inj (hf.symm.trans (by decide))
          ⟨(h3.2.2.2.2.2.2 found hf).1,
            (h3.2.2.2.2.2.2 found hf).2.2 (hfound ▸ exactAdd_of_isSum _ _ (by decide))⟩⟩⟩,
    (buy_then_sell_restores twoStocks cashPortfolio (by decide) (by decide) AAPL (F64.ofNat 5)
      (by decide) (by decide)).elim fun p1 h1 => h1.elim fun stock h =>
    have hstock : stock = appleStock :=
      Option.some.inj (h.2.1.symm.trans (by decide))
    ⟨p1, stock, h.1, h.2.1, h.2.2.1, h.2.2.2.elim fun p2 h2 => h2.elim fun found2 h3 =>
      ⟨p2, found2, h3.1, h3.2.1, h3.2.2.1,
        h3.2.2.2.2.1 (hstock ▸ exactSub_of_isSum _ _ (by decide)),
        by decide, (h3.2.2.2.2.2.1 (by decide)).2 (by decide)⟩⟩⟩

/-- C19 as stated fails in binary64.  With the market `AAPL 1 1000`, no holdings and the
balance `2^53 + 2`, `buy(AAPL, 1)` succeeds and rounds the balance to `2^53`; then
`sell(AAPL, 1)` succeeds and rounds `2^53 + 1` to `2^53`: the balance is not the one
before the buy.  With a holding of `2^53` shares, `buy(AAPL, 1)` rounds the count
`2^53 + 1` to `2^53` and `sell(AAPL, 1)` leaves `2^53 - 1`: the count is not the one before
the buy.  With the market `AAPL 1 inf` and the balance `+inf`, `buy(AAPL, +inf)` creates a
holding of `+inf` shares and `sell(AAPL, +inf)` leaves the count `inf - inf`, a NaN, not
`0`. -/
theorem buy_then_sell_restores_counterexample :
    buyStock ieeeOps (some unitMarket) (some evenPortfolio) AAPL (F64.ofNat 1)
        = ⟨SUCCESS, [.bought], ⟨some unitMarket, some
            { head := [{ count := F64.ofNat 1, ticker := copyTicker AAPL }],
              balance := F64.ofNat 9007199254740992 }⟩⟩ ∧
      sellStock ieeeOps (some unitMarket) (some
            { head := [{ count := F64.ofNat 1, ticker := copyTicker AAPL }],
              balance := F64.ofNat 9007199254740992 }) AAPL (F64.ofNat 1)
        = ⟨SUCCESS, [.sold], ⟨some unitMarket, some
            { head := [{ count := F64.ofNat 0, ticker := copyTicker AAPL }],
              balance := F64.ofNat 9007199254740992 }⟩⟩ ∧
      ieeeOps.eq (F64.ofNat 9007199254740992) evenPortfolio.balance = false ∧
      buyStock ieeeOps (some unitMarket) (some fullHolding) AAPL (F64.ofNat 1)
        = ⟨SUCCESS, [.bought], ⟨some unitMarket, some
            { head := [{ count := F64.ofNat 9007199254740992, ticker := copyTicker AAPL }],
              balance := F64.ofNat 9 }⟩⟩ ∧
      sellStock ieeeOps (some unitMarket) (some
            { head := [{ count := F64.ofNat 9007199254740992, ticker := copyTicker AAPL }],
              balance := F64.ofNat 9 }) AAPL (F64.ofNat 1)
        = ⟨SUCCESS, [.sold], ⟨some unitMarket, some
            { head := [{ count := F64.ofNat 9007199254740991, ticker := copyTicker AAPL }],
              balance := F64.ofNat 10 }⟩⟩ ∧
      ieeeOps.eq (F64.ofNat 9007199254740991) (F64.ofNat 9007199254740992) = false ∧
      (buyStock ieeeOps (some boundlessMarket) (some boundlessPortfolio) AAPL
          (.inf false)).state
        = ⟨some boundlessMarket, some
            { head := [{ count := .inf false, ticker := copyTicker AAPL }],
              balance := .nan }⟩ ∧
      (sellStock ieeeOps (some boundlessMarket) (some
            { head := [{ count := .inf false, ticker := copyTicker AAPL }],
              balance := .nan }) AAPL (.inf false)).state
        = ⟨some boundlessMarket, some
            { head := [{ count := .nan, ticker := copyTicker AAPL }], balance := .nan }⟩ :=
  ⟨by decide, by decide, by decide, by decide, by decide, by decide, by decide, by decide⟩

end Binary64Inverse

/-! ## Reading text -/

theorem skipSpace_length_le (l : List Char) : (skipSpace l).length ≤ l.length := by
  induction l with
  | nil => simp [skipSpace]
  | cons c cs ih =>
    by_cases hc : isspace c = true
    · simp only [skipSpace, hc, if_true, List.length_cons]
      omega
    · simp [skipSpace, hc]

theorem skipSpace_of_not_space {c : Char} (cs : List Char) (hc : isspace c = false) :
    skipSpace (c :: cs) = c :: cs := by
  simp [skipSpace, hc]

theorem skipSpace_head {l : List Char} {c : Char} {cs : List Char}
    (h : skipSpace l = c :: cs) : isspace c = false := by
  induction l with
  | nil => simp [skipSpace] at h
  | cons d ds ih =>
    by_cases hd : isspace d = true
    · simp only [skipSpace, hd, if_true] at h
      exact ih h
    · simp only [skipSpace, hd] at h
      simp only [Bool.false_eq_true, if_false, List.cons.injEq] at h
      rw [← h.1]
      simpa using hd

theorem scanString_length_le (n : Nat) (l : List Char) :
    (scanString n l).2.length ≤ l.length := by
  induction n generalizing l with
  | zero => simp [scanString]
  | succ n ih =>
    cases l with
    | nil => simp [scanString]
    | cons c cs =>
      by_cases hc : isspace c = true
      · simp [scanString, hc]
      · have := ih cs
        simp only [scanString, hc, Bool.false_eq_true, if_false, List.length_cons]
        omega

theorem scanString_length_lt (n : Nat) {c : Char} (cs : List Char) (hc : isspace c = false) :
    (scanString (n + 1) (c :: cs)).2.length < (c :: cs).length := by
  have := scanString_length_le n cs
  simp only [scanString, hc, Bool.false_eq_true, if_false, List.length_cons]
  omega

theorem fscanfStock_length_lt (T : DoubleText α) (input : List Char) (v : StockLocals α)
    (h : (fscanfStock T input v).1 ≠ EOF) :
    (fscanfStock T input v).2.2.length < input.length := by
  have h0 := skipSpace_length_le input
  unfold fscanfStock at h ⊢
  split at h
  · exact absurd rfl h
  · rename_i c cs hskip
    clear h
    have hc := skipSpace_head hskip
    have h1 : (scanString TICKER_LENGTH (c :: cs)).2.length < (c :: cs).length :=
      scanString_length_lt 3 cs hc
    rw [hskip] at h0
    have h2 := skipSpace_length_le (scanString TICKER_LENGTH (c :: cs)).2
    have hlt : ∀ l : List Char,
        l.length ≤ (skipSpace (scanString TICKER_LENGTH (c :: cs)).2).length →
        l.length < input.length := fun l hl => by omega
    dsimp only
    split
    · exact hlt [] (Nat.zero_le _)
    · rename_i c1 cs1 hskip1
      rw [hskip1] at hlt
      split
      · rename_i n hscan
        exact hlt _ (by rw [List.length_drop]; omega)
      · rename_i price n hscan
        have h3 : (List.drop n (c1 :: cs1)).length ≤ (c1 :: cs1).length := by
          rw [List.length_drop]
          omega
        have h4 := skipSpace_length_le (List.drop n (c1 :: cs1))
        split
        · exact hlt [] (Nat.zero_le _)
        · rename_i c2 cs2 hskip2
          rw [hskip2] at h4
          split
          · rename_i k hscan2
            have h5 : (List.drop k (c2 :: cs2)).length ≤ (c2 :: cs2).length := by
              rw [List.length_drop]
              omega
            exact hlt _ (by dsimp only; omega)
          · rename_i ts k hscan2
            have h5 : (List.drop k (c2 :: cs2)).length ≤ (c2 :: cs2).length := by
              rw [List.length_drop]
              omega
            have h6 := skipSpace_length_le (List.drop k (c2 :: cs2))
            exact hlt _ (by dsimp only; omega)

theorem createMarketLoop_fuel (T : DoubleText α) (D : DoubleOps α) (fuel : Nat) :
    ∀ (input : List Char) (v : StockLocals α) (market : Option (Market α)),
      input.length ≤ fuel →
      createMarketLoop T D fuel input v market
        = createMarketLoop T D input.length input v market := by
  induction fuel using Nat.strong_induction_on with
  | _ fuel ih =>
    intro input v market hle
    rcases Nat.eq_or_lt_of_le hle with heq | hlt
    · rw [heq]
    · cases fuel with
      | zero => exact absurd hlt (Nat.not_lt_zero _)
      | succ fuel =>
        by_cases hr : (fscanfStock T input v).1 = EOF
        · cases hlen : input.length with
          | zero => simp [createMarketLoop, hr]
          | succ n => simp [createMarketLoop, hr]
        · have hdec := fscanfStock_length_lt T input v hr
          cases hlen : input.length with
          | zero => rw [hlen] at hdec; exact absurd hdec (Nat.not_lt_zero _)
          | succ n =>
            rw [hlen] at hdec hlt
            simp only [createMarketLoop, hr, if_false]
            split
            · rfl
            · rw [ih fuel (Nat.lt_succ_self _) _ _ _ (by omega),
                ih n (by omega) _ _ _ (by omega)]

theorem scanString_ticker (n : Nat) (chars rest : List Char)
    (hchars : ∀ c ∈ chars, isspace c = false) (hlen : chars.length ≤ n) :
    scanString n (chars ++ ' ' :: rest) = (chars, ' ' :: rest) := by
  induction chars generalizing n with
  | nil =>
    cases n with
    | zero => rfl
    | succ n =>
      have hsp : isspace ' ' = true := by decide
      simp [scanString, hsp]
  | cons c cs ih =>
    cases n with
    | zero => simp at hlen
    | succ n =>
      have hc : isspace c = false := hchars c (List.mem_cons_self _ _)
      have hrec := ih n (fun d hd => hchars d (List.mem_cons_of_mem _ hd))
        (by simpa using hlen)
      simp [scanString, hc, hrec]

theorem copyTicker_self (t : Ticker) : copyTicker t.chars = t := by
  have h := copyTicker_chars_of_le t.chars t.fits
  cases t with
  | mk chars fits =>
    cases hc : copyTicker chars with
    | mk chars2 fits2 =>
      have : chars2 = chars := by
        have h2 : (copyTicker chars).chars = chars := h
        rw [hc] at h2
        exact h2
      subst this
      rfl

theorem ReadsBack.scan_blank {T : DoubleText α} {x : α} (h : ReadsBack T x)
    (rest : List Char) :
    skipSpace (' ' :: (T.print x ++ ' ' :: rest)) = T.print x ++ ' ' :: rest ∧
    skipSpace (' ' :: (T.print x ++ '\n' :: rest)) = T.print x ++ '\n' :: rest ∧
    (T.print x ++ ' ' :: rest).drop (T.print x).length = ' ' :: rest ∧
    (T.print x ++ '\n' :: rest).drop (T.print x).length = '\n' :: rest := by
  obtain ⟨⟨c, cs, hp, hc⟩, -⟩ := h
  have hsp : isspace ' ' = true := by decide
  refine ⟨?_, ?_, List.drop_left _ _, List.drop_left _ _⟩
  · rw [hp]
    simp [skipSpace, hsp, hc]
  · rw [hp]
    simp [skipSpace, hsp, hc]

theorem fscanfStock_line (T : DoubleText α) (s : Stock α) (hs : s.Portable T)
    (rest : List Char) (hrest : skipSpace rest = rest) (v : StockLocals α) :
    fscanfStock T (s.ticker.chars ++ ' ' :: (T.print s.price ++
        ' ' :: (T.print s.totalShares ++ '\n' :: rest))) v
      = (3, { ticker := s.ticker.chars, price := s.price, totalShares := s.totalShares },
          rest) := by
  obtain ⟨⟨hne, hchars⟩, hp, ht⟩ := hs
  have hnl : isspace '\n' = true := by decide
  obtain ⟨hp1, -, hp3, -⟩ := hp.scan_blank (T.print s.totalShares ++ '\n' :: rest)
  obtain ⟨-, -, -, ht4⟩ := ht.scan_blank rest
  have hpscan := (hp.2 (T.print s.totalShares ++ '\n' :: rest)).1
  have htscan := (ht.2 rest).2
  have hword := scanString_ticker TICKER_LENGTH s.ticker.chars
    (T.print s.price ++ ' ' :: (T.print s.totalShares ++ '\n' :: rest)) hchars s.ticker.fits
  obtain ⟨⟨c1, cs1, hpe, hc1⟩, -⟩ := hp
  obtain ⟨⟨c2, cs2, hte, hc2⟩, -⟩ := ht
  have hsp : isspace ' ' = true := by decide
  have hskip2 : skipSpace (' ' :: (T.print s.totalShares ++ '\n' :: rest))
      = T.print s.totalShares ++ '\n' :: rest := by
    rw [hte]
    simp [skipSpace, hsp, hc2]
  have hskip3 : skipSpace ('\n' :: rest) = rest := by
    simp [skipSpace, hnl, hrest]
  cases hch : s.ticker.chars with
  | nil => exact absurd hch hne
  | cons c cs =>
    have hc : isspace c = false := hchars c (by rw [hch]; exact List.mem_cons_self _ _)
    rw [hch] at hword
    simp only [List.cons_append] at hword ⊢
    unfold fscanfStock
    rw [skipSpace_of_not_space _ hc]
    simp only [hword, hp1]
    rw [hpe] at hpscan hp3 ⊢
    simp only [List.cons_append] at hpscan hp3 ⊢
    simp only [hpscan, hp3, hskip2]
    rw [hte] at htscan ht4 ⊢
    simp only [List.cons_append] at htscan ht4 ⊢
    simp only [htscan, ht4, hskip3]

theorem saveMarketLoop_cons (T : DoubleText α) (s : Stock α) (l : List (Stock α)) :
    saveMarketLoop T (s :: l) = s.ticker.chars ++ ' ' :: (T.print s.price ++
      ' ' :: (T.print s.totalShares ++ '\n' :: saveMarketLoop T l)) := by
  simp [saveMarketLoop]

theorem skipSpace_saveMarketLoop (T : DoubleText α) (l : List (Stock α))
    (hl : ∀ s ∈ l, s.ticker.Readable) :
    skipSpace (saveMarketLoop T l) = saveMarketLoop T l := by
  cases l with
  | nil => rfl
  | cons s l =>
    obtain ⟨hne, hchars⟩ := hl s (List.mem_cons_self _ _)
    rw [saveMarketLoop_cons]
    cases hch : s.ticker.chars with
    | nil => exact absurd hch hne
    | cons c cs =>
      have hc : isspace c = false := hchars c (by rw [hch]; exact List.mem_cons_self _ _)
      simp only [List.cons_append]
      exact skipSpace_of_not_space _ hc

theorem createMarketLoop_saved (T : DoubleText α) (D : DoubleOps α) (l : List (Stock α))
    (hl : ∀ s ∈ l, s.Portable T) :
    ∀ (fuel : Nat) (v : StockLocals α) (acc : List (Stock α)),
      (saveMarketLoop T l).length ≤ fuel →
      createMarketLoop T D fuel (saveMarketLoop T l) v (some { head := acc })
        = if l.all (Stock.accepted D) = true then ⟨[], some { head := l.reverse ++ acc }⟩
          else ⟨[.stockNotPositive], none⟩ := by
  have hEOF : (3 : Int) ≠ EOF := by decide
  have hne : SUCCESS ≠ FAILURE := by decide
  induction l with
  | nil =>
    intro fuel v acc _
    cases fuel with
    | zero => simp [createMarketLoop]
    | succ fuel => simp [createMarketLoop, saveMarketLoop, fscanfStock, skipSpace]
  | cons s l ih =>
    intro fuel v acc hfuel
    have hl2 : ∀ t ∈ l, t.Portable T := fun t ht => hl t (List.mem_cons_of_mem _ ht)
    have hs := hl s (List.mem_cons_self _ _)
    have hrest := skipSpace_saveMarketLoop T l (fun t ht => (hl2 t ht).1)
    have hline := fscanfStock_line T s hs (saveMarketLoop T l) hrest v
    rw [saveMarketLoop_cons] at hfuel ⊢
    cases fuel with
    | zero =>
      obtain ⟨hne2, -⟩ := hs.1
      cases hch : s.ticker.chars with
      | nil => exact absurd hch hne2
      | cons c cs =>
        rw [hch] at hfuel
        simp at hfuel
    | succ fuel =>
      have hfuel2 : (saveMarketLoop T l).length ≤ fuel := by
        simp only [List.length_append, List.length_cons] at hfuel
        omega
      simp only [createMarketLoop, hline, hEOF, if_false, insertStock, createStock,
        copyTicker_self]
      by_cases hacc : s.accepted D = true
      · have hbad : (D.le s.price D.zero || D.le s.totalShares D.zero) = false := by
          simpa [Stock.accepted] using hacc
        simp only [hbad, Bool.false_eq_true, if_false, hne]
        rw [ih hl2 fuel _ (s :: acc) hfuel2]
        simp [List.all_cons, hacc]
      · have hbad : (D.le s.price D.zero || D.le s.totalShares D.zero) = true := by
          cases hb : (D.le s.price D.zero || D.le s.totalShares D.zero) with
          | true => rfl
          | false => exact absurd (by simp [Stock.accepted, hb]) hacc
        simp [hbad, List.all_cons, hacc]

/-! ## Saving and loading a market -/

theorem takeWhile_append_stop (q : Char → Bool) (w : List Char) (c : Char)
    (rest : List Char) (hw : w.all q = true) (hc : q c = false) :
    (w ++ c :: rest).takeWhile q = w := by
  induction w with
  | nil => simp [List.takeWhile, hc]
  | cons d ds ih =>
    simp only [List.all_cons, Bool.and_eq_true] at hw
    simp [List.takeWhile, hw.1, ih hw.2]

theorem ieeeText_readsBack (x : F64) (hp : F64.print x ≠ [])
    (hw : (F64.print x).all (fun c => !isspace c) = true)
    (hscan : F64.scanToken (F64.print x) = (some x, (F64.print x).length)) :
    ReadsBack ieeeText x := by
  refine ⟨?_, fun rest => ⟨?_, ?_⟩⟩
  · show ∃ c cs, F64.print x = c :: cs ∧ isspace c = false
    cases hpr : F64.print x with
    | nil => exact absurd hpr hp
    | cons c cs =>
      rw [hpr] at hw
      simp only [List.all_cons, Bool.and_eq_true, Bool.not_eq_true'] at hw
      exact ⟨c, cs, rfl, hw.1⟩
  · show F64.scanToken ((F64.print x ++ ' ' :: rest).takeWhile fun c => !isspace c) = _
    rw [takeWhile_append_stop _ _ _ _ hw (by decide), hscan]
    rfl
  · show F64.scanToken ((F64.print x ++ '\n' :: rest).takeWhile fun c => !isspace c) = _
    rw [takeWhile_append_stop _ _ _ _ hw (by decide), hscan]
    rfl

/-- C12, as the code has it.  For every market whose records are accepted by
`insertStock` (neither `price <= 0` nor `totalShares <= 0`), whose tickers are not empty
and hold no white space, and whose prices and total shares are read back unchanged from
the text `%lf` writes for them: `saveMarket` succeeds, and `createMarket` on the text it
wrote succeeds and returns the market of the same records, the same tickers each with the
same price and the same total shares, in the reverse order. -/
theorem market_round_trip (T : DoubleText α) (D : DoubleOps α) (m : Market α)
    (hport : ∀ s ∈ m.head, s.Portable T) (hacc : ∀ s ∈ m.head, s.accepted D = true)
    (v : StockLocals α) :
    (saveMarket T (some m) true).status = SUCCESS ∧
    createMarket T D (saveMarket T (some m) true).state v
      = ⟨[], some { head := m.head.reverse }⟩ ∧
    m.head.reverse.Perm m.head := by
  refine ⟨rfl, ?_, List.reverse_perm _⟩
  have hall : m.head.all (Stock.accepted D) = true := List.all_eq_true.2 hacc
  simp only [saveMarket, if_true, createMarket]
  rw [createMarketLoop_saved T D m.head hport _ v [] (Nat.le_refl _)]
  simp [hall]

section Binary64Market

set_option maxRecDepth 100000

theorem market_round_trip_witness :
    createMarket ieeeText ieeeOps (some twoStocksText) zeroStockLocals
        = ⟨[], some twoStocks⟩ ∧
    (saveMarket ieeeText (some twoStocks) true).state
        = some "ZZZZ 0.500000 20.000000\nAAPL 150.000000 1000.000000\n".toList ∧
    (saveMarket ieeeText (some twoStocks) true).status = SUCCESS ∧
    createMarket ieeeText ieeeOps (saveMarket ieeeText (some twoStocks) true).state
        zeroStockLocals = ⟨[], some { head := twoStocks.head.reverse }⟩ ∧
    twoStocks.head.reverse.Perm twoStocks.head :=
  ⟨by decide, by decide,
    market_round_trip ieeeText ieeeOps twoStocks
      (by
        intro s hs
        simp only [twoStocks, List.mem_cons, List.mem_singleton, List.not_mem_nil,
          or_false] at hs
        rcases hs with rfl | rfl
        · exact ⟨⟨by decide, by decide⟩,
            ieeeText_readsBack _ (by decide) (by decide) (by decide),
            ieeeText_readsBack _ (by decide) (by decide) (by decide)⟩
        · exact ⟨⟨by decide, by decide⟩,
            ieeeText_readsBack _ (by decide) (by decide) (by decide),
            ieeeText_readsBack _ (by decide) (by decide) (by decide)⟩)
      (by decide) zeroStockLocals⟩

/-- C12 as stated fails in binary64.  `createMarket` loads the file `AAPL 0.000000001 1000`
as a market of one record, with a price `> 0`; `saveMarket` writes it as
`AAPL 0.000000 1000.000000`, six digits after the point; and `createMarket` on that text
fails, `insertStock` refusing the price `0`.  Likewise the market `insertStock` builds
with an empty ticker is written with nothing before the first blank, and `createMarket`
takes `1.00` for the ticker and fails. -/
theorem market_round_trip_counterexample :
    (createMarket ieeeText ieeeOps (some tinyPriceText) zeroStockLocals
        = ⟨[], some tinyPriceMarket⟩ ∧
      saveMarket ieeeText (some tinyPriceMarket) true
        = ⟨SUCCESS, [], some "AAPL 0.000000 1000.000000\n".toList⟩ ∧
      createMarket ieeeText ieeeOps (saveMarket ieeeText (some tinyPriceMarket) true).state
        zeroStockLocals = ⟨[.stockNotPositive], none⟩) ∧
    (insertStock ieeeOps (some { head := [] }) [] (F64.ofNat 1) (F64.ofNat 1)
        = ⟨SUCCESS, [], some emptyTickerMarket⟩ ∧
      saveMarket ieeeText (some emptyTickerMarket) true
        = ⟨SUCCESS, [], some " 1.000000 1.000000\n".toList⟩ ∧
      createMarket ieeeText ieeeOps (saveMarket ieeeText (some emptyTickerMarket) true).state
        zeroStockLocals = ⟨[.stockNotPositive], none⟩) :=
  ⟨⟨by decide, by decide, by decide⟩, ⟨by decide, by decide, by decide⟩⟩

end Binary64Market

/-! ## The order of the records after a reload -/

section Binary64Reload

set_option maxRecDepth 100000

end Binary64Reload

/-! ## Records that are not well formed -/

section Binary64Malformed

set_option maxRecDepth 100000

/-- C14, at the failing input.  On the file `AAPL 150 1000`, `MSFT abc 5`, whose second
record has a price that is not a number, `fscanf` returns `1` and then `2`, neither of
which is `EOF`, and `createMarket` returns a market of three records, two of them made of
stale values, where the claim has it fail.  A record that `insertStock` refuses does make
`createMarket` fail, whatever follows it. -/
theorem createMarket_malformed :
    (fscanfStock ieeeText "MSFT abc 5\n".toList
        { ticker := AAPL, price := F64.ofNat 150, totalShares := F64.ofNat 1000 }).1 = 1 ∧
    (fscanfStock ieeeText "abc 5\n".toList
        { ticker := ['M', 'S', 'F', 'T'], price := F64.ofNat 150,
          totalShares := F64.ofNat 1000 }).1 = 2 ∧
    createMarket ieeeText ieeeOps (some malformedText) zeroStockLocals
      = ⟨[], some
          { head := [{ price := F64.ofNat 5, totalShares := F64.ofNat 1000,
                       ticker := copyTicker ['a', 'b', 'c'] },
                     { price := F64.ofNat 150, totalShares := F64.ofNat 1000,
                       ticker := copyTicker ['M', 'S', 'F', 'T'] },
                     { price := F64.ofNat 150, totalShares := F64.ofNat 1000,
                       ticker := copyTicker AAPL }] }⟩ ∧
    createMarket ieeeText ieeeOps (some rejectedText) zeroStockLocals
      = ⟨[.stockNotPositive], none⟩ :=
  ⟨by decide, by decide, by decide, by decide⟩

end Binary64Malformed

/-! ## Saving and loading a portfolio -/

theorem fscanfShare_length_lt (T : DoubleText α) (input : List Char) (v : ShareLocals α)
    (h : (fscanfShare T input v).1 ≠ EOF) :
    (fscanfShare T input v).2.2.length < input.length := by
  have h0 := skipSpace_length_le input
  unfold fscanfShare at h ⊢
  split at h
  · exact absurd rfl h
  · rename_i c cs hskip
    clear h
    have hc := skipSpace_head hskip
    have h1 : (scanString TICKER_LENGTH (c :: cs)).2.length < (c :: cs).length :=
      scanString_length_lt 3 cs hc
    rw [hskip] at h0
    have h2 := skipSpace_length_le (scanString TICKER_LENGTH (c :: cs)).2
    have hlt : ∀ l : List Char,
        l.length ≤ (skipSpace (scanString TICKER_LENGTH (c :: cs)).2).length →
        l.length < input.length := fun l hl => by omega
    dsimp only
    split
    · exact hlt [] (Nat.zero_le _)
    · rename_i c1 cs1 hskip1
      rw [hskip1] at hlt
      split
      · rename_i n hscan
        exact hlt _ (by rw [List.length_drop]; omega)
      · rename_i shares n hscan
        have h3 : (List.drop n (c1 :: cs1)).length ≤ (c1 :: cs1).length := by
          rw [List.length_drop]
          omega
        have h4 := skipSpace_length_le (List.drop n (c1 :: cs1))
        exact hlt _ (by dsimp only; omega)

theorem createPortfolioLoop_fuel (T : DoubleText α) (D : DoubleOps α) (fuel : Nat) :
    ∀ (input : List Char) (v : ShareLocals α) (portfolio : Option (Portfolio α)),
      input.length ≤ fuel →
      createPortfolioLoop T D fuel input v portfolio
        = createPortfolioLoop T D input.length input v portfolio := by
  induction fuel using Nat.strong_induction_on with
  | _ fuel ih =>
    intro input v portfolio hle
    rcases Nat.eq_or_lt_of_le hle with heq | hlt
    · rw [heq]
    · cases fuel with
      | zero => exact absurd hlt (Nat.not_lt_zero _)
      | succ fuel =>
        by_cases hr : (fscanfShare T input v).1 = EOF
        · cases hlen : input.length with
          | zero => simp [createPortfolioLoop, hr]
          | succ n => simp [createPortfolioLoop, hr]
        · have hdec := fscanfShare_length_lt T input v hr
          cases hlen : input.length with
          | zero => rw [hlen] at hdec; exact absurd hdec (Nat.not_lt_zero _)
          | succ n =>
            rw [hlen] at hdec hlt
            simp only [createPortfolioLoop, hr, if_false]
            split
            · rw [ih fuel (Nat.lt_succ_self _) _ _ _ (by omega),
                ih n (by omega) _ _ _ (by omega)]
            · split
              · rfl
              · rw [ih fuel (Nat.lt_succ_self _) _ _ _ (by omega),
                  ih n (by omega) _ _ _ (by omega)]

theorem savePortfolioLoop_cons (T : DoubleText α) (s : Share α) (l : List (Share α)) :
    savePortfolioLoop T (s :: l)
      = s.ticker.chars ++ ' ' :: (T.print s.count ++ '\n' :: savePortfolioLoop T l) := by
  simp [savePortfolioLoop]

theorem skipSpace_savePortfolioLoop (T : DoubleText α) (l : List (Share α))
    (hl : ∀ s ∈ l, s.ticker.Readable) :
    skipSpace (savePortfolioLoop T l) = savePortfolioLoop T l := by
  cases l with
  | nil => rfl
  | cons s l =>
    obtain ⟨hne, hchars⟩ := hl s (List.mem_cons_self _ _)
    rw [savePortfolioLoop_cons]
    cases hch : s.ticker.chars with
    | nil => exact absurd hch hne
    | cons c cs =>
      have hc : isspace c = false := hchars c (by rw [hch]; exact List.mem_cons_self _ _)
      simp only [List.cons_append]
      exact skipSpace_of_not_space _ hc

theorem fscanfShare_line (T : DoubleText α) (s : Share α) (hs : s.Portable T)
    (rest : List Char) (hrest : skipSpace rest = rest) (v : ShareLocals α) :
    fscanfShare T (s.ticker.chars ++ ' ' :: (T.print s.count ++ '\n' :: rest)) v
      = (2, { ticker := s.ticker.chars, shares := s.count }, rest) := by
  obtain ⟨⟨hne, hchars⟩, hp⟩ := hs
  have hnl : isspace '\n' = true := by decide
  obtain ⟨-, hp2, -, hp4⟩ := hp.scan_blank rest
  have hpscan := (hp.2 rest).2
  have hword := scanString_ticker TICKER_LENGTH s.ticker.chars
    (T.print s.count ++ '\n' :: rest) hchars s.ticker.fits
  have hskip3 : skipSpace ('\n' :: rest) = rest := by
    simp [skipSpace, hnl, hrest]
  obtain ⟨⟨c1, cs1, hpe, hc1⟩, -⟩ := hp
  cases hch : s.ticker.chars with
  | nil => exact absurd hch hne
  | cons c cs =>
    have hc : isspace c = false := hchars c (by rw [hch]; exact List.mem_cons_self _ _)
    rw [hch] at hword
    simp only [List.cons_append] at hword ⊢
    unfold fscanfShare
    rw [skipSpace_of_not_space _ hc]
    simp only [hword, hp2]
    rw [hpe] at hpscan hp4 ⊢
    simp only [List.cons_append] at hpscan hp4 ⊢
    simp only [hpscan, hp4, hskip3]

theorem createPortfolioLoop_saved (T : DoubleText α) (D : DoubleOps α)
    (l : List (Share α)) (hl : ∀ s ∈ l, s.Portable T) (balance : α) :
    ∀ (fuel : Nat) (v : ShareLocals α) (acc : List (Share α)),
      (savePortfolioLoop T l).length ≤ fuel →
      createPortfolioLoop T D fuel (savePortfolioLoop T l) v
          (some { head := acc, balance := balance })
        = if (l.filter (Share.held D)).all (Share.accepted D) = true then
            ⟨[], some { head := (l.filter (Share.held D)).reverse ++ acc,
                        balance := balance }⟩
          else ⟨[.shareNegative], none⟩ := by
  have hEOF : (2 : Int) ≠ EOF := by decide
  have hne : SUCCESS ≠ FAILURE := by decide
  induction l with
  | nil =>
    intro fuel v acc _
    cases fuel with
    | zero => simp [createPortfolioLoop]
    | succ fuel => simp [createPortfolioLoop, savePortfolioLoop, fscanfShare, skipSpace]
  | cons s l ih =>
    intro fuel v acc hfuel
    have hl2 : ∀ t ∈ l, t.Portable T := fun t ht => hl t (List.mem_cons_of_mem _ ht)
    have hs := hl s (List.mem_cons_self _ _)
    have hrest := skipSpace_savePortfolioLoop T l (fun t ht => (hl2 t ht).1)
    have hline := fscanfShare_line T s hs (savePortfolioLoop T l) hrest v
    rw [savePortfolioLoop_cons] at hfuel ⊢
    cases fuel with
    | zero =>
      obtain ⟨hne2, -⟩ := hs.1
      cases hch : s.ticker.chars with
      | nil => exact absurd hch hne2
      | cons c cs =>
        rw [hch] at hfuel
        simp at hfuel
    | succ fuel =>
      have hfuel2 : (savePortfolioLoop T l).length ≤ fuel := by
        simp only [List.length_append, List.length_cons] at hfuel
        omega
      simp only [createPortfolioLoop, hline, hEOF, if_false]
      cases hzero : D.eq s.count D.zero with
      | true =>
        have hheld : s.held D = false := by simp [Share.held, hzero]
        simp only [if_true]
        rw [ih hl2 fuel _ acc hfuel2]
        simp [List.filter_cons, hheld]
      | false =>
        have hheld : s.held D = true := by simp [Share.held, hzero]
        simp only [Bool.false_eq_true, if_false, insertShare, createShare, copyTicker_self]
        cases hneg : D.lt s.count D.zero with
        | true =>
          have hacc : s.accepted D = false := by simp [Share.accepted, hneg]
          simp [List.filter_cons, hheld, hacc]
        | false =>
          have hacc : s.accepted D = true := by simp [Share.accepted, hneg]
          simp only [Bool.false_eq_true, if_false, hne]
          rw [ih hl2 fuel _ (s :: acc) hfuel2]
          simp [List.filter_cons, hheld, hacc]

/-- C13, as the code has it.  `savePortfolio` writes the balance first and then one record
for every holding in memory, those of count `0` included.  For every portfolio whose
holdings are accepted by `insertShare` (no `count < 0`), whose tickers are not empty and
hold no white space, and whose balance and counts are read back unchanged from the text
`%lf` writes for them, `createPortfolio` on that text succeeds and returns the portfolio
with the same balance and exactly the holdings whose count is not `== 0`, in the reverse
order. -/
theorem portfolio_round_trip (T : DoubleText α) (D : DoubleOps α) (p : Portfolio α)
    (v : ShareLocals α) :
    (savePortfolio T (some p) true).status = SUCCESS ∧
    (savePortfolio T (some p) true).state
      = some (T.print p.balance ++ '\n' :: p.head.foldr
          (fun s text => s.ticker.chars ++ ' ' :: (T.print s.count ++ '\n' :: text)) []) ∧
    (ReadsBack T p.balance → (∀ s ∈ p.head, s.Portable T) →
      (∀ s ∈ p.head, s.accepted D = true) →
      createPortfolio T D (savePortfolio T (some p) true).state v
        = ⟨[], some { head := (p.head.filter (Share.held D)).reverse,
                      balance := p.balance }⟩) := by
  have hfold : ∀ l : List (Share α), savePortfolioLoop T l = l.foldr
      (fun s text => s.ticker.chars ++ ' ' :: (T.print s.count ++ '\n' :: text)) [] := by
    intro l
    induction l with
    | nil => rfl
    | cons s l ih => rw [savePortfolioLoop_cons, ih, List.foldr_cons]
  refine ⟨rfl, by simp only [savePortfolio, if_true, hfold], ?_⟩
  intro hbal hport hacc
  have hrest := skipSpace_savePortfolioLoop T p.head (fun t ht => (hport t ht).1)
  have hnl : isspace '\n' = true := by decide
  have hscan := (hbal.2 (savePortfolioLoop T p.head)).2
  have hdrop : (T.print p.balance ++ '\n' :: savePortfolioLoop T p.head).drop
      (T.print p.balance).length = '\n' :: savePortfolioLoop T p.head := List.drop_left _ _
  have hall : (p.head.filter (Share.held D)).all (Share.accepted D) = true := by
    rw [List.all_eq_true]
    intro s hs
    exact hacc s (List.mem_filter.1 hs).1
  have hbalance : fscanfBalance T (T.print p.balance ++ '\n' :: savePortfolioLoop T p.head)
      D.zero = (p.balance, savePortfolioLoop T p.head) := by
    obtain ⟨⟨c, cs, hp, hc⟩, -⟩ := hbal
    unfold fscanfBalance
    rw [hp] at hscan hdrop ⊢
    simp only [List.cons_append] at hscan hdrop ⊢
    rw [skipSpace_of_not_space _ hc]
    simp only [hscan, hdrop]
    simp [skipSpace, hnl, hrest]
  simp only [savePortfolio, if_true, createPortfolio, hbalance]
  rw [createPortfolioLoop_saved T D p.head hport p.balance _ v [] (Nat.le_refl _)]
  simp [hall]

section Binary64Portfolio

set_option maxRecDepth 100000

theorem portfolio_round_trip_witness :
    (savePortfolio ieeeText (some soldOut) true).state
      = some "250.000000\nAAPL 5.000000\nZZZZ 0.000000\n".toList ∧
    (soldOut.head.filter (Share.held ieeeOps)).reverse
      = [{ count := F64.ofNat 5, ticker := copyTicker AAPL }] ∧
    createPortfolio ieeeText ieeeOps (savePortfolio ieeeText (some soldOut) true).state
        zeroShareLocals
      = ⟨[], some { head := (soldOut.head.filter (Share.held ieeeOps)).reverse,
                    balance := soldOut.balance }⟩ :=
  ⟨by decide, by decide,
    (portfolio_round_trip ieeeText ieeeOps soldOut zeroShareLocals).2.2
      (ieeeText_readsBack _ (by decide) (by decide) (by decide))
      (by
        intro s hs
        simp only [soldOut, List.mem_cons, List.mem_singleton, List.not_mem_nil,
          or_false] at hs
        rcases hs with rfl | rfl
        · exact ⟨⟨by decide, by decide⟩,
            ieeeText_readsBack _ (by decide) (by decide) (by decide)⟩
        · exact ⟨⟨by decide, by decide⟩,
            ieeeText_readsBack _ (by decide) (by decide) (by decide)⟩)
      (by decide)⟩

/-- C13 as stated fails in binary64.  `createPortfolio` loads the file `0.5`,
`AAPL 0.000000001` as a portfolio with one holding, whose count is not `0`;
`savePortfolio` writes the holding as `AAPL 0.000000`, six digits after the point; and
`createPortfolio` on that text skips the record: the holding, whose count is not zero, is
not in the portfolio loaded.  Likewise the holding `insertShare` builds with an empty
ticker and the count `5` is written with nothing before the blank, and `createPortfolio`
takes `5.00` for the ticker and skips the record. -/
theorem portfolio_round_trip_counterexample :
    (createPortfolio ieeeText ieeeOps (some dustText) zeroShareLocals
        = ⟨[], some dustPortfolio⟩ ∧
      dustPortfolio.head.filter (Share.held ieeeOps) = dustPortfolio.head ∧
      savePortfolio ieeeText (some dustPortfolio) true
        = ⟨SUCCESS, [], some "0.500000\nAAPL 0.000000\n".toList⟩ ∧
      createPortfolio ieeeText ieeeOps
        (savePortfolio ieeeText (some dustPortfolio) true).state zeroShareLocals
        = ⟨[], some { head := [], balance := dustPortfolio.balance }⟩) ∧
    (insertShare ieeeOps (some { head := [], balance := F64.ofNat 250 }) [] (F64.ofNat 5)
        = ⟨SUCCESS, [], some emptyTickerPortfolio⟩ ∧
      emptyTickerPortfolio.head.filter (Share.held ieeeOps) = emptyTickerPortfolio.head ∧
      savePortfolio ieeeText (some emptyTickerPortfolio) true
        = ⟨SUCCESS, [], some "250.000000\n 5.000000\n".toList⟩ ∧
      createPortfolio ieeeText ieeeOps
        (savePortfolio ieeeText (some emptyTickerPortfolio) true).state zeroShareLocals
        = ⟨[], some { head := [], balance := emptyTickerPortfolio.balance }⟩) :=
  ⟨⟨by decide, by decide, by decide, by decide⟩,
    ⟨by decide, by decide, by decide, by decide⟩⟩

end Binary64Portfolio

end Marketsim
